import Mathlib

/-!
# Ukkonen suffix-tree construction (`src/main.cpp`)

Shallow embedding of `SuffixTree` and the properties of its construction.

Modelling conventions.

* A symbol (`char`) is a natural number; `0` is the NUL symbol `'\0'`.
  The text `s` is a list of symbols.
* The heap of `Node` objects is a list: the address of a node is its index
  in the list, the root is at address `0`, `make_unique<Node>()` appends a
  node.  A `Node *` is `some address`, `nullptr` is `none`.  Nodes are never
  freed while the tree is alive.
* `std::map<char, Transition>` is an association list with unique keys.
* The fields `to` and `end` are written `to_` and `end_`.
* Reads that the C++ program cannot perform (`map::at` on a missing key,
  dereferencing `nullptr`, `optional::value` on `nullopt`, reading the text
  beyond its terminating NUL) make the model return `none`.
* `size_t` subtraction that would wrap around produces an index far beyond
  any text; such a read is reported as `none`, such a comparison is false.
* `ExportToDot` only writes files and the `id` field used for printing; it
  is not part of the model.
-/

namespace Ukkonen

/-- `Transition`: an edge owning its child `node`, labelled `s[start, end)`. -/
structure Transition where
  node : Option Nat
  start : Nat
  end_ : Option Nat
  deriving DecidableEq, Repr

/-- `Node`: outgoing transitions keyed by first symbol, and the suffix link. -/
structure Node where
  to_ : List (Nat × Transition)
  suffix_link : Option Nat
  deriving DecidableEq, Repr

/-- `ActivePoint`: `c = 0` means no current edge. -/
structure ActivePoint where
  node : Nat
  c : Nat
  length : Nat
  deriving DecidableEq, Repr

/-- `SuffixTree`: the text, the heap of nodes (root at address 0), the
active point, `remainder` and `node_count`. -/
structure SuffixTree where
  s : List Nat
  heap : List Node
  ap : ActivePoint
  remainder : Nat
  node_count : Nat
  deriving DecidableEq, Repr

/-- `s[i]` on a `const std::string`: position `size()` holds NUL, further
positions cannot be read. -/
def charAt (s : List Nat) (i : Nat) : Option Nat :=
  if i < s.length then s[i]? else if i = s.length then some 0 else none

/-- `map::find`. -/
def mapFind (m : List (Nat × Transition)) (k : Nat) : Option Transition :=
  match m with
  | [] => none
  | (k', t) :: rest => if k' = k then some t else mapFind rest k

/-- `map::emplace`: inserts only when the key is absent. -/
def mapEmplace (m : List (Nat × Transition)) (k : Nat) (t : Transition) :
    List (Nat × Transition) :=
  match mapFind m k with
  | some _ => m
  | none => m ++ [(k, t)]

/-- Assignment through a reference to the value stored under key `k`. -/
def mapSet (m : List (Nat × Transition)) (k : Nat) (t : Transition) :
    List (Nat × Transition) :=
  match m with
  | [] => []
  | (k', t') :: rest => if k' = k then (k', t) :: rest else (k', t') :: mapSet rest k t

/-- The default-constructed `Transition()`. -/
def Transition.default : Transition := ⟨none, 0, none⟩

/-- `map::operator[]`: inserts a default-constructed value when the key is
absent, and returns the map together with the value found. -/
def mapIndex (m : List (Nat × Transition)) (k : Nat) :
    List (Nat × Transition) × Transition :=
  match mapFind m k with
  | some t => (m, t)
  | none => (m ++ [(k, Transition.default)], Transition.default)

/-- Replace the node stored at address `a`. -/
def setNode (h : List Node) (a : Nat) (n : Node) : List Node := h.set a n

/-- `ap.node->to[ap.c]` executed on the heap: the possibly extended heap and
the transition. Fails when `a` is not the address of a node. -/
def heapIndex (h : List Node) (a k : Nat) : Option (List Node × Transition) :=
  match h[a]? with
  | none => none
  | some n =>
    let r := mapIndex n.to_ k
    some (setNode h a { n with to_ := r.1 }, r.2)

/-- `SuffixTree::NeedToSplit`. -/
def NeedToSplit (t : SuffixTree) (c : Nat) : Option Bool :=
  match t.heap[t.ap.node]? with
  | none => none
  | some n =>
    if t.ap.c ≠ 0 then
      match mapFind n.to_ t.ap.c with
      | none => none
      | some tr =>
        match charAt t.s (tr.start + t.ap.length) with
        | none => none
        | some x => some (x != c)
    else
      some (mapFind n.to_ c).isNone

/-- The loop of `SuffixTree::FixLengthOverflow`; `fuel` bounds the number of
hops, running out of fuel is reported as `none`. -/
def FixLengthOverflowLoop (s : List Nat) (index : Nat) :
    Nat → List Node → ActivePoint → Option (List Node × ActivePoint)
  | 0, _, _ => none
  | fuel + 1, h, ap =>
    if ap.c ≠ 0 then
      match heapIndex h ap.node ap.c with
      | none => none
      | some (h1, tr) =>
        match tr.end_ with
        | none => some (h1, ap)
        | some e =>
          if tr.start ≤ e ∧ ap.length > e - tr.start then
            let node_len := e - tr.start
            if ap.length ≤ index + node_len then
              match charAt s (index + node_len - ap.length), tr.node with
              | some next_c, some child =>
                FixLengthOverflowLoop s index fuel h1
                  { node := child, c := next_c, length := ap.length - node_len }
              | _, _ => none
            else none
          else some (h1, ap)
    else some (h, ap)

/-- `SuffixTree::FixLengthOverflow`. -/
def FixLengthOverflow (t : SuffixTree) (index : Nat) : Option SuffixTree :=
  match FixLengthOverflowLoop t.s index (t.ap.length + 1) t.heap t.ap with
  | none => none
  | some (h, ap) =>
    if ap.c ≠ 0 then
      match heapIndex h ap.node ap.c with
      | none => none
      | some (h1, to_c) =>
        match to_c.end_ with
        | some e =>
          if to_c.start ≤ e ∧ ap.length = e - to_c.start then
            match to_c.node with
            | some child =>
              some { t with heap := h1, ap := { node := child, c := 0, length := 0 } }
            | none => none
          else some { t with heap := h1, ap := ap }
        | none => some { t with heap := h1, ap := ap }
    else some { t with heap := h, ap := ap }

/-- Store `link` in `v->suffix_link`. -/
def setLink (h : List Node) (v link : Nat) : List Node :=
  match h[v]? with
  | none => h
  | some n => setNode h v { n with suffix_link := some link }

/-- The edge-splitting branch of `AddSuffix` (lines 117-136): returns the new
tree and the address of the internal node created. -/
def splitBranch (t : SuffixTree) (c index : Nat) (prev_created : Option Nat) :
    Option (SuffixTree × Nat) :=
  match heapIndex t.heap t.ap.node t.ap.c with
  | none => none
  | some (h1, to_c) =>
    let split_end := to_c.start + t.ap.length
    let m := h1.length
    match charAt t.s split_end, h1[t.ap.node]? with
    | some x, some n =>
      let to1 := mapEmplace [] x ⟨to_c.node, split_end, to_c.end_⟩
      let hasC := (mapFind to1 c).isSome
      let to2 := mapEmplace to1 c ⟨some (m + 1), index, none⟩
      let n' : Node := { n with to_ := mapSet n.to_ t.ap.c ⟨some m, to_c.start, some split_end⟩ }
      let h2 := setNode h1 t.ap.node n' ++ [⟨to2, none⟩]
      let h3 := if hasC then h2 else h2 ++ [⟨[], none⟩]
      let h4 := match prev_created with
        | some p => setLink h3 p m
        | none => h3
      some ({ t with heap := h4, node_count := t.node_count + 2 }, m)
    | _, _ => none

/-- The leaf-adding branch of `AddSuffix` (lines 138-146). -/
def leafBranch (t : SuffixTree) (c index : Nat) (prev_created : Option Nat) :
    Option SuffixTree :=
  match t.heap[t.ap.node]? with
  | none => none
  | some n =>
    let m := t.heap.length
    let h1 := match mapFind n.to_ c with
      | some _ => t.heap
      | none => setNode t.heap t.ap.node { n with to_ := mapEmplace n.to_ c ⟨some m, index, none⟩ }
                  ++ [⟨[], none⟩]
    let h2 := match prev_created with
      | some p => if t.ap.node ≠ 0 then setLink h1 p t.ap.node else h1
      | none => h1
    some { t with heap := h2, node_count := t.node_count + 1 }

/-- The cursor advance after an extension (lines 149-158), before
`FixLengthOverflow`. -/
def advance (t : SuffixTree) (index : Nat) : Option SuffixTree :=
  let remainder := t.remainder - 1
  if t.ap.node = 0 then
    let length := if t.ap.length > 0 then t.ap.length - 1 else t.ap.length
    if length ≠ 0 then
      if remainder ≤ index then
        match charAt t.s (index - remainder + 1) with
        | some x => some { t with remainder := remainder, ap := { t.ap with length := length, c := x } }
        | none => none
      else none
    else some { t with remainder := remainder, ap := { t.ap with length := length, c := 0 } }
  else
    match t.heap[t.ap.node]? with
    | none => none
    | some n =>
      let target := match n.suffix_link with
        | some l => l
        | none => 0
      some { t with remainder := remainder, ap := { t.ap with node := target } }

/-- One pass through the body of the `while` loop of `AddSuffix` (lines
115-177), entered with `remainder > 0`: the new tree, the new value of
`prev_created`, and whether the loop was left through `break`. -/
def loopBody (c index : Nat) (t : SuffixTree) (prev_created : Option Nat) :
    Option (SuffixTree × Option Nat × Bool) :=
  match NeedToSplit t c with
  | none => none
  | some true =>
    let r : Option (SuffixTree × Option Nat) :=
      if t.ap.c ≠ 0 then
        match splitBranch t c index prev_created with
        | some (t1, m) => some (t1, some m)
        | none => none
      else
        match leafBranch t c index prev_created with
        | some t1 => some (t1, none)
        | none => none
    match r with
    | none => none
    | some (t1, prev) =>
      match advance t1 index with
      | none => none
      | some t2 =>
        match FixLengthOverflow t2 index with
        | none => none
        | some t3 => some (t3, prev, false)
  | some false =>
    let ap1 : ActivePoint :=
      { t.ap with c := if t.ap.c = 0 then c else t.ap.c, length := t.ap.length + 1 }
    let h1 := match prev_created with
      | some p => if t.ap.node ≠ 0 then setLink t.heap p t.ap.node else t.heap
      | none => t.heap
    match FixLengthOverflow { t with heap := h1, ap := ap1 } index with
    | none => none
    | some t3 => some (t3, none, true)

/-- The `while (remainder > 0)` loop of `AddSuffix`; every pass that does
not leave the loop decrements `remainder`, so `fuel = remainder` passes
suffice. -/
def AddSuffixLoop (c index : Nat) :
    Nat → SuffixTree → Option Nat → Option SuffixTree
  | 0, t, _ => if t.remainder > 0 then none else some t
  | fuel + 1, t, prev_created =>
    if t.remainder > 0 then
      match loopBody c index t prev_created with
      | none => none
      | some (t1, _, true) => some t1
      | some (t1, prev, false) => AddSuffixLoop c index fuel t1 prev
    else some t

/-- `SuffixTree::AddSuffix`. -/
def AddSuffix (t : SuffixTree) (c index : Nat) : Option SuffixTree :=
  AddSuffixLoop c index (t.remainder + 1) { t with remainder := t.remainder + 1 } none

/-- The body of the `if` in `FinishString`: fix the end when it is open. -/
def closeEdge (size : Nat) (tr : Transition) : Transition :=
  if tr.end_.isNone then { tr with end_ := some size } else tr

/-- Every open transition of a map fixed to `size`. -/
def closeEnds (size : Nat) (m : List (Nat × Transition)) : List (Nat × Transition) :=
  m.map fun e => (e.1, closeEdge size e.2)

/-- A node with every open transition fixed to `size`. -/
def closeNode (size : Nat) (nd : Node) : Node :=
  { nd with to_ := closeEnds size nd.to_ }

/-- A heap with every open transition fixed to `size`. -/
def closeHeap (size : Nat) (h : List Node) : List Node :=
  h.map (closeNode size)

/-- One iteration of the `for` loop of `FinishString` at node `v`, for the
transition stored under key `k`; `rec` is the recursive call. -/
def finishEdge (size : Nat) (rec : List Node → Nat → Option (List Node))
    (v : Nat) (h : List Node) (k : Nat) : Option (List Node) :=
  match h[v]? with
  | none => none
  | some n =>
    match mapFind n.to_ k with
    | none => none
    | some tr =>
      let h1 := setNode h v { n with to_ := mapSet n.to_ k (closeEdge size tr) }
      match tr.node with
      | none => none
      | some child => rec h1 child

/-- `SuffixTree::FinishString` on the node at address `v`; `fuel` bounds the
recursion depth, running out of fuel is reported as `none`. -/
def FinishString (size : Nat) : Nat → List Node → Nat → Option (List Node)
  | 0, _, _ => none
  | fuel + 1, h, v =>
    match h[v]? with
    | none => none
    | some n => (n.to_.map Prod.fst).foldlM (finishEdge size (FinishString size fuel) v) h

/-- The state built by the constructor before `Initialize` runs. -/
def SuffixTree.init (s : List Nat) : SuffixTree :=
  { s := s, heap := [⟨[], none⟩], ap := ⟨0, 0, 0⟩, remainder := 0, node_count := 0 }

/-- The `for` loop of `Initialize`: `AddSuffix(s[i], i)` for `i` from `index`
on, over the symbols `cs` that are left. -/
def addAll : List Nat → Nat → SuffixTree → Option SuffixTree
  | [], _, t => some t
  | c :: cs, index, t =>
    match AddSuffix t c index with
    | none => none
    | some t1 => addAll cs (index + 1) t1

/-- `SuffixTree::Initialize`. The recursion of `FinishString` is as deep as
the longest path of the tree, whose label has at most `s.size()` symbols,
so `s.size() + 1` levels of recursion are allowed for. -/
def Initialize (t : SuffixTree) : Option SuffixTree :=
  match addAll t.s 0 { t with node_count := t.node_count + 1 } with
  | none => none
  | some t1 =>
    match FinishString t1.s.length (t1.s.length + 1) t1.heap 0 with
    | none => none
    | some h => some { t1 with heap := h }

/-- The constructor `SuffixTree::SuffixTree(s)`. -/
def build (s : List Nat) : Option SuffixTree :=
  Initialize (SuffixTree.init s)

/-! ## Observation points and specification vocabulary -/

/-- The trees seen after each pass through the loop body of `AddSuffix`
(the points where the source calls `ExportToDot(index + 1)`). -/
def loopTrace (c index : Nat) : Nat → SuffixTree → Option Nat → List SuffixTree
  | 0, _, _ => []
  | fuel + 1, t, prev_created =>
    if t.remainder > 0 then
      match loopBody c index t prev_created with
      | none => []
      | some (t1, _, true) => [t1]
      | some (t1, prev, false) => t1 :: loopTrace c index fuel t1 prev
    else []

/-- The trees seen while `Initialize` consumes the symbols `cs` from
position `index` on. -/
def textTrace : List Nat → Nat → SuffixTree → List SuffixTree
  | [], _, _ => []
  | c :: cs, index, t =>
    loopTrace c index (t.remainder + 1) { t with remainder := t.remainder + 1 } none ++
      match AddSuffix t c index with
      | none => []
      | some t1 => textTrace cs (index + 1) t1

/-- Every tree observable during and after the construction for the text
`s`: the initial tree, the tree after each pass of the extension loop, and
the finished tree. -/
def snapshots (s : List Nat) : List SuffixTree :=
  SuffixTree.init s ::
    (textTrace s 0 { SuffixTree.init s with node_count := 1 } ++
      match build s with
      | none => []
      | some t => [t])

/-- A leaf is a node with no outgoing edges. -/
def Node.isLeaf (nd : Node) : Bool := nd.to_.isEmpty

/-- Number of leaves among the nodes of the heap. -/
def leafCount (h : List Node) : Nat := h.countP Node.isLeaf

/-- The keys of the outgoing edges of the node at address `v`. -/
def keysAt (h : List Node) (v : Nat) : List Nat :=
  match h[v]? with
  | none => []
  | some nd => nd.to_.map Prod.fst

/-- The transition stored under key `k` at the node at address `v`. -/
def edgeAt (h : List Node) (v k : Nat) : Option Transition :=
  match h[v]? with
  | none => none
  | some nd => mapFind nd.to_ k

/-- The child reached from the node at address `v` through key `k`. -/
def childAt (h : List Node) (v k : Nat) : Option Nat :=
  match edgeAt h v k with
  | none => none
  | some tr => tr.node

/-- Whether the node at address `v` exists and is a leaf. -/
def leafAt (h : List Node) (v : Nat) : Bool :=
  match h[v]? with
  | none => false
  | some nd => nd.isLeaf

/-- The suffix link of the node at address `v`. -/
def linkAt (h : List Node) (v : Nat) : Option Nat :=
  match h[v]? with
  | none => none
  | some nd => nd.suffix_link

/-- The label `s[start, end)` of a transition, an open end standing for the
end of the text. -/
def edgeLabel (s : List Nat) (tr : Transition) : List Nat :=
  (s.drop tr.start).take (tr.end_.getD s.length - tr.start)

/-- `PathLabel s h v w`: `w` is the concatenation of the edge labels along a
path of transitions from the root to the node at address `v`. -/
inductive PathLabel (s : List Nat) (h : List Node) : Nat → List Nat → Prop
  | root : PathLabel s h 0 []
  | edge (u q k : Nat) (w : List Nat) (nd : Node) (tr : Transition) :
      PathLabel s h u w → h[u]? = some nd → (k, tr) ∈ nd.to_ → tr.node = some q →
      PathLabel s h q (w ++ edgeLabel s tr)

/-- `FixedPathLabel s h v w`: `w` is the concatenation of the labels
`s[start, end)` along a path of transitions from the root to the node at
address `v`, every transition of the path having a fixed `end` (the source
reads the length of a label as `end.value() - start`, which has no value for
an open end). -/
inductive FixedPathLabel (s : List Nat) (h : List Node) : Nat → List Nat → Prop
  | root : FixedPathLabel s h 0 []
  | edge (u q k e : Nat) (w : List Nat) (nd : Node) (tr : Transition) :
      FixedPathLabel s h u w → h[u]? = some nd → (k, tr) ∈ nd.to_ → tr.node = some q →
      tr.end_ = some e → FixedPathLabel s h q (w ++ (s.drop tr.start).take (e - tr.start))

/-- A valid text: non-empty, without NUL, and its last symbol occurs nowhere
else. -/
def ValidText (s : List Nat) : Prop :=
  s ≠ [] ∧ 0 ∉ s ∧ ∀ x ∈ s.getLast?, x ∉ s.dropLast

instance (s : List Nat) : Decidable (ValidText s) := by
  unfold ValidText; infer_instance

/-- Every edge is stored under the first symbol of its label. -/
def keysMatch (s : List Nat) (h : List Node) : Prop :=
  ∀ nd ∈ h, ∀ e ∈ nd.to_, charAt s e.2.start = some e.1

instance (s : List Nat) (h : List Node) : Decidable (keysMatch s h) := by
  unfold keysMatch; infer_instance

/-- `e1` is the edge `e`, except that an open end may have been fixed to
`size`. -/
def edgeLe (size : Nat) (e e1 : Nat × Transition) : Prop :=
  e1.1 = e.1 ∧ e1.2.node = e.2.node ∧ e1.2.start = e.2.start ∧
    (e1.2.end_ = e.2.end_ ∨ (e.2.end_ = none ∧ e1.2.end_ = some size))

/-- Same node up to open ends fixed to `size`. -/
def nodeLe (size : Nat) (n n1 : Node) : Prop :=
  n1.suffix_link = n.suffix_link ∧ List.Forall₂ (edgeLe size) n.to_ n1.to_

/-- Same heap up to open ends fixed to `size`: same addresses, keys,
children, starts, fixed ends and suffix links. -/
def heapLe (size : Nat) (h h1 : List Node) : Prop :=
  h1.length = h.length ∧
    ∀ (u : Nat) (nd nd1 : Node), h[u]? = some nd → h1[u]? = some nd1 → nodeLe size nd nd1

/-- No transition of the node at address `u` has an open end. -/
def closedAt (h : List Node) (u : Nat) : Prop :=
  ∀ k tr, edgeAt h u k = some tr → tr.end_ ≠ none

/-- `Desc h v u`: the node `u` is `v` or lies below `v` in the tree. -/
inductive Desc (h : List Node) (v : Nat) : Nat → Prop
  | refl : Desc h v v
  | child (u k q : Nat) (tr : Transition) :
      Desc h v u → edgeAt h u k = some tr → tr.node = some q → Desc h v q

/-- `Ranked rank bound h`: every transition of the heap leads to a node of
the heap with a strictly larger rank, and ranks are at most `bound`; the
heap is then a forest with paths of at most `bound` transitions. -/
def Ranked (rank : Nat → Nat) (bound : Nat) (h : List Node) : Prop :=
  ∀ (u k : Nat) (tr : Transition), edgeAt h u k = some tr →
    ∃ q, tr.node = some q ∧ q < h.length ∧ rank u < rank q ∧ rank q ≤ bound

/-! ## Words spelled by the tree -/

/-- The segment `s[a, b)` of the text. -/
def seg (s : List Nat) (a b : Nat) : List Nat := (s.drop a).take (b - a)

/-- One symbol further down the tree from the position `p` (a node, the key
of the edge the position lies on, and the number of symbols of that edge
already read; length `0` means the position is the node itself). Open ends
stand for the end of the text. -/
def step (s : List Nat) (h : List Node) (p : ActivePoint) (a : Nat) : Option ActivePoint :=
  let k := if p.length = 0 then a else p.c
  match edgeAt h p.node k with
  | none => none
  | some tr =>
    if tr.start + p.length < tr.end_.getD s.length ∧ s[tr.start + p.length]? = some a then
      if tr.start + p.length + 1 = tr.end_.getD s.length then
        match tr.node with
        | some q => some ⟨q, 0, 0⟩
        | none => none
      else some ⟨p.node, k, p.length + 1⟩
    else none

/-- The position reached by reading the word `w` from the position `p`. -/
def walk (s : List Nat) (h : List Node) : ActivePoint → List Nat → Option ActivePoint
  | p, [] => some p
  | p, a :: w =>
    match step s h p a with
    | none => none
    | some q => walk s h q w

/-- The position reached by reading `w` from the root. -/
def locus (s : List Nat) (h : List Node) (w : List Nat) : Option ActivePoint :=
  walk s h ⟨0, 0, 0⟩ w

/-- Every transition leads to a node other than the root, has a non-empty
label inside the text that starts with its key, extends the word of its
source to the word of its target, is open exactly when its target is a leaf,
and a fixed end is at most `i`. -/
def EdgeInv (s : List Nat) (i : Nat) (lab : Nat → List Nat) (h : List Node) : Prop :=
  ∀ (u k : Nat) (tr : Transition), edgeAt h u k = some tr →
    ∃ q, tr.node = some q ∧ q < h.length ∧ q ≠ 0 ∧
      tr.start < tr.end_.getD s.length ∧ tr.end_.getD s.length ≤ s.length ∧
      s[tr.start]? = some k ∧
      lab q = lab u ++ seg s tr.start (tr.end_.getD s.length) ∧
      (tr.end_ = none ↔ leafAt h q = true) ∧
      (∀ e, tr.end_ = some e → e ≤ i)

/-- `PosAt s h lab p w`: `p` is a position of the tree in normal form (at a
node, or strictly inside an edge) and the word spelled from the root to it
is `w`. -/
def PosAt (s : List Nat) (h : List Node) (lab : Nat → List Nat) (p : ActivePoint)
    (w : List Nat) : Prop :=
  p.node < h.length ∧
    ((p.length = 0 ∧ p.c = 0 ∧ w = lab p.node) ∨
      (0 < p.length ∧ ∃ tr, edgeAt h p.node p.c = some tr ∧
        tr.start + p.length < tr.end_.getD s.length ∧
        w = lab p.node ++ seg s tr.start (tr.start + p.length)))

/-- The invariant of the tree, for a text `s`, while (or just after) the
symbol at index `i` is processed, when the suffixes starting before `L`
already have their leaf. `lab v` is the word spelled from the root to the
node `v`; `prev` is the pending `prev_created`. -/
structure TreeInv (s : List Nat) (i L : Nat) (lab : Nat → List Nat) (h : List Node)
    (prev : Option Nat) : Prop where
  nonul : 0 ∉ s
  bound : L ≤ i + 1 ∧ i ≤ s.length ∧ L ≤ s.length
  root : 0 < h.length ∧ lab 0 = []
  nodup : ∀ u, (keysAt h u).Nodup
  edge : EdgeInv s i lab h
  reach : ∀ u, u < h.length → locus s h (lab u) = some ⟨u, 0, 0⟩
  leaf : ∀ u, u < h.length → u ≠ 0 → leafAt h u = true →
    ∃ j, j < L ∧ lab u = seg s j s.length
  inner : ∀ u, u < h.length → leafAt h u = false →
    ∃ a b, a ≤ b ∧ b ≤ i ∧ lab u = seg s a b
  count : leafCount h = L + (if leafAt h 0 then 1 else 0)
  link : ∀ u v, linkAt h u = some v →
    v < h.length ∧ v ≠ 0 ∧ leafAt h v = false ∧ ∃ x, lab u = x :: lab v
  nolink : ∀ u, u < h.length → u ≠ 0 → leafAt h u = false →
    linkAt h u = none → (lab u).length = 1 ∨ prev = some u
  complete : ∀ a b, a ≤ b → (b ≤ i ∨ (a < L ∧ b ≤ s.length)) →
    (locus s h (seg s a b)).isSome = true
  pending : ∀ p, prev = some p → p < h.length ∧ p ≠ 0 ∧ leafAt h p = false ∧
    1 ≤ L ∧ lab p = seg s (L - 1) i ∧
    ∃ d tr, edgeAt h p d = some tr ∧ s[i]? ≠ some d

/-- The invariant of the construction: the tree invariant, and the active
point is the position spelled by `s[L, i)`. -/
structure Inv (s : List Nat) (i L : Nat) (lab : Nat → List Nat) (t : SuffixTree)
    (prev : Option Nat) : Prop where
  text : t.s = s
  tree : TreeInv s i L lab t.heap prev
  active : locus s t.heap (seg s L i) = some t.ap
  count_nodes : t.node_count = t.heap.length

/-- The heap after a leaf for the suffix read at `i` is hung below the node
`u` under the key `c`. -/
def leafHeap (h : List Node) (u c i : Nat) : List Node :=
  match h[u]? with
  | none => h
  | some nd =>
    setNode h u { nd with to_ := nd.to_ ++ [(c, ⟨some h.length, i, none⟩)] } ++ [⟨[], none⟩]

/-- The heap after the edge under key `x` of the node `u` is split after
`len` symbols, `d` being the next symbol of its label, and a leaf for the
suffix read at `i` is hung below the new node under the key `c`. -/
def splitHeap (h : List Node) (u x len d c i : Nat) : List Node :=
  match h[u]?, edgeAt h u x with
  | some nd, some tr =>
    setNode h u { nd with to_ := mapSet nd.to_ x ⟨some h.length, tr.start, some (tr.start + len)⟩ }
      ++ [⟨[(d, ⟨tr.node, tr.start + len, tr.end_⟩), (c, ⟨some (h.length + 1), i, none⟩)], none⟩,
          ⟨[], none⟩]
  | _, _ => h

/-- The heap after the pending node, if any, got its suffix link. -/
def linkHeap (h : List Node) (prev : Option Nat) (target : Nat) : List Node :=
  match prev with
  | some p => setLink h p target
  | none => h

/-- Where a position of the tree lies after the edge under key `x` of the
node `u` was split after `len` symbols by the new node `m`, `d` being the
next symbol of the label. -/
def splitPos (u x len d m : Nat) (p : ActivePoint) : ActivePoint :=
  if p.node = u ∧ p.c = x ∧ len ≤ p.length then
    if p.length = len then ⟨m, 0, 0⟩ else ⟨m, d, p.length - len⟩
  else p

/-- The words of the nodes once the new node `m` spells `w`. -/
def extLab (lab : Nat → List Nat) (m : Nat) (w : List Nat) : Nat → List Nat :=
  fun v => if v = m then w else lab v

/-- A heap that satisfies the tree invariant at some stage of the
construction for the text `s`. -/
def GoodHeap (s : List Nat) (h : List Node) : Prop :=
  ∃ i L lab prev, TreeInv s i L lab h prev

/-- The heaps observable during and after the construction: a heap that
satisfies the tree invariant, or such a heap with all open ends fixed. -/
def SnapHeap (s : List Nat) (h : List Node) : Prop :=
  GoodHeap s h ∨ ∃ h0, GoodHeap s h0 ∧ h = closeHeap s.length h0

/-- The first symbols `s[start]` of the labels of the outgoing edges of a
node, in the order of its map. -/
def firstSymbols (s : List Nat) (nd : Node) : List (Option Nat) :=
  nd.to_.map fun e => charAt s e.2.start

/-- The condition of `Ranked` stated on the entries of the maps of the
nodes, which can be checked by evaluation on a given heap. -/
def RankedEntries (rank : Nat → Nat) (bound : Nat) (h : List Node) : Prop :=
  ∀ u, u < h.length → ∀ nd ∈ h[u]?, ∀ e ∈ nd.to_,
    ∃ q ∈ e.2.node, q < h.length ∧ rank u < rank q ∧ rank q ≤ bound

instance (rank : Nat → Nat) (bound : Nat) (h : List Node) :
    Decidable (RankedEntries rank bound h) := by
  unfold RankedEntries; infer_instance

/-- The heap of a star: the root, at address `0`, with one transition for
each of the first `k` symbols of `s`, the one for `s[i]` starting at `i`,
ending at `e` and leading to the leaf at address `i + 1`. -/
def starHeap (s : List Nat) (e : Option Nat) (k : Nat) : List Node :=
  ⟨(List.range k).map fun i => (s.getD i 0, ⟨some (i + 1), i, e⟩), none⟩ ::
    List.replicate k ⟨[], none⟩

/-- The state of the engine with the star of the first `k` symbols, all ends
open, and nothing pending. -/
def starState (s : List Nat) (k : Nat) : SuffixTree :=
  { s := s, heap := starHeap s none k, ap := ⟨0, 0, 0⟩, remainder := 0, node_count := k + 1 }

/-! ## The passes of the extension loop -/

/-- One pass through the body of the `while` loop of `AddSuffix`: the index
and the symbol being processed, the tree and `prev_created` at the top of
the body, the tree at the end of the body, and whether the loop was left
through `break`. -/
structure Pass where
  index : Nat
  c : Nat
  pre : SuffixTree
  prev_created : Option Nat
  post : SuffixTree
  brk : Bool
  deriving DecidableEq, Repr

/-- The passes of the loop of `AddSuffix(c, index)` entered with the tree
`t`, in order. -/
def loopPasses (c index : Nat) : Nat → SuffixTree → Option Nat → List Pass
  | 0, _, _ => []
  | fuel + 1, t, prev_created =>
    if t.remainder > 0 then
      match loopBody c index t prev_created with
      | none => []
      | some (t1, _, true) => [⟨index, c, t, prev_created, t1, true⟩]
      | some (t1, prev, false) =>
        ⟨index, c, t, prev_created, t1, false⟩ :: loopPasses c index fuel t1 prev
    else []

/-- The passes of the extension loop while `Initialize` consumes the
symbols `cs` from position `index` on. -/
def textPasses : List Nat → Nat → SuffixTree → List Pass
  | [], _, _ => []
  | c :: cs, index, t =>
    loopPasses c index (t.remainder + 1) { t with remainder := t.remainder + 1 } none ++
      match AddSuffix t c index with
      | none => []
      | some t1 => textPasses cs (index + 1) t1

/-- Every pass of the extension loop during the construction for `s`. -/
def passes (s : List Nat) : List Pass :=
  textPasses s 0 { SuffixTree.init s with node_count := 1 }

/-- The tree after `AddSuffix` has processed the first `k` symbols of `s`
(the state of `Initialize` after `k` iterations of its loop). -/
def prefixState (s : List Nat) (k : Nat) : Option SuffixTree :=
  addAll (s.take k) 0 { SuffixTree.init s with node_count := 1 }

/-- A pass that starts from a tree satisfying the invariant: the body
returns, and the invariant holds again, with one more suffix inserted when
the pass did not leave the loop and one more symbol read when it did. -/
def PassInv (s : List Nat) (p : Pass) : Prop :=
  ∃ L lab lab1 prev1,
    p.index < s.length ∧ s[p.index]? = some p.c ∧ L ≤ p.index ∧
    Inv s p.index L lab p.pre p.prev_created ∧ p.pre.remainder = p.index + 1 - L ∧
    loopBody p.c p.index p.pre p.prev_created = some (p.post, prev1, p.brk) ∧
    ((p.brk = false ∧ Inv s p.index (L + 1) lab1 p.post prev1 ∧
        p.post.remainder = p.index - L) ∨
     (p.brk = true ∧ Inv s (p.index + 1) L lab1 p.post none ∧
        p.post.remainder = p.index + 1 - L))

/-- The active-point condition, `k` symbols being read: `ap.c` is NUL
exactly when `ap.length` is `0`, and when `ap.length > 0` the node `ap.node`
has a transition under the key `ap.c` and `ap.length` is at most its
resolved length (its end, or `k` when the end is open, minus its start). -/
def ActiveOK (k : Nat) (t : SuffixTree) : Prop :=
  (t.ap.c = 0 ↔ t.ap.length = 0) ∧
    (0 < t.ap.length → ∃ tr, edgeAt t.heap t.ap.node t.ap.c = some tr ∧
      t.ap.length ≤ tr.end_.getD k - tr.start)

/-- The condition on the ends of the transitions of a heap, `k` symbols
being read: every transition has a child, its end is open exactly when the
child is a leaf, and a fixed end is at most `k`. -/
def EndsOK (k : Nat) (h : List Node) : Prop :=
  ∀ nd ∈ h, ∀ e ∈ nd.to_, ∃ q, e.2.node = some q ∧
    (e.2.end_ = none ↔ leafAt h q = true) ∧ ∀ x, e.2.end_ = some x → x ≤ k

/-- The first `ap.length` symbols of the label of the transition the active
point lies on (nothing when it lies on no transition). -/
def activeEdgePrefix (s : List Nat) (t : SuffixTree) : List Nat :=
  match edgeAt t.heap t.ap.node t.ap.c with
  | some tr => (s.drop tr.start).take t.ap.length
  | none => []

/-- The tree on which a pass through the body of the loop of `AddSuffix`
calls `FixLengthOverflow`: after the extension and the cursor advance when
`NeedToSplit` holds (lines 116-158), after the cursor moved one symbol down
otherwise (lines 162-170). -/
def beforeFix (c index : Nat) (t : SuffixTree) (prev_created : Option Nat) :
    Option SuffixTree :=
  match NeedToSplit t c with
  | none => none
  | some true =>
    let r : Option SuffixTree :=
      if t.ap.c ≠ 0 then
        match splitBranch t c index prev_created with
        | some (t1, _) => some t1
        | none => none
      else leafBranch t c index prev_created
    match r with
    | none => none
    | some t1 => advance t1 index
  | some false =>
    let ap1 : ActivePoint :=
      { t.ap with c := if t.ap.c = 0 then c else t.ap.c, length := t.ap.length + 1 }
    let h1 := match prev_created with
      | some p => if t.ap.node ≠ 0 then setLink t.heap p t.ap.node else t.heap
      | none => t.heap
    some { t with heap := h1, ap := ap1 }

/-- The active points after each hop of the loop of `FixLengthOverflow`, in
order (the loop of `FixLengthOverflowLoop`, recording `new_ap`). -/
def FixLengthOverflowHops (s : List Nat) (index : Nat) :
    Nat → List Node → ActivePoint → List ActivePoint
  | 0, _, _ => []
  | fuel + 1, h, ap =>
    if ap.c ≠ 0 then
      match heapIndex h ap.node ap.c with
      | none => []
      | some (h1, tr) =>
        match tr.end_ with
        | none => []
        | some e =>
          if tr.start ≤ e ∧ ap.length > e - tr.start then
            let node_len := e - tr.start
            if ap.length ≤ index + node_len then
              match charAt s (index + node_len - ap.length), tr.node with
              | some next_c, some child =>
                { node := child, c := next_c, length := ap.length - node_len } ::
                  FixLengthOverflowHops s index fuel h1
                    { node := child, c := next_c, length := ap.length - node_len }
              | _, _ => []
            else []
          else []
    else []

/-- `Grow h h1`: the heap `h1` is `h` with default-constructed transitions
appended to the maps of some nodes (what `operator[]` does when the key is
missing). -/
def Grow (h h1 : List Node) : Prop :=
  h1.length = h.length ∧ ∀ (u : Nat) (nd : Node), h[u]? = some nd →
    ∃ extra, h1[u]? = some { nd with to_ := nd.to_ ++ extra } ∧
      ∀ e ∈ extra, e.2 = Transition.default

/-- No transition of the heap lacks a child. -/
def NoNullChild (h : List Node) : Prop :=
  ∀ nd ∈ h, ∀ e ∈ nd.to_, e.2.node ≠ none

/-- Every transition of the heap with a fixed end has at least one symbol. -/
def FixedNonEmpty (h : List Node) : Prop :=
  ∀ nd ∈ h, ∀ e ∈ nd.to_, ∀ x, e.2.end_ = some x → 1 ≤ x - e.2.start

/-- Every node other than the root has no outgoing edge or at least two. -/
def Branching (h : List Node) : Prop :=
  ∀ u, u ≠ 0 → keysAt h u = [] ∨ 2 ≤ (keysAt h u).length

/-- The suffix link of the root is null and no suffix link points to the
root. -/
def LinksAvoidRoot (h : List Node) : Prop :=
  0 < h.length ∧ linkAt h 0 = none ∧ ∀ v w, linkAt h v = some w → w ≠ 0

/-- `SameLinks h h1`: the heap `h1` has the nodes of `h`, with the same
suffix links, and possibly more nodes, all without suffix link. -/
def SameLinks (h h1 : List Node) : Prop :=
  h.length ≤ h1.length ∧ ∀ v, linkAt h1 v = linkAt h v

/-! # Lemmas and theorems -/

/-! ## Association lists -/

theorem mapFind_cons (k' : Nat) (t : Transition) (m : List (Nat × Transition)) (k : Nat) :
    mapFind ((k', t) :: m) k = if k' = k then some t else mapFind m k := rfl

theorem mapFind_mem {m : List (Nat × Transition)} {k : Nat} {t : Transition}
    (h : mapFind m k = some t) : (k, t) ∈ m := by
  induction m with
  | nil => simp [mapFind] at h
  | cons e m ih =>
    obtain ⟨k', t'⟩ := e
    rw [mapFind_cons] at h
    by_cases hk : k' = k
    · simp [hk] at h; subst hk; subst h; simp
    · simp [hk] at h; exact List.mem_cons_of_mem _ (ih h)

theorem mapFind_isSome_iff (m : List (Nat × Transition)) (k : Nat) :
    (mapFind m k).isSome ↔ k ∈ m.map Prod.fst := by
  induction m with
  | nil => simp [mapFind]
  | cons e m ih =>
    obtain ⟨k', t'⟩ := e
    rw [mapFind_cons]
    by_cases hk : k' = k
    · simp [hk]
    · simp only [hk, if_false, ih, List.map_cons, List.mem_cons]
      constructor
      · intro h; exact Or.inr h
      · rintro (h | h)
        · exact absurd h.symm hk
        · exact h

theorem mapFind_eq_none_iff (m : List (Nat × Transition)) (k : Nat) :
    mapFind m k = none ↔ k ∉ m.map Prod.fst := by
  rw [← mapFind_isSome_iff]; cases mapFind m k <;> simp

theorem mapFind_of_mem_nodup {m : List (Nat × Transition)} {k : Nat} {t : Transition}
    (hn : (m.map Prod.fst).Nodup) (h : (k, t) ∈ m) : mapFind m k = some t := by
  induction m with
  | nil => simp at h
  | cons e m ih =>
    obtain ⟨k', t'⟩ := e
    rw [mapFind_cons]
    simp only [List.map_cons, List.nodup_cons] at hn
    rcases List.mem_cons.1 h with h | h
    · injection h with h1 h2; subst h1; subst h2; simp
    · have : k ∈ m.map Prod.fst := List.mem_map.2 ⟨(k, t), h, rfl⟩
      have hk : k' ≠ k := fun e => hn.1 (e ▸ this)
      simp [hk, ih hn.2 h]

theorem mapSet_keys (m : List (Nat × Transition)) (k : Nat) (t : Transition) :
    (mapSet m k t).map Prod.fst = m.map Prod.fst := by
  induction m with
  | nil => rfl
  | cons e m ih =>
    obtain ⟨k', t'⟩ := e
    unfold mapSet
    by_cases hk : k' = k
    · simp [hk]
    · simp [hk, ih]

theorem mapFind_mapSet_self {m : List (Nat × Transition)} {k : Nat} (t : Transition)
    (h : mapFind m k ≠ none) : mapFind (mapSet m k t) k = some t := by
  induction m with
  | nil => simp [mapFind] at h
  | cons e m ih =>
    obtain ⟨k', t'⟩ := e
    unfold mapSet
    rw [mapFind_cons] at h
    by_cases hk : k' = k
    · simp [hk, mapFind_cons]
    · simp only [hk, if_false] at h ⊢
      rw [mapFind_cons]; simp [hk, ih h]

theorem mapFind_mapSet_ne (m : List (Nat × Transition)) {k k' : Nat} (t : Transition)
    (h : k' ≠ k) : mapFind (mapSet m k t) k' = mapFind m k' := by
  induction m with
  | nil => rfl
  | cons e m ih =>
    obtain ⟨k0, t0⟩ := e
    unfold mapSet
    by_cases hk : k0 = k
    · subst hk
      have : ¬ k0 = k' := fun e => h e.symm
      simp [mapFind_cons, this]
    · simp only [hk, if_false, mapFind_cons, ih]

theorem mapSet_of_find {m : List (Nat × Transition)} {k : Nat} {t : Transition}
    (h : mapFind m k = some t) : mapSet m k t = m := by
  induction m with
  | nil => rfl
  | cons e m ih =>
    obtain ⟨k', t'⟩ := e
    unfold mapSet
    rw [mapFind_cons] at h
    by_cases hk : k' = k
    · simp [hk] at h ⊢; exact h.symm
    · simp [hk] at h ⊢; exact ih h

theorem mapFind_append (m m' : List (Nat × Transition)) (k : Nat) :
    mapFind (m ++ m') k = (mapFind m k).orElse fun _ => mapFind m' k := by
  induction m with
  | nil => simp [mapFind]
  | cons e m ih =>
    obtain ⟨k', t'⟩ := e
    simp only [List.cons_append, mapFind_cons]
    by_cases hk : k' = k
    · simp [hk]
    · simp [hk, ih]

/-! ## The relation "same up to fixed ends" -/

theorem edgeLe_refl (size : Nat) (e : Nat × Transition) : edgeLe size e e :=
  ⟨rfl, rfl, rfl, Or.inl rfl⟩

theorem edgeLe_trans {size : Nat} {a b c : Nat × Transition}
    (h1 : edgeLe size a b) (h2 : edgeLe size b c) : edgeLe size a c := by
  obtain ⟨a1, a2, a3, a4⟩ := h1
  obtain ⟨b1, b2, b3, b4⟩ := h2
  refine ⟨b1.trans a1, b2.trans a2, b3.trans a3, ?_⟩
  rcases a4 with a4 | ⟨a4, a5⟩
  · rcases b4 with b4 | ⟨b4, b5⟩
    · exact Or.inl (b4.trans a4)
    · exact Or.inr ⟨a4 ▸ b4, b5⟩
  · rcases b4 with b4 | ⟨b4, b5⟩
    · exact Or.inr ⟨a4, b4.trans a5⟩
    · rw [a5] at b4; cases b4

theorem mapLe_refl (size : Nat) (m : List (Nat × Transition)) :
    List.Forall₂ (edgeLe size) m m :=
  List.forall₂_same.2 fun e _ => edgeLe_refl size e

theorem mapLe_trans {size : Nat} {a b c : List (Nat × Transition)}
    (h1 : List.Forall₂ (edgeLe size) a b) (h2 : List.Forall₂ (edgeLe size) b c) :
    List.Forall₂ (edgeLe size) a c := by
  induction h1 generalizing c with
  | nil => cases h2; exact List.Forall₂.nil
  | cons hab _ ih =>
    cases h2 with
    | cons hbc h2' => exact List.Forall₂.cons (edgeLe_trans hab hbc) (ih h2')

theorem mapLe_keys {size : Nat} {m m1 : List (Nat × Transition)}
    (h : List.Forall₂ (edgeLe size) m m1) : m1.map Prod.fst = m.map Prod.fst := by
  induction h with
  | nil => rfl
  | cons hab _ ih => simp [hab.1, ih]

theorem mapLe_find {size : Nat} {m m1 : List (Nat × Transition)}
    (h : List.Forall₂ (edgeLe size) m m1) (k : Nat) :
    (mapFind m k = none ∧ mapFind m1 k = none) ∨
      ∃ tr tr1, mapFind m k = some tr ∧ mapFind m1 k = some tr1 ∧ edgeLe size (k, tr) (k, tr1) := by
  induction h with
  | nil => exact Or.inl ⟨rfl, rfl⟩
  | @cons a b l l1 hab _ ih =>
    obtain ⟨ka, ta⟩ := a
    obtain ⟨kb, tb⟩ := b
    have hk : kb = ka := hab.1
    subst hk
    simp only [mapFind_cons]
    by_cases hkk : kb = k
    · subst hkk
      simp only [if_true]
      exact Or.inr ⟨ta, tb, rfl, rfl, hab⟩
    · simp only [hkk, if_false]; exact ih

theorem mapLe_mapSet (size : Nat) (m : List (Nat × Transition)) (k : Nat) (tr tr1 : Transition)
    (hf : mapFind m k = some tr) (hle : edgeLe size (k, tr) (k, tr1)) :
    List.Forall₂ (edgeLe size) m (mapSet m k tr1) := by
  induction m with
  | nil => exact List.Forall₂.nil
  | cons e m ih =>
    obtain ⟨k', t'⟩ := e
    unfold mapSet
    rw [mapFind_cons] at hf
    by_cases hk : k' = k
    · simp only [hk, if_true] at hf ⊢
      injection hf with hf; subst hf
      exact List.Forall₂.cons hle (mapLe_refl size m)
    · simp only [hk, if_false] at hf ⊢
      exact List.Forall₂.cons (edgeLe_refl size _) (ih hf)

theorem nodeLe_refl (size : Nat) (n : Node) : nodeLe size n n := ⟨rfl, mapLe_refl size _⟩

theorem nodeLe_trans {size : Nat} {a b c : Node} (h1 : nodeLe size a b) (h2 : nodeLe size b c) :
    nodeLe size a c := ⟨h2.1.trans h1.1, mapLe_trans h1.2 h2.2⟩

theorem heapLe_refl (size : Nat) (h : List Node) : heapLe size h h :=
  ⟨rfl, fun _ nd nd1 h1 h2 => by rw [h1] at h2; injection h2 with h2; subst h2; exact nodeLe_refl size nd⟩

theorem heapLe_get {size : Nat} {h h1 : List Node} (hle : heapLe size h h1) {u : Nat} {nd : Node}
    (hu : h[u]? = some nd) : ∃ nd1, h1[u]? = some nd1 ∧ nodeLe size nd nd1 := by
  have hlt : u < h1.length := by
    rw [hle.1]; exact (List.getElem?_eq_some.1 hu).1
  exact ⟨h1[u], List.getElem?_eq_getElem hlt, hle.2 u nd _ hu (List.getElem?_eq_getElem hlt)⟩

theorem heapLe_get' {size : Nat} {h h1 : List Node} (hle : heapLe size h h1) {u : Nat} {nd1 : Node}
    (hu : h1[u]? = some nd1) : ∃ nd, h[u]? = some nd ∧ nodeLe size nd nd1 := by
  have hlt : u < h.length := by
    rw [← hle.1]; exact (List.getElem?_eq_some.1 hu).1
  exact ⟨h[u], List.getElem?_eq_getElem hlt, hle.2 u _ nd1 (List.getElem?_eq_getElem hlt) hu⟩

theorem heapLe_trans {size : Nat} {a b c : List Node} (h1 : heapLe size a b) (h2 : heapLe size b c) :
    heapLe size a c := by
  refine ⟨h2.1.trans h1.1, fun u nd nd2 hu hu2 => ?_⟩
  obtain ⟨nd1, hu1, hle1⟩ := heapLe_get h1 hu
  exact nodeLe_trans hle1 (h2.2 u nd1 nd2 hu1 hu2)

theorem heapLe_setNode {size : Nat} {h : List Node} {u : Nat} {nd nd1 : Node}
    (hu : h[u]? = some nd) (hle : nodeLe size nd nd1) : heapLe size h (setNode h u nd1) := by
  refine ⟨by simp [setNode], fun v n n1 hv hv1 => ?_⟩
  unfold setNode at hv1
  by_cases huv : u = v
  · subst huv
    rw [List.getElem?_set_self (List.getElem?_eq_some.1 hu).1] at hv1
    rw [hu] at hv; injection hv with hv; injection hv1 with hv1
    subst hv; subst hv1; exact hle
  · rw [List.getElem?_set_ne huv] at hv1
    rw [hv] at hv1; injection hv1 with hv1; subst hv1; exact nodeLe_refl size n

theorem heapLe_edgeAt {size : Nat} {h h1 : List Node} (hle : heapLe size h h1) (u k : Nat) :
    (edgeAt h u k = none ∧ edgeAt h1 u k = none) ∨
      ∃ tr tr1, edgeAt h u k = some tr ∧ edgeAt h1 u k = some tr1 ∧ edgeLe size (k, tr) (k, tr1) := by
  unfold edgeAt
  cases hu : h[u]? with
  | none =>
    have : h1[u]? = none := by
      rw [List.getElem?_eq_none_iff] at hu ⊢; rw [hle.1]; exact hu
    simp [this]
  | some nd =>
    obtain ⟨nd1, hu1, hn⟩ := heapLe_get hle hu
    simp only [hu1]
    exact mapLe_find hn.2 k

theorem heapLe_closedAt {size : Nat} {h h1 : List Node} (hle : heapLe size h h1) {u : Nat}
    (hc : closedAt h u) : closedAt h1 u := by
  intro k tr1 he
  rcases heapLe_edgeAt hle u k with ⟨_, h2⟩ | ⟨tr, tr1', h1', h2, h3⟩
  · rw [h2] at he; cases he
  · rw [h2] at he; injection he with he; subst he
    have := hc k tr h1'
    rcases h3.2.2.2 with h4 | ⟨h4, _⟩
    · simp only at h4; rw [h4]; exact this
    · exact absurd h4 this

theorem heapLe_desc {size : Nat} {h h1 : List Node} (hle : heapLe size h h1) {v u : Nat} :
    Desc h v u ↔ Desc h1 v u := by
  constructor
  · intro hd
    induction hd with
    | refl => exact Desc.refl
    | child u k q tr _ he hq ih =>
      rcases heapLe_edgeAt hle u k with ⟨h2, _⟩ | ⟨tr0, tr1, h1', h2, h3⟩
      · rw [h2] at he; cases he
      · rw [h1'] at he; injection he with he; subst he
        exact Desc.child u k q tr1 ih h2 (h3.2.1.trans hq)
  · intro hd
    induction hd with
    | refl => exact Desc.refl
    | child u k q tr _ he hq ih =>
      rcases heapLe_edgeAt hle u k with ⟨_, h2⟩ | ⟨tr0, tr1, h1', h2, h3⟩
      · rw [h2] at he; cases he
      · rw [h2] at he; injection he with he; subst he
        exact Desc.child u k q tr0 ih h1' (h3.2.1.symm.trans hq)

/-! ## `FinishString` -/

theorem edgeAt_eq {h : List Node} {u : Nat} {nd : Node} (hu : h[u]? = some nd) (k : Nat) :
    edgeAt h u k = mapFind nd.to_ k := by
  simp [edgeAt, hu]

theorem keysAt_eq {h : List Node} {u : Nat} {nd : Node} (hu : h[u]? = some nd) :
    keysAt h u = nd.to_.map Prod.fst := by
  simp [keysAt, hu]

theorem finishEdge_eq_some {size : Nat} {rec : List Node → Nat → Option (List Node)}
    {v : Nat} {h : List Node} {k : Nat} {h2 : List Node}
    (he : finishEdge size rec v h k = some h2) :
    ∃ nd tr q, h[v]? = some nd ∧ mapFind nd.to_ k = some tr ∧ tr.node = some q ∧
      rec (setNode h v { nd with to_ := mapSet nd.to_ k (closeEdge size tr) }) q = some h2 := by
  unfold finishEdge at he
  cases hv : h[v]? with
  | none => simp [hv] at he
  | some nd =>
    simp only [hv] at he
    cases hf : mapFind nd.to_ k with
    | none => simp [hf] at he
    | some tr =>
      simp only [hf] at he
      cases hq : tr.node with
      | none => simp [hq] at he
      | some q =>
        simp only [hq] at he
        exact ⟨nd, tr, q, rfl, hf, hq, he⟩

theorem closeEdge_le (size : Nat) (k : Nat) (tr : Transition) :
    edgeLe size (k, tr) (k, closeEdge size tr) := by
  unfold closeEdge
  cases he : tr.end_ with
  | none => exact ⟨rfl, by simp, by simp, Or.inr ⟨he, by simp⟩⟩
  | some e => simp [edgeLe_refl]

theorem closeEdge_closed (size : Nat) (tr : Transition) :
    (closeEdge size tr).end_ ≠ none := by
  unfold closeEdge
  cases he : tr.end_ with
  | none => simp
  | some e => simp [he]

theorem heapLe_closeEdge (size : Nat) {h : List Node} {v k : Nat} {nd : Node} {tr : Transition}
    (hv : h[v]? = some nd) (hf : mapFind nd.to_ k = some tr) :
    heapLe size h (setNode h v { nd with to_ := mapSet nd.to_ k (closeEdge size tr) }) :=
  heapLe_setNode hv ⟨rfl, mapLe_mapSet size nd.to_ k tr _ hf (closeEdge_le size k tr)⟩

theorem edgeAt_closeEdge (size : Nat) {h : List Node} {v k : Nat} {nd : Node} {tr : Transition}
    (hv : h[v]? = some nd) (hf : mapFind nd.to_ k = some tr) :
    edgeAt (setNode h v { nd with to_ := mapSet nd.to_ k (closeEdge size tr) }) v k =
      some (closeEdge size tr) := by
  have hlt : v < h.length := (List.getElem?_eq_some.1 hv).1
  unfold edgeAt setNode
  rw [List.getElem?_set_self hlt]
  exact mapFind_mapSet_self _ (by rw [hf]; simp)

theorem Desc.head {h : List Node} {v u : Nat} (hd : Desc h v u) :
    u = v ∨ ∃ k tr q, edgeAt h v k = some tr ∧ tr.node = some q ∧ Desc h q u := by
  induction hd with
  | refl => exact Or.inl rfl
  | child u k q tr hd he hq ih =>
    rcases ih with ih | ⟨k0, tr0, q0, h1, h2, h3⟩
    · subst ih
      exact Or.inr ⟨k, tr, q, he, hq, Desc.refl⟩
    · exact Or.inr ⟨k0, tr0, q0, h1, h2, Desc.child u k q tr h3 he hq⟩

theorem foldlM_cons_some {α β : Type} (f : β → α → Option β) (b : β) (a : α) (l : List α)
    (r : β) : (a :: l).foldlM f b = some r ↔ ∃ b1, f b a = some b1 ∧ l.foldlM f b1 = some r := by
  simp only [List.foldlM_cons]
  cases f b a <;> simp

/-- What one run of the loop of `FinishString` achieves, given what the
recursive calls achieve. -/
theorem finishLoop_spec (size : Nat) (rec : List Node → Nat → Option (List Node)) (v : Nat)
    (hrec : ∀ h q h2, rec h q = some h2 →
      heapLe size h h2 ∧ ∀ u, Desc h2 q u → closedAt h2 u)
    (ks : List Nat) (h h1 : List Node)
    (hf : ks.foldlM (finishEdge size rec v) h = some h1) :
    heapLe size h h1 ∧ ∀ k ∈ ks, ∀ tr, edgeAt h1 v k = some tr →
      tr.end_ ≠ none ∧ ∀ q, tr.node = some q → ∀ u, Desc h1 q u → closedAt h1 u := by
  induction ks generalizing h with
  | nil =>
    simp only [List.foldlM_nil] at hf
    injection hf with hf; subst hf
    exact ⟨heapLe_refl size h, fun k hk => by simp at hk⟩
  | cons k ks ih =>
    rw [foldlM_cons_some] at hf
    obtain ⟨h2, hstep, hrest⟩ := hf
    obtain ⟨nd, tr, q, hv, hfind, hq, hr⟩ := finishEdge_eq_some hstep
    obtain ⟨hle2, hcl2⟩ := hrec _ _ _ hr
    obtain ⟨hle3, hcl3⟩ := ih h2 hrest
    have hleA := heapLe_closeEdge size hv hfind
    have hle_mid : heapLe size _ h1 := heapLe_trans hle2 hle3
    refine ⟨heapLe_trans hleA hle_mid, ?_⟩
    intro k' hk' tr' he'
    rcases List.mem_cons.1 hk' with hk' | hk'
    · subst hk'
      have hmid := edgeAt_closeEdge size hv hfind
      rcases heapLe_edgeAt hle_mid v k' with ⟨h0, _⟩ | ⟨t0, t1, e0, e1, hle⟩
      · rw [hmid] at h0; cases h0
      · rw [hmid] at e0; injection e0 with e0
        rw [he'] at e1; injection e1 with e1
        subst e1
        have hclosed : tr'.end_ ≠ none := by
          rcases hle.2.2.2 with h4 | ⟨h4, _⟩
          · simp only at h4; rw [h4, ← e0]; exact closeEdge_closed size tr
          · simp only at h4; rw [← e0] at h4; exact absurd h4 (closeEdge_closed size tr)
        refine ⟨hclosed, fun q' hq' u hd => ?_⟩
        have hqq : q' = q := by
          have h5 : tr'.node = t0.node := hle.2.1
          rw [← e0] at h5
          have h6 : (closeEdge size tr).node = tr.node := by
            unfold closeEdge; split <;> rfl
          rw [h6, hq, hq'] at h5
          injection h5
        subst hqq
        exact heapLe_closedAt hle3 (hcl2 u ((heapLe_desc hle3).2 hd))
    · exact hcl3 k' hk' tr' he'

/-- `FinishString` only fixes open ends, and leaves no open end at or below
the node it is applied to. -/
theorem FinishString_spec (size : Nat) : ∀ (fuel : Nat) (h : List Node) (v : Nat) (h1 : List Node),
    FinishString size fuel h v = some h1 →
      heapLe size h h1 ∧ ∀ u, Desc h1 v u → closedAt h1 u := by
  intro fuel
  induction fuel with
  | zero => intro h v h1 hf; simp [FinishString] at hf
  | succ f ih =>
    intro h v h1 hf
    unfold FinishString at hf
    cases hv : h[v]? with
    | none => simp [hv] at hf
    | some nd =>
      simp only [hv] at hf
      obtain ⟨hle, hcl⟩ := finishLoop_spec size (FinishString size f) v ih _ h h1 hf
      refine ⟨hle, fun u hd => ?_⟩
      obtain ⟨nd1, hv1, hn1⟩ := heapLe_get hle hv
      have hkeys : nd1.to_.map Prod.fst = nd.to_.map Prod.fst := mapLe_keys hn1.2
      rcases hd.head with hu | ⟨k, tr, q, he, hq, hd'⟩
      · subst hu
        intro k tr he
        have hk : k ∈ nd.to_.map Prod.fst := by
          rw [← hkeys, ← mapFind_isSome_iff, ← edgeAt_eq hv1, he]; rfl
        exact (hcl k hk tr he).1
      · have hk : k ∈ nd.to_.map Prod.fst := by
          rw [← hkeys, ← mapFind_isSome_iff, ← edgeAt_eq hv1, he]; rfl
        exact (hcl k hk tr he).2 q hq u hd'

theorem setNode_self {h : List Node} {v : Nat} {nd : Node} (hv : h[v]? = some nd) :
    setNode h v nd = h := by
  unfold setNode
  apply List.ext_getElem?
  intro i
  by_cases hi : v = i
  · subst hi; rw [List.getElem?_set_self (List.getElem?_eq_some.1 hv).1, hv]
  · rw [List.getElem?_set_ne hi]

theorem finishLoop_idem (size : Nat) (rec : List Node → Nat → Option (List Node)) (v : Nat)
    (hrec : ∀ h q h2, rec h q = some h2 → heapLe size h h2)
    (hidem : ∀ h q h2, rec h q = some h2 → ∀ h3, heapLe size h2 h3 → rec h3 q = some h3)
    (hloop : ∀ (ks : List Nat) h h1, ks.foldlM (finishEdge size rec v) h = some h1 → heapLe size h h1)
    (ks : List Nat) (h h1 : List Node)
    (hf : ks.foldlM (finishEdge size rec v) h = some h1) (h3 : List Node)
    (hle : heapLe size h1 h3) : ks.foldlM (finishEdge size rec v) h3 = some h3 := by
  induction ks generalizing h with
  | nil => rfl
  | cons k ks ih =>
    rw [foldlM_cons_some] at hf
    obtain ⟨h2, hstep, hrest⟩ := hf
    obtain ⟨nd, tr, q, hv, hfind, hq, hr⟩ := finishEdge_eq_some hstep
    have hle21 : heapLe size h2 h1 := hloop ks h2 h1 hrest
    have hle23 : heapLe size h2 h3 := heapLe_trans hle21 hle
    have hleA := hrec _ _ _ hr
    have hmid := edgeAt_closeEdge size hv hfind
    rw [foldlM_cons_some]
    refine ⟨h3, ?_, ih h2 hrest⟩
    rcases heapLe_edgeAt (heapLe_trans hleA hle23) v k with ⟨h0, _⟩ | ⟨t0, t1, e0, e1, hle'⟩
    · rw [hmid] at h0; cases h0
    · rw [hmid] at e0; injection e0 with e0
      have hclosed : t1.end_ ≠ none := by
        rcases hle'.2.2.2 with h4 | ⟨h4, _⟩
        · simp only at h4; rw [h4, ← e0]; exact closeEdge_closed size tr
        · simp only at h4; rw [← e0] at h4; exact absurd h4 (closeEdge_closed size tr)
      have hnode : t1.node = some q := by
        have h5 : t1.node = t0.node := hle'.2.1
        rw [← e0] at h5
        have h6 : (closeEdge size tr).node = tr.node := by
          unfold closeEdge; split <;> rfl
        rw [h5, h6, hq]
      unfold edgeAt at e1
      cases hv3 : h3[v]? with
      | none => simp [hv3] at e1
      | some nd3 =>
        simp only [hv3] at e1
        unfold finishEdge
        simp only [hv3, e1, hnode]
        have hsame : (closeEdge size t1) = t1 := by
          unfold closeEdge
          cases h7 : t1.end_ with
          | none => exact absurd h7 hclosed
          | some e => simp
        rw [hsame, mapSet_of_find e1]
        have : setNode h3 v { nd3 with to_ := nd3.to_ } = h3 := setNode_self hv3
        rw [this]
        exact hidem _ _ _ hr h3 hle23

/-- Running `FinishString` again on any heap that has at least the ends of
the first run fixed changes nothing. -/
theorem FinishString_idem (size : Nat) : ∀ (fuel : Nat) (h : List Node) (v : Nat)
    (h1 : List Node), FinishString size fuel h v = some h1 →
      ∀ h3, heapLe size h1 h3 → FinishString size fuel h3 v = some h3 := by
  intro fuel
  induction fuel with
  | zero => intro h v h1 hf; simp [FinishString] at hf
  | succ f ih =>
    intro h v h1 hf h3 hle3
    have hspec := FinishString_spec size
    unfold FinishString at hf ⊢
    cases hv : h[v]? with
    | none => simp [hv] at hf
    | some nd =>
      simp only [hv] at hf
      have hloop : ∀ (ks : List Nat) h h1, ks.foldlM (finishEdge size (FinishString size f) v) h = some h1 →
          heapLe size h h1 := fun ks h h1 hf =>
        (finishLoop_spec size _ v (hspec f) ks h h1 hf).1
      have hle1 := hloop _ _ _ hf
      obtain ⟨nd3, hv3, hn3⟩ := heapLe_get (heapLe_trans hle1 hle3) hv
      simp only [hv3]
      rw [mapLe_keys hn3.2]
      exact finishLoop_idem size _ v (fun h q h2 hr => (hspec f h q h2 hr).1) ih hloop _ h h1 hf h3 hle3

theorem heapLe_ranked {size : Nat} {rank : Nat → Nat} {bound : Nat} {h h1 : List Node}
    (hle : heapLe size h h1) (hr : Ranked rank bound h) : Ranked rank bound h1 := by
  intro u k tr1 he
  rcases heapLe_edgeAt hle u k with ⟨_, h2⟩ | ⟨tr, tr1', e0, e1, hle'⟩
  · rw [h2] at he; cases he
  · rw [e1] at he; injection he with he; subst he
    obtain ⟨q, hq, hlt, hrk⟩ := hr u k tr e0
    exact ⟨q, hle'.2.1.trans hq, hle.1 ▸ hlt, hrk⟩

theorem finishLoop_total (size : Nat) (rank : Nat → Nat) (bound : Nat)
    (rec : List Node → Nat → Option (List Node)) (v : Nat)
    (hle : ∀ h q h2, rec h q = some h2 → heapLe size h h2)
    (htot : ∀ h q, Ranked rank bound h → q < h.length → rank v < rank q → rank q ≤ bound →
      ∃ h2, rec h q = some h2)
    (ks : List Nat) (h : List Node) (hr : Ranked rank bound h)
    (hks : ∀ k ∈ ks, k ∈ keysAt h v) :
    ∃ h1, ks.foldlM (finishEdge size rec v) h = some h1 := by
  induction ks generalizing h with
  | nil => exact ⟨h, rfl⟩
  | cons k ks ih =>
    have hk := hks k (List.mem_cons_self _ _)
    unfold keysAt at hk
    cases hv : h[v]? with
    | none => simp [hv] at hk
    | some nd =>
      simp only [hv] at hk
      rw [← mapFind_isSome_iff] at hk
      obtain ⟨tr, hfind⟩ := Option.isSome_iff_exists.1 hk
      obtain ⟨q, hq, hlt, hrk, hb⟩ := hr v k tr (by rw [edgeAt_eq hv]; exact hfind)
      have hleA := heapLe_closeEdge size hv hfind
      obtain ⟨h2, hr2⟩ := htot _ q (heapLe_ranked hleA hr) (hleA.1 ▸ hlt) hrk hb
      have hle2 := heapLe_trans hleA (hle _ _ _ hr2)
      have hks2 : ∀ k ∈ ks, k ∈ keysAt h2 v := by
        intro k' hk'
        have := hks k' (List.mem_cons_of_mem _ hk')
        obtain ⟨nd2, hv2, hn2⟩ := heapLe_get hle2 hv
        rw [keysAt_eq hv] at this
        rw [keysAt_eq hv2, mapLe_keys hn2.2]; exact this
      obtain ⟨h1, hf1⟩ := ih h2 (heapLe_ranked hle2 hr) hks2
      refine ⟨h1, ?_⟩
      rw [foldlM_cons_some]
      refine ⟨h2, ?_, hf1⟩
      unfold finishEdge
      simp only [hv, hfind, hq]
      exact hr2

/-- On a ranked heap `FinishString` returns as soon as the fuel exceeds the
number of ranks left. -/
theorem FinishString_total (size : Nat) (rank : Nat → Nat) (bound : Nat) :
    ∀ (fuel : Nat) (h : List Node) (v : Nat), Ranked rank bound h → v < h.length →
      rank v ≤ bound → bound < fuel + rank v → ∃ h1, FinishString size fuel h v = some h1 := by
  intro fuel
  induction fuel with
  | zero => intro h v _ _ hb hf; omega
  | succ f ih =>
    intro h v hr hlt hb hf
    unfold FinishString
    rw [List.getElem?_eq_getElem hlt]
    simp only
    apply finishLoop_total size rank bound (FinishString size f) v
      (fun h q h2 hr => (FinishString_spec size f h q h2 hr).1)
      (fun h q hr hq hrk hqb => ih h q hr hq hqb (by omega)) _ h hr
    intro k hk
    rw [keysAt_eq (List.getElem?_eq_getElem hlt)]
    exact hk

/-! ## Segments of the text -/

theorem seg_getElem? (s : List Nat) (a b k : Nat) :
    (seg s a b)[k]? = if k < b - a then s[a + k]? else none := by
  unfold seg
  rw [List.getElem?_take, List.getElem?_drop]

theorem seg_length (s : List Nat) {a b : Nat} (hb : b ≤ s.length) :
    (seg s a b).length = b - a := by
  unfold seg
  rw [List.length_take, List.length_drop]
  omega

theorem seg_self (s : List Nat) (a : Nat) : seg s a a = [] := by
  unfold seg; simp

theorem seg_of_le (s : List Nat) {a b : Nat} (h : b ≤ a) : seg s a b = [] := by
  unfold seg
  have : b - a = 0 := by omega
  rw [this]; rfl

theorem seg_full (s : List Nat) (a : Nat) : seg s a s.length = s.drop a := by
  unfold seg
  apply List.take_of_length_le
  rw [List.length_drop]

theorem seg_zero (s : List Nat) (b : Nat) : seg s 0 b = s.take b := by
  unfold seg; simp

theorem seg_append (s : List Nat) {a b c : Nat} (hab : a ≤ b) (hbc : b ≤ c) :
    seg s a b ++ seg s b c = seg s a c := by
  apply List.ext_getElem?
  intro k
  by_cases hb : b ≤ s.length
  · rw [List.getElem?_append, seg_length s hb]
    simp only [seg_getElem?]
    by_cases hk : k < b - a
    · have : k < c - a := by omega
      simp [hk, this]
    · simp only [hk, if_false]
      have e : b + (k - (b - a)) = a + k := by omega
      rw [e]
      by_cases hk2 : k < c - a
      · have : k - (b - a) < c - b := by omega
        simp [hk2, this]
      · have : ¬ k - (b - a) < c - b := by omega
        simp [hk2, this]
  · have hb' : s.length < b := by omega
    have e1 : seg s b c = [] := by
      unfold seg
      rw [List.drop_of_length_le (by omega)]; simp
    rw [e1, List.append_nil]
    simp only [seg_getElem?]
    by_cases hk : k < b - a
    · have : k < c - a := by omega
      simp [hk, this]
    · simp only [hk, if_false]
      by_cases hk2 : k < c - a
      · simp only [hk2, if_true]
        symm
        rw [List.getElem?_eq_none_iff]; omega
      · simp [hk2]

theorem seg_succ (s : List Nat) {a b : Nat} {x : Nat} (hab : a ≤ b) (hx : s[b]? = some x) :
    seg s a (b + 1) = seg s a b ++ [x] := by
  rw [← seg_append s hab (Nat.le_succ b)]
  congr 1
  apply List.ext_getElem?
  intro k
  rw [seg_getElem?]
  cases k with
  | zero => simp [hx]
  | succ k => simp

theorem seg_cons (s : List Nat) {a b : Nat} {x : Nat} (hab : a < b) (hx : s[a]? = some x) :
    seg s a b = x :: seg s (a + 1) b := by
  rw [← seg_append s (Nat.le_succ a) hab]
  have : seg s a (a + 1) = [x] := by
    rw [seg_succ s (Nat.le_refl a) hx, seg_self]; rfl
  rw [this]; rfl

theorem seg_take (s : List Nat) {a b : Nat} (k : Nat) (h : a + k ≤ b) :
    (seg s a b).take k = seg s a (a + k) := by
  unfold seg
  rw [List.take_take]
  congr 1
  omega

theorem seg_drop (s : List Nat) (a b k : Nat) :
    (seg s a b).drop k = seg s (a + k) b := by
  unfold seg
  rw [List.drop_take, List.drop_drop]
  congr 1
  omega

theorem seg_eq_take (s : List Nat) {a b c : Nat} (hab : a ≤ b) (hbc : b ≤ c) :
    seg s a b = (seg s a c).take (b - a) := by
  rw [seg_take s (b - a) (by omega)]
  congr 1; omega

theorem seg_head? (s : List Nat) {a b : Nat} (hab : a < b) : (seg s a b)[0]? = s[a]? := by
  rw [seg_getElem?]
  have : 0 < b - a := by omega
  simp [this]

/-! ## Reading words in the tree -/

theorem walk_nil (s : List Nat) (h : List Node) (p : ActivePoint) : walk s h p [] = some p := rfl

theorem walk_cons (s : List Nat) (h : List Node) (p : ActivePoint) (a : Nat) (w : List Nat) :
    walk s h p (a :: w) = (step s h p a).bind fun q => walk s h q w := by
  have e : walk s h p (a :: w) = match step s h p a with
      | none => none
      | some q => walk s h q w := rfl
  rw [e]
  cases step s h p a <;> rfl

theorem walk_append (s : List Nat) (h : List Node) (p : ActivePoint) (w1 w2 : List Nat) :
    walk s h p (w1 ++ w2) = (walk s h p w1).bind fun q => walk s h q w2 := by
  induction w1 generalizing p with
  | nil => rfl
  | cons a w ih =>
    rw [List.cons_append, walk_cons, walk_cons]
    cases step s h p a with
    | none => rfl
    | some q => exact ih q

theorem walk_snoc (s : List Nat) (h : List Node) (p : ActivePoint) (w : List Nat) (a : Nat) :
    walk s h p (w ++ [a]) = (walk s h p w).bind fun q => step s h q a := by
  rw [walk_append]
  cases walk s h p w with
  | none => rfl
  | some q =>
    show walk s h q [a] = step s h q a
    rw [walk_cons]
    cases step s h q a <;> rfl

theorem walk_prefix {s : List Nat} {h : List Node} {p : ActivePoint} {w1 w2 : List Nat}
    (hw : (walk s h p (w1 ++ w2)).isSome = true) : (walk s h p w1).isSome = true := by
  rw [walk_append] at hw
  revert hw
  cases walk s h p w1 with
  | none => intro hw; exact hw
  | some q => intro _; rfl

/-- What a successful step is. -/
theorem step_spec {s : List Nat} {i : Nat} {lab : Nat → List Nat} {h : List Node}
    (hE : EdgeInv s i lab h) (p : ActivePoint) (a : Nat) (p1 : ActivePoint) :
    step s h p a = some p1 ↔
      ∃ tr q, edgeAt h p.node (if p.length = 0 then a else p.c) = some tr ∧ tr.node = some q ∧
        tr.start + p.length < tr.end_.getD s.length ∧ s[tr.start + p.length]? = some a ∧
        p1 = if tr.start + p.length + 1 = tr.end_.getD s.length then ⟨q, 0, 0⟩
          else ⟨p.node, if p.length = 0 then a else p.c, p.length + 1⟩ := by
  constructor
  · intro hs
    unfold step at hs
    simp only at hs
    cases he : edgeAt h p.node (if p.length = 0 then a else p.c) with
    | none => rw [he] at hs; cases hs
    | some tr =>
      rw [he] at hs
      obtain ⟨q, hq, -⟩ := hE _ _ _ he
      simp only [hq] at hs
      by_cases hc : tr.start + p.length < tr.end_.getD s.length ∧ s[tr.start + p.length]? = some a
      · rw [if_pos hc] at hs
        refine ⟨tr, q, rfl, hq, hc.1, hc.2, ?_⟩
        by_cases hc2 : tr.start + p.length + 1 = tr.end_.getD s.length
        · rw [if_pos hc2] at hs ⊢; injection hs with hs; exact hs.symm
        · rw [if_neg hc2] at hs ⊢; injection hs with hs; exact hs.symm
      · rw [if_neg hc] at hs; cases hs
  · rintro ⟨tr, q, he, hq, h1, h2, h3⟩
    unfold step
    simp only [he, hq, h1, h2, and_self, if_true, h3]
    split <;> rfl

theorem step_node_lt {s : List Nat} {i : Nat} {lab : Nat → List Nat} {h : List Node}
    (hE : EdgeInv s i lab h) {p : ActivePoint} {a : Nat} {p1 : ActivePoint}
    (hs : step s h p a = some p1) : p.node < h.length := by
  obtain ⟨tr, q, he, -⟩ := (step_spec hE p a p1).1 hs
  unfold edgeAt at he
  cases hn : h[p.node]? with
  | none => simp [hn] at he
  | some nd => exact (List.getElem?_eq_some.1 hn).1

/-- A step from a legal position yields a legal position, spelling one more
symbol. -/
theorem PosAt.step {s : List Nat} {i : Nat} {lab : Nat → List Nat} {h : List Node}
    (hE : EdgeInv s i lab h) {p : ActivePoint} {w : List Nat} (hp : PosAt s h lab p w)
    {a : Nat} {p1 : ActivePoint} (hs : step s h p a = some p1) : PosAt s h lab p1 (w ++ [a]) := by
  obtain ⟨tr, q, he, hq, h1, h2, h3⟩ := (step_spec hE p a p1).1 hs
  obtain ⟨q', hq', hqlt, hq0, hlt, hle, hkey, hlab, hleaf, hclosed⟩ := hE _ _ _ he
  rw [hq] at hq'; injection hq' with hq'; subst hq'
  obtain ⟨hnode, hcase⟩ := hp
  have hw : w ++ [a] = lab p.node ++ seg s tr.start (tr.start + p.length + 1) := by
    rcases hcase with ⟨hl, hc, hw⟩ | ⟨hl, tr', he', hlt', hw⟩
    · rw [hw, hl, seg_succ s (Nat.le_refl _) (by rw [hl] at h2; exact h2), seg_self]
      rfl
    · have hne : ¬ p.length = 0 := by omega
      rw [if_neg hne] at he
      rw [he'] at he; injection he with he; subst he
      rw [hw, seg_succ s (Nat.le_add_right _ _) h2, List.append_assoc]
  by_cases hc2 : tr.start + p.length + 1 = tr.end_.getD s.length
  · rw [if_pos hc2] at h3
    subst h3
    refine ⟨hqlt, Or.inl ⟨rfl, rfl, ?_⟩⟩
    rw [hw, hlab, hc2]
  · rw [if_neg hc2] at h3
    subst h3
    refine ⟨hnode, Or.inr ⟨Nat.succ_pos _, tr, he, by simp only; omega, ?_⟩⟩
    simp only
    rw [hw]
    rfl

theorem PosAt.walk {s : List Nat} {i : Nat} {lab : Nat → List Nat} {h : List Node}
    (hE : EdgeInv s i lab h) {p : ActivePoint} {w : List Nat} (hp : PosAt s h lab p w)
    {v : List Nat} {p1 : ActivePoint} (hs : walk s h p v = some p1) :
    PosAt s h lab p1 (w ++ v) := by
  induction v generalizing p w with
  | nil =>
    rw [walk_nil] at hs; injection hs with hs; subst hs
    rw [List.append_nil]; exact hp
  | cons a v ih =>
    rw [walk_cons] at hs
    cases h1 : Ukkonen.step s h p a with
    | none => rw [h1] at hs; cases hs
    | some q =>
      rw [h1] at hs
      have := ih (hp.step hE h1) hs
      rw [List.append_assoc] at this
      exact this

theorem PosAt.root {s : List Nat} {lab : Nat → List Nat} {h : List Node}
    (hr : 0 < h.length ∧ lab 0 = []) : PosAt s h lab ⟨0, 0, 0⟩ [] :=
  ⟨hr.1, Or.inl ⟨rfl, rfl, hr.2.symm⟩⟩

theorem PosAt.locus {s : List Nat} {i : Nat} {lab : Nat → List Nat} {h : List Node}
    (hE : EdgeInv s i lab h) (hr : 0 < h.length ∧ lab 0 = [])
    {w : List Nat} {p : ActivePoint} (hs : locus s h w = some p) : PosAt s h lab p w := by
  have := (PosAt.root hr).walk hE hs
  rw [List.nil_append] at this
  exact this

theorem edgeAt_lt {h : List Node} {u k : Nat} {tr : Transition} (he : edgeAt h u k = some tr) :
    u < h.length := by
  unfold edgeAt at he
  cases hn : h[u]? with
  | none => simp [hn] at he
  | some nd => exact (List.getElem?_eq_some.1 hn).1

/-- Reading the first `m` symbols of the label of an edge from its source. -/
theorem walk_edge {s : List Nat} {i : Nat} {lab : Nat → List Nat} {h : List Node}
    (hE : EdgeInv s i lab h) {u k q : Nat} {tr : Transition}
    (he : edgeAt h u k = some tr) (hq : tr.node = some q) :
    ∀ m, 1 ≤ m → tr.start + m ≤ tr.end_.getD s.length →
      walk s h ⟨u, 0, 0⟩ (seg s tr.start (tr.start + m)) =
        some (if tr.start + m = tr.end_.getD s.length then ⟨q, 0, 0⟩ else ⟨u, k, m⟩) := by
  obtain ⟨q', hq', hqlt, hq0, hlt, hle, hkey, hlab, hleaf, hclosed⟩ := hE _ _ _ he
  intro m hm
  induction m, hm using Nat.le_induction with
  | base =>
    intro hb
    rw [seg_succ s (Nat.le_refl _) hkey, seg_self, List.nil_append, walk_cons]
    have : step s h ⟨u, 0, 0⟩ k =
        some (if tr.start + 1 = tr.end_.getD s.length then ⟨q, 0, 0⟩ else ⟨u, k, 1⟩) := by
      rw [step_spec hE]
      exact ⟨tr, q, he, hq, hlt, hkey, rfl⟩
    rw [this]
    rfl
  | succ m hm ih =>
    intro hb
    have hlt2 : tr.start + m < s.length := by omega
    have hx : s[tr.start + m]? = some s[tr.start + m] := List.getElem?_eq_getElem hlt2
    have e : tr.start + (m + 1) = tr.start + m + 1 := by omega
    rw [e, seg_succ s (Nat.le_add_right _ _) hx, walk_snoc, ih (by omega)]
    have hne : ¬ tr.start + m = tr.end_.getD s.length := by omega
    rw [if_neg hne]
    show step s h ⟨u, k, m⟩ s[tr.start + m] = _
    rw [step_spec hE]
    have hm0 : ¬ m = 0 := by omega
    refine ⟨tr, q, ?_, hq, by simp only; omega, hx, ?_⟩
    · simp only [hm0, if_false]; exact he
    · simp only [hm0, if_false]

/-- Reading a word from inside an edge either stays inside the edge or
passes through its target. -/
theorem walk_inside {s : List Nat} {i : Nat} {lab : Nat → List Nat} {h : List Node}
    (hE : EdgeInv s i lab h) {u k q : Nat} {tr : Transition}
    (he : edgeAt h u k = some tr) (hq : tr.node = some q) (w : List Nat) :
    ∀ (m : Nat) (p : ActivePoint), 0 < m → tr.start + m < tr.end_.getD s.length →
      walk s h ⟨u, k, m⟩ w = some p →
      (tr.start + m + w.length < tr.end_.getD s.length ∧ p = ⟨u, k, m + w.length⟩) ∨
      (tr.end_.getD s.length ≤ tr.start + m + w.length ∧
        walk s h ⟨q, 0, 0⟩ (w.drop (tr.end_.getD s.length - tr.start - m)) = some p) := by
  induction w with
  | nil =>
    intro m p hm hlt hw
    rw [walk_nil] at hw; injection hw with hw
    exact Or.inl ⟨by simpa using hlt, by rw [← hw]; rfl⟩
  | cons a w ih =>
    intro m p hm hlt hw
    rw [walk_cons] at hw
    cases h1 : step s h ⟨u, k, m⟩ a with
    | none => rw [h1] at hw; cases hw
    | some p1 =>
      rw [h1] at hw
      change walk s h p1 w = some p at hw
      obtain ⟨tr', q', he', hq', h2, h3, h4⟩ := (step_spec hE _ _ _).1 h1
      have hm0 : ¬ m = 0 := by omega
      simp only [hm0, if_false] at he' h4
      rw [he] at he'; injection he' with he'; subst he'
      rw [hq] at hq'; injection hq' with hq'; subst hq'
      by_cases hc : tr.start + m + 1 = tr.end_.getD s.length
      · rw [if_pos hc] at h4; subst h4
        refine Or.inr ⟨by simp only [List.length_cons]; omega, ?_⟩
        have : tr.end_.getD s.length - tr.start - m = 1 := by omega
        rw [this]; exact hw
      · rw [if_neg hc] at h4; subst h4
        rcases ih (m + 1) p (Nat.succ_pos _) (by omega) hw with ⟨h5, h6⟩ | ⟨h5, h6⟩
        · refine Or.inl ⟨by simp only [List.length_cons]; omega, ?_⟩
          rw [h6]; simp only [List.length_cons]
          congr 1; omega
        · refine Or.inr ⟨by simp only [List.length_cons]; omega, ?_⟩
          have : tr.end_.getD s.length - tr.start - m =
              (tr.end_.getD s.length - tr.start - (m + 1)) + 1 := by omega
          rw [this, List.drop_succ_cons]; exact h6

/-- Reading a non-empty word from a node enters the edge keyed by its first
symbol, and either stays inside that edge or passes through its target. -/
theorem walk_from_node {s : List Nat} {i : Nat} {lab : Nat → List Nat} {h : List Node}
    (hE : EdgeInv s i lab h) {u : Nat} {a : Nat} {w : List Nat} {p : ActivePoint}
    (hw : walk s h ⟨u, 0, 0⟩ (a :: w) = some p) :
    ∃ tr q, edgeAt h u a = some tr ∧ tr.node = some q ∧
      ((tr.start + (w.length + 1) < tr.end_.getD s.length ∧ p = ⟨u, a, w.length + 1⟩) ∨
       (tr.end_.getD s.length ≤ tr.start + (w.length + 1) ∧
        walk s h ⟨q, 0, 0⟩ ((a :: w).drop (tr.end_.getD s.length - tr.start)) = some p)) := by
  rw [walk_cons] at hw
  cases h1 : step s h ⟨u, 0, 0⟩ a with
  | none => rw [h1] at hw; cases hw
  | some p1 =>
    rw [h1] at hw
    change walk s h p1 w = some p at hw
    obtain ⟨tr, q, he, hq, h2, h3, h4⟩ := (step_spec hE _ _ _).1 h1
    simp only [if_true, Nat.add_zero] at he h2 h3 h4
    refine ⟨tr, q, he, hq, ?_⟩
    by_cases hc : tr.start + 1 = tr.end_.getD s.length
    · rw [if_pos hc] at h4; subst h4
      refine Or.inr ⟨by omega, ?_⟩
      have : tr.end_.getD s.length - tr.start = 1 := by omega
      rw [this]; exact hw
    · rw [if_neg hc] at h4; subst h4
      rcases walk_inside hE he hq w 1 p (by omega) (by omega) hw with ⟨h5, h6⟩ | ⟨h5, h6⟩
      · refine Or.inl ⟨by omega, ?_⟩
        rw [h6]; congr 1; omega
      · refine Or.inr ⟨by omega, ?_⟩
        have : tr.end_.getD s.length - tr.start = (tr.end_.getD s.length - tr.start - 1) + 1 := by
          omega
        rw [this, List.drop_succ_cons]; exact h6

/-! ## `FixLengthOverflow` -/

theorem heapIndex_of_edge {h : List Node} {a k : Nat} {tr : Transition}
    (he : edgeAt h a k = some tr) : heapIndex h a k = some (h, tr) := by
  unfold edgeAt at he
  unfold heapIndex
  cases hn : h[a]? with
  | none => simp [hn] at he
  | some nd =>
    simp only [hn] at he ⊢
    unfold mapIndex
    simp only [he]
    have : setNode h a { nd with to_ := nd.to_ } = h := setNode_self hn
    rw [this]

theorem charAt_of_lt {s : List Nat} {j : Nat} (hj : j < s.length) : charAt s j = s[j]? := by
  unfold charAt; simp [hj]

theorem ne_zero_of_getElem? {s : List Nat} (hn : 0 ∉ s) {j x : Nat} (hx : s[j]? = some x) :
    x ≠ 0 := by
  intro h0
  subst h0
  obtain ⟨hlt, he⟩ := List.getElem?_eq_some.1 hx
  exact hn (he ▸ List.getElem_mem hlt)

theorem step_leaf {s : List Nat} {h : List Node} {q : Nat} (hl : leafAt h q = true) (a : Nat) :
    step s h ⟨q, 0, 0⟩ a = none := by
  unfold leafAt at hl
  unfold step edgeAt
  cases hn : h[q]? with
  | none => simp
  | some nd =>
    simp only [hn] at hl ⊢
    unfold Node.isLeaf at hl
    have : nd.to_ = [] := List.isEmpty_iff.1 hl
    simp [this, mapFind]

/-- The loop of `FixLengthOverflow` stops at once on a position that does
not overflow its edge. -/
theorem FLO_loop_stop {s : List Nat} {h : List Node} {u k m : Nat} {tr : Transition}
    (idx fuel : Nat) (hk : k ≠ 0) (he : edgeAt h u k = some tr)
    (hm : tr.start + m ≤ tr.end_.getD s.length) :
    FixLengthOverflowLoop s idx (fuel + 1) h ⟨u, k, m⟩ = some (h, ⟨u, k, m⟩) := by
  unfold FixLengthOverflowLoop
  simp only [hk, ne_eq, not_false_eq_true, if_true, heapIndex_of_edge he]
  cases hend : tr.end_ with
  | none => rfl
  | some e =>
    simp only
    rw [hend] at hm
    simp only [Option.getD_some] at hm
    have : ¬ (tr.start ≤ e ∧ m > e - tr.start) := by omega
    rw [if_neg this]

/-- The loop of `FixLengthOverflow` hops down the tree along the last `m`
symbols read, as long as they overflow the current edge. -/
theorem FLO_loop {s : List Nat} {i0 : Nat} {lab : Nat → List Nat} {h : List Node}
    (hE : EdgeInv s i0 lab h) (hn : 0 ∉ s) (i : Nat) (hi : i ≤ s.length) :
    ∀ (fuel m u x : Nat) (p : ActivePoint), 1 ≤ m → m ≤ i → m ≤ fuel → s[i - m]? = some x →
      walk s h ⟨u, 0, 0⟩ (seg s (i - m) i) = some p → leafAt h p.node = false →
      ∃ u' k' m' tr' q', FixLengthOverflowLoop s i fuel h ⟨u, x, m⟩ = some (h, ⟨u', k', m'⟩) ∧
        k' ≠ 0 ∧ edgeAt h u' k' = some tr' ∧ tr'.node = some q' ∧ 1 ≤ m' ∧
        ((tr'.start + m' < tr'.end_.getD s.length ∧ p = ⟨u', k', m'⟩) ∨
         (tr'.start + m' = tr'.end_.getD s.length ∧ tr'.end_ ≠ none ∧ p = ⟨q', 0, 0⟩)) := by
  intro fuel
  induction fuel with
  | zero => intro m u x p h1 _ h3; omega
  | succ fuel ih =>
    intro m u x p h1 h2 h3 hx hw hleaf
    have hx0 : x ≠ 0 := ne_zero_of_getElem? hn hx
    have hseg : seg s (i - m) i = x :: seg s (i - m + 1) i := seg_cons s (by omega) hx
    have hlen : (seg s (i - m + 1) i).length = m - 1 := by rw [seg_length s hi]; omega
    rw [hseg] at hw
    obtain ⟨tr, q, he, hq, hcase⟩ := walk_from_node hE hw
    obtain ⟨q', hq', hqlt, hq0, hlt, hle, hkey, hlab, hleafq, hclosed⟩ := hE _ _ _ he
    rw [hq] at hq'; injection hq' with hq'; subst hq'
    rw [hlen] at hcase
    have hm1 : m - 1 + 1 = m := by omega
    rw [hm1] at hcase
    rcases hcase with ⟨h5, h6⟩ | ⟨h5, h6⟩
    · exact ⟨u, x, m, tr, q, FLO_loop_stop i fuel hx0 he (by omega), hx0, he, hq, h1,
        Or.inl ⟨h5, h6⟩⟩
    · by_cases heq : tr.start + m = tr.end_.getD s.length
      · have hd : (x :: seg s (i - m + 1) i).drop (tr.end_.getD s.length - tr.start) = [] := by
          apply List.drop_of_length_le
          simp only [List.length_cons, hlen]; omega
        rw [hd, walk_nil] at h6
        injection h6 with h6
        have hnl : leafAt h q = false := by rw [← h6] at hleaf; exact hleaf
        have hne : tr.end_ ≠ none := by
          intro e0; rw [hleafq.1 e0] at hnl; cases hnl
        exact ⟨u, x, m, tr, q, FLO_loop_stop i fuel hx0 he (by omega), hx0, he, hq, h1,
          Or.inr ⟨heq, hne, h6.symm⟩⟩
      · have hgt : tr.end_.getD s.length < tr.start + m := by omega
        have hdrop : (x :: seg s (i - m + 1) i).drop (tr.end_.getD s.length - tr.start) =
            seg s (i - m + (tr.end_.getD s.length - tr.start)) i := by
          rw [← hseg, seg_drop]
        rw [hdrop] at h6
        cases hend : tr.end_ with
        | none =>
          exfalso
          have hl : leafAt h q = true := hleafq.1 hend
          have hlt3 : i - m + (tr.end_.getD s.length - tr.start) < i := by omega
          have hy : s[i - m + (tr.end_.getD s.length - tr.start)]? =
              some s[i - m + (tr.end_.getD s.length - tr.start)] :=
            List.getElem?_eq_getElem (by omega)
          rw [seg_cons s hlt3 hy, walk_cons, step_leaf hl] at h6
          cases h6
        | some e =>
          rw [hend] at hgt hlt h6 hle
          simp only [Option.getD_some] at hgt hlt h6 hle
          have hlt3 : i - m + (e - tr.start) < s.length := by omega
          have hy : s[i - m + (e - tr.start)]? = some s[i - m + (e - tr.start)] :=
            List.getElem?_eq_getElem hlt3
          have e1 : i - (m - (e - tr.start)) = i - m + (e - tr.start) := by omega
          obtain ⟨u', k', m', tr', q', hloop, hrest⟩ :=
            ih (m - (e - tr.start)) q s[i - m + (e - tr.start)] p (by omega) (by omega) (by omega)
              (by rw [e1]; exact hy) (by rw [e1]; exact h6) hleaf
          refine ⟨u', k', m', tr', q', ?_, hrest⟩
          unfold FixLengthOverflowLoop
          simp only [hx0, ne_eq, not_false_eq_true, if_true, heapIndex_of_edge he, hend]
          have hc : tr.start ≤ e ∧ m > e - tr.start := by omega
          rw [if_pos hc]
          have hc2 : m ≤ i + (e - tr.start) := by omega
          rw [if_pos hc2]
          have e2 : i + (e - tr.start) - m = i - m + (e - tr.start) := by omega
          rw [e2, charAt_of_lt hlt3, hy, hq]
          exact hloop

/-- The step of `FixLengthOverflow` after its loop. -/
theorem FLO_final {s : List Nat} {h : List Node} (t : SuffixTree) (idx : Nat)
    {u k m q : Nat} {tr : Transition} {p : ActivePoint}
    (hts : t.s = s)
    (hloop : FixLengthOverflowLoop s idx (t.ap.length + 1) t.heap t.ap = some (h, ⟨u, k, m⟩))
    (hk : k ≠ 0) (he : edgeAt h u k = some tr) (hq : tr.node = some q)
    (hcase : (tr.start + m < tr.end_.getD s.length ∧ p = ⟨u, k, m⟩) ∨
         (tr.start + m = tr.end_.getD s.length ∧ tr.end_ ≠ none ∧ p = ⟨q, 0, 0⟩)) :
    FixLengthOverflow t idx = some { t with heap := h, ap := p } := by
  unfold FixLengthOverflow
  rw [hts, hloop]
  simp only [hk, ne_eq, not_false_eq_true, if_true, heapIndex_of_edge he]
  cases hend : tr.end_ with
  | none =>
    rcases hcase with ⟨_, h2⟩ | ⟨_, h2, _⟩
    · simp only [h2]
    · exact absurd hend h2
  | some e =>
    rw [hend] at hcase
    simp only [Option.getD_some] at hcase
    rcases hcase with ⟨h1, h2⟩ | ⟨h1, _, h2⟩
    · have : ¬ (tr.start ≤ e ∧ m = e - tr.start) := by omega
      simp only [this, if_false, h2]
    · have : tr.start ≤ e ∧ m = e - tr.start := by omega
      simp only [this, and_self, if_true, hq, h2]

theorem FLO_zero (t : SuffixTree) (idx : Nat) (hc : t.ap.c = 0) :
    FixLengthOverflow t idx = some t := by
  unfold FixLengthOverflow FixLengthOverflowLoop
  simp [hc]

/-! ## The heap after an extension -/

theorem length_setNode (h : List Node) (a : Nat) (n : Node) : (setNode h a n).length = h.length := by
  simp [setNode]

theorem getElem?_setNode (h : List Node) (a : Nat) (n : Node) (v : Nat) :
    (setNode h a n)[v]? = if a = v ∧ a < h.length then some n else h[v]? := by
  unfold setNode
  by_cases hav : a = v
  · subst hav
    by_cases hlt : a < h.length
    · rw [List.getElem?_set_self hlt]; simp [hlt]
    · have h1 : h[a]? = none := List.getElem?_eq_none (by omega)
      have h2 : (h.set a n)[a]? = none := List.getElem?_eq_none (by simp; omega)
      simp [hlt, h1, h2]
  · rw [List.getElem?_set_ne hav]; simp [hav]

theorem length_setLink (h : List Node) (p v : Nat) : (setLink h p v).length = h.length := by
  unfold setLink
  cases h[p]? <;> simp [length_setNode]

theorem getElem?_setLink (h : List Node) (p w v : Nat) :
    (setLink h p w)[v]? = if p = v then (h[v]?).map fun nd => { nd with suffix_link := some w }
      else h[v]? := by
  unfold setLink
  cases hp : h[p]? with
  | none =>
    by_cases hpv : p = v
    · subst hpv; simp [hp]
    · simp [hpv]
  | some nd =>
    simp only
    rw [getElem?_setNode]
    have hlt : p < h.length := (List.getElem?_eq_some.1 hp).1
    by_cases hpv : p = v
    · subst hpv; simp [hlt, hp]
    · simp [hpv]

theorem edgeAt_setLink (h : List Node) (p w v k : Nat) :
    edgeAt (setLink h p w) v k = edgeAt h v k := by
  unfold edgeAt
  rw [getElem?_setLink]
  by_cases hpv : p = v
  · simp only [hpv, if_true]
    cases h[v]? <;> rfl
  · simp only [hpv, if_false]

theorem leafAt_setLink (h : List Node) (p w v : Nat) :
    leafAt (setLink h p w) v = leafAt h v := by
  unfold leafAt
  rw [getElem?_setLink]
  by_cases hpv : p = v
  · simp only [hpv, if_true]
    cases h[v]? <;> rfl
  · simp only [hpv, if_false]

theorem linkAt_setLink (h : List Node) (p w v : Nat) :
    linkAt (setLink h p w) v = if p = v ∧ v < h.length then some w else linkAt h v := by
  unfold linkAt
  rw [getElem?_setLink]
  by_cases hpv : p = v
  · simp only [hpv, if_true, true_and]
    cases hv : h[v]? with
    | none =>
      have : ¬ v < h.length := by
        rw [List.getElem?_eq_none_iff] at hv; omega
      simp [this]
    | some nd =>
      have : v < h.length := (List.getElem?_eq_some.1 hv).1
      simp [this]
  · simp only [hpv, if_false, false_and]

theorem keysAt_setLink (h : List Node) (p w v : Nat) :
    keysAt (setLink h p w) v = keysAt h v := by
  unfold keysAt
  rw [getElem?_setLink]
  by_cases hpv : p = v
  · simp only [hpv, if_true]
    cases h[v]? <;> rfl
  · simp only [hpv, if_false]

theorem leafCount_setLink (h : List Node) (p w : Nat) :
    leafCount (setLink h p w) = leafCount h := by
  unfold setLink
  cases hp : h[p]? with
  | none => rfl
  | some nd =>
    simp only
    have hlt : p < h.length := (List.getElem?_eq_some.1 hp).1
    unfold leafCount setNode
    rw [List.countP_set _ _ _ _ hlt]
    have e : h[p] = nd := by
      rw [List.getElem?_eq_getElem hlt] at hp; injection hp
    rw [e]
    have e2 : Node.isLeaf { nd with suffix_link := some w } = Node.isLeaf nd := rfl
    rw [e2]
    by_cases hl : nd.isLeaf = true
    · have hpos : 0 < List.countP Node.isLeaf h := by
        rw [List.countP_pos_iff]
        exact ⟨nd, e ▸ List.getElem_mem hlt, hl⟩
      simp only [hl, if_true]
      omega
    · simp [hl]

theorem edgeAt_linkHeap (h : List Node) (prev : Option Nat) (w v k : Nat) :
    edgeAt (linkHeap h prev w) v k = edgeAt h v k := by
  unfold linkHeap
  cases prev with
  | none => rfl
  | some p => exact edgeAt_setLink h p w v k

theorem leafAt_linkHeap (h : List Node) (prev : Option Nat) (w v : Nat) :
    leafAt (linkHeap h prev w) v = leafAt h v := by
  unfold linkHeap
  cases prev with
  | none => rfl
  | some p => exact leafAt_setLink h p w v

theorem length_linkHeap (h : List Node) (prev : Option Nat) (w : Nat) :
    (linkHeap h prev w).length = h.length := by
  unfold linkHeap
  cases prev with
  | none => rfl
  | some p => exact length_setLink h p w

theorem leafCount_linkHeap (h : List Node) (prev : Option Nat) (w : Nat) :
    leafCount (linkHeap h prev w) = leafCount h := by
  unfold linkHeap
  cases prev with
  | none => rfl
  | some p => exact leafCount_setLink h p w

theorem keysAt_linkHeap (h : List Node) (prev : Option Nat) (w v : Nat) :
    keysAt (linkHeap h prev w) v = keysAt h v := by
  unfold linkHeap
  cases prev with
  | none => rfl
  | some p => exact keysAt_setLink h p w v

theorem linkAt_linkHeap (h : List Node) (prev : Option Nat) (w v : Nat) :
    linkAt (linkHeap h prev w) v =
      if prev = some v ∧ v < h.length then some w else linkAt h v := by
  unfold linkHeap
  cases prev with
  | none => simp
  | some p =>
    simp only [Option.some.injEq]
    exact linkAt_setLink h p w v

/-- `step` only looks at the transitions. -/
theorem step_congr {s : List Nat} {h h1 : List Node}
    (he : ∀ v k, edgeAt h1 v k = edgeAt h v k) (p : ActivePoint) (a : Nat) :
    step s h1 p a = step s h p a := by
  unfold step
  simp only [he]

theorem walk_congr {s : List Nat} {h h1 : List Node}
    (he : ∀ v k, edgeAt h1 v k = edgeAt h v k) (p : ActivePoint) (w : List Nat) :
    walk s h1 p w = walk s h p w := by
  induction w generalizing p with
  | nil => rfl
  | cons a w ih =>
    rw [walk_cons, walk_cons, step_congr he]
    cases step s h p a with
    | none => rfl
    | some q => exact ih q

theorem step_mono {s : List Nat} {h h1 : List Node}
    (he : ∀ v k tr, edgeAt h v k = some tr → edgeAt h1 v k = some tr)
    {p : ActivePoint} {a : Nat} {p1 : ActivePoint} (hs : step s h p a = some p1) :
    step s h1 p a = some p1 := by
  unfold step at hs ⊢
  simp only at hs ⊢
  cases h2 : edgeAt h p.node (if p.length = 0 then a else p.c) with
  | none => rw [h2] at hs; cases hs
  | some tr =>
    rw [h2] at hs
    rw [he _ _ _ h2]
    exact hs

theorem walk_mono {s : List Nat} {h h1 : List Node}
    (he : ∀ v k tr, edgeAt h v k = some tr → edgeAt h1 v k = some tr)
    {p : ActivePoint} {w : List Nat} {p1 : ActivePoint} (hs : walk s h p w = some p1) :
    walk s h1 p w = some p1 := by
  induction w generalizing p with
  | nil => exact hs
  | cons a w ih =>
    rw [walk_cons] at hs ⊢
    cases h2 : step s h p a with
    | none => rw [h2] at hs; cases hs
    | some q =>
      rw [h2] at hs
      rw [step_mono he h2]
      exact ih hs

/-! ### Adding a leaf -/

theorem length_leafHeap {h : List Node} {u : Nat} (hu : u < h.length) (c i : Nat) :
    (leafHeap h u c i).length = h.length + 1 := by
  unfold leafHeap
  rw [List.getElem?_eq_getElem hu]
  simp [length_setNode]

theorem getElem?_leafHeap {h : List Node} {u : Nat} {nd : Node} (hu : h[u]? = some nd)
    (c i v : Nat) :
    (leafHeap h u c i)[v]? =
      if v = u then some { nd with to_ := nd.to_ ++ [(c, ⟨some h.length, i, none⟩)] }
      else if v = h.length then some ⟨[], none⟩ else h[v]? := by
  have hlt : u < h.length := (List.getElem?_eq_some.1 hu).1
  unfold leafHeap
  simp only [hu]
  by_cases hv : v < h.length
  · rw [List.getElem?_append_left (by rw [length_setNode]; exact hv), getElem?_setNode]
    by_cases hvu : v = u
    · subst hvu; simp [hlt]
    · have : ¬ u = v := fun e => hvu e.symm
      have h2 : ¬ v = h.length := by omega
      simp [hvu, this, h2]
  · have hvu : ¬ v = u := by omega
    rw [List.getElem?_append_right (by rw [length_setNode]; omega), length_setNode]
    simp only [hvu, if_false]
    by_cases hv2 : v = h.length
    · subst hv2; simp
    · have : v - h.length ≠ 0 := by omega
      simp only [hv2, if_false]
      rw [List.getElem?_eq_none (by simp; omega), List.getElem?_eq_none (by omega)]

theorem edgeAt_leafHeap {h : List Node} {u c : Nat} (hu : u < h.length)
    (hc : edgeAt h u c = none) (i v k : Nat) :
    edgeAt (leafHeap h u c i) v k =
      if v = u ∧ k = c then some ⟨some h.length, i, none⟩ else edgeAt h v k := by
  have hu' : h[u]? = some h[u] := List.getElem?_eq_getElem hu
  unfold edgeAt at hc ⊢
  rw [getElem?_leafHeap hu']
  rw [hu'] at hc
  simp only at hc
  by_cases hvu : v = u
  · subst hvu
    simp only [if_true, true_and, hu', mapFind_append, hc]
    by_cases hk : k = c
    · subst hk; simp [hc, mapFind]
    · have : ¬ c = k := fun e => hk e.symm
      simp only [hk, if_false, mapFind, this]
      cases mapFind h[v].to_ k <;> rfl
  · simp only [hvu, if_false, false_and]
    by_cases hv2 : v = h.length
    · subst hv2
      simp [mapFind]
    · simp only [hv2, if_false]

theorem leafAt_leafHeap {h : List Node} {u : Nat} (hu : u < h.length) (c i v : Nat) :
    leafAt (leafHeap h u c i) v =
      if v = u then false else if v = h.length then true else leafAt h v := by
  have hu' : h[u]? = some h[u] := List.getElem?_eq_getElem hu
  unfold leafAt
  rw [getElem?_leafHeap hu']
  by_cases hvu : v = u
  · simp [hvu, Node.isLeaf]
  · simp only [hvu, if_false]
    by_cases hv2 : v = h.length
    · simp [hv2, Node.isLeaf]
    · simp only [hv2, if_false]

theorem linkAt_leafHeap {h : List Node} {u : Nat} (hu : u < h.length) (c i v : Nat) :
    linkAt (leafHeap h u c i) v = linkAt h v := by
  have hu' : h[u]? = some h[u] := List.getElem?_eq_getElem hu
  unfold linkAt
  rw [getElem?_leafHeap hu']
  by_cases hvu : v = u
  · subst hvu; simp [hu']
  · simp only [hvu, if_false]
    by_cases hv2 : v = h.length
    · subst hv2
      simp
    · simp only [hv2, if_false]

theorem leafCount_leafHeap {h : List Node} {u : Nat} (hu : u < h.length) (c i : Nat) :
    leafCount (leafHeap h u c i) + (if leafAt h u then 1 else 0) = leafCount h + 1 := by
  have hu' : h[u]? = some h[u] := List.getElem?_eq_getElem hu
  unfold leafHeap leafCount leafAt
  simp only [hu']
  rw [List.countP_append]
  unfold setNode
  rw [List.countP_set _ _ _ _ hu]
  have e1 : Node.isLeaf { h[u] with to_ := h[u].to_ ++ [(c, ⟨some h.length, i, none⟩)] } = false := by
    simp [Node.isLeaf]
  have e2 : List.countP Node.isLeaf [(⟨[], none⟩ : Node)] = 1 := by
    simp [Node.isLeaf]
  rw [e1, e2]
  by_cases hl : h[u].isLeaf = true
  · have hpos : 0 < List.countP Node.isLeaf h := by
      rw [List.countP_pos_iff]
      exact ⟨h[u], List.getElem_mem hu, hl⟩
    simp only [hl, if_true, Bool.false_eq_true, if_false]
    omega
  · simp [hl]

/-! ### Splitting an edge -/

theorem length_splitHeap {h : List Node} {u x : Nat} {tr : Transition}
    (he : edgeAt h u x = some tr) (len d c i : Nat) :
    (splitHeap h u x len d c i).length = h.length + 2 := by
  have hu : u < h.length := edgeAt_lt he
  unfold splitHeap
  rw [List.getElem?_eq_getElem hu, he]
  simp [length_setNode]

theorem getElem?_splitHeap {h : List Node} {u x : Nat} {nd : Node} {tr : Transition}
    (hu : h[u]? = some nd) (he : edgeAt h u x = some tr) (len d c i v : Nat) :
    (splitHeap h u x len d c i)[v]? =
      if v = u then
        some { nd with to_ := mapSet nd.to_ x ⟨some h.length, tr.start, some (tr.start + len)⟩ }
      else if v = h.length then
        some ⟨[(d, ⟨tr.node, tr.start + len, tr.end_⟩), (c, ⟨some (h.length + 1), i, none⟩)], none⟩
      else if v = h.length + 1 then some ⟨[], none⟩ else h[v]? := by
  have hlt : u < h.length := (List.getElem?_eq_some.1 hu).1
  unfold splitHeap
  simp only [hu, he]
  by_cases hv : v < h.length
  · rw [List.getElem?_append_left (by rw [length_setNode]; exact hv), getElem?_setNode]
    by_cases hvu : v = u
    · subst hvu; simp [hlt]
    · have : ¬ u = v := fun e => hvu e.symm
      have h2 : ¬ v = h.length := by omega
      have h3 : ¬ v = h.length + 1 := by omega
      simp [hvu, this, h2, h3]
  · have hvu : ¬ v = u := by omega
    rw [List.getElem?_append_right (by rw [length_setNode]; omega), length_setNode]
    simp only [hvu, if_false]
    by_cases hv2 : v = h.length
    · subst hv2; simp
    · simp only [hv2, if_false]
      by_cases hv3 : v = h.length + 1
      · subst hv3; simp
      · simp only [hv3, if_false]
        rw [List.getElem?_eq_none (by simp; omega), List.getElem?_eq_none (by omega)]

theorem edgeAt_splitHeap {h : List Node} {u x : Nat} {tr : Transition}
    (he : edgeAt h u x = some tr) (len d c i v k : Nat) :
    edgeAt (splitHeap h u x len d c i) v k =
      if v = u then
        if k = x then some ⟨some h.length, tr.start, some (tr.start + len)⟩ else edgeAt h u k
      else if v = h.length then
        if k = d then some ⟨tr.node, tr.start + len, tr.end_⟩
        else if k = c then some ⟨some (h.length + 1), i, none⟩ else none
      else edgeAt h v k := by
  have hu : u < h.length := edgeAt_lt he
  have hu' : h[u]? = some h[u] := List.getElem?_eq_getElem hu
  have he' : mapFind h[u].to_ x = some tr := by rw [← edgeAt_eq hu']; exact he
  unfold edgeAt
  rw [getElem?_splitHeap hu' he]
  by_cases hvu : v = u
  · subst hvu
    simp only [if_true, hu']
    by_cases hk : k = x
    · subst hk
      simp only [if_true]
      exact mapFind_mapSet_self _ (by rw [he']; simp)
    · simp only [hk, if_false]
      exact mapFind_mapSet_ne _ _ hk
  · simp only [hvu, if_false]
    by_cases hv2 : v = h.length
    · subst hv2
      simp only [if_true, mapFind]
      by_cases hk : k = d
      · subst hk; simp
      · have : ¬ d = k := fun e => hk e.symm
        simp only [hk, this, if_false]
        by_cases hk2 : k = c
        · subst hk2; simp
        · have : ¬ c = k := fun e => hk2 e.symm
          simp only [hk2, this, if_false]
    · simp only [hv2, if_false]
      by_cases hv3 : v = h.length + 1
      · subst hv3
        simp only [if_true, mapFind]
        rw [List.getElem?_eq_none (by omega)]
      · simp only [hv3, if_false]

theorem leafAt_splitHeap {h : List Node} {u x : Nat} {tr : Transition}
    (he : edgeAt h u x = some tr) (len d c i v : Nat) :
    leafAt (splitHeap h u x len d c i) v =
      if v = h.length then false else if v = h.length + 1 then true else leafAt h v := by
  have hu : u < h.length := edgeAt_lt he
  have hu' : h[u]? = some h[u] := List.getElem?_eq_getElem hu
  unfold leafAt
  rw [getElem?_splitHeap hu' he]
  by_cases hvu : v = u
  · subst hvu
    have h2 : ¬ v = h.length := by omega
    have h3 : ¬ v = h.length + 1 := by omega
    simp only [if_true, h2, h3, if_false, hu']
    unfold Node.isLeaf
    simp only
    have : (mapSet h[v].to_ x ⟨some h.length, tr.start, some (tr.start + len)⟩).isEmpty =
        h[v].to_.isEmpty := by
      have hk := mapSet_keys h[v].to_ x ⟨some h.length, tr.start, some (tr.start + len)⟩
      have hl := congrArg List.length hk
      simp only [List.length_map] at hl
      cases h1 : mapSet h[v].to_ x ⟨some h.length, tr.start, some (tr.start + len)⟩ with
      | nil =>
        rw [h1] at hl
        cases h2 : h[v].to_ with
        | nil => rfl
        | cons a l => rw [h2] at hl; simp at hl
      | cons a l =>
        rw [h1] at hl
        cases h2 : h[v].to_ with
        | nil => rw [h2] at hl; simp at hl
        | cons a l => rfl
    exact this
  · simp only [hvu, if_false]
    by_cases hv2 : v = h.length
    · simp [hv2, Node.isLeaf]
    · simp only [hv2, if_false]
      by_cases hv3 : v = h.length + 1
      · simp [hv3, Node.isLeaf]
      · simp only [hv3, if_false]

theorem linkAt_splitHeap {h : List Node} {u x : Nat} {tr : Transition}
    (he : edgeAt h u x = some tr) (len d c i v : Nat) :
    linkAt (splitHeap h u x len d c i) v = linkAt h v := by
  have hu : u < h.length := edgeAt_lt he
  have hu' : h[u]? = some h[u] := List.getElem?_eq_getElem hu
  unfold linkAt
  rw [getElem?_splitHeap hu' he]
  by_cases hvu : v = u
  · subst hvu; simp [hu']
  · simp only [hvu, if_false]
    by_cases hv2 : v = h.length
    · subst hv2; simp
    · simp only [hv2, if_false]
      by_cases hv3 : v = h.length + 1
      · subst hv3
        simp only [if_true]
        rw [List.getElem?_eq_none (by omega)]
      · simp only [hv3, if_false]

theorem leafCount_splitHeap {h : List Node} {u x : Nat} {tr : Transition}
    (he : edgeAt h u x = some tr) (len d c i : Nat) :
    leafCount (splitHeap h u x len d c i) = leafCount h + 1 := by
  have hu : u < h.length := edgeAt_lt he
  have hu' : h[u]? = some h[u] := List.getElem?_eq_getElem hu
  have hl1 : leafAt (splitHeap h u x len d c i) u = leafAt h u := by
    rw [leafAt_splitHeap he]
    have h2 : ¬ u = h.length := by omega
    have h3 : ¬ u = h.length + 1 := by omega
    simp only [h2, h3, if_false]
  unfold leafAt at hl1
  rw [getElem?_splitHeap hu' he] at hl1
  simp only [if_true, hu'] at hl1
  unfold splitHeap leafCount
  simp only [hu', he]
  rw [List.countP_append]
  unfold setNode
  rw [List.countP_set _ _ _ _ hu, hl1]
  have e2 : List.countP Node.isLeaf
      [(⟨[(d, ⟨tr.node, tr.start + len, tr.end_⟩), (c, ⟨some (h.length + 1), i, none⟩)], none⟩ : Node),
        ⟨[], none⟩] = 1 := by
    simp [Node.isLeaf]
  rw [e2]
  by_cases hl : h[u].isLeaf = true
  · have hpos : 0 < List.countP Node.isLeaf h := by
      rw [List.countP_pos_iff]
      exact ⟨h[u], List.getElem_mem hu, hl⟩
    simp only [hl, if_true]
    omega
  · simp [hl]

/-! ## Consequences of the tree invariant -/

theorem keysAt_leafHeap {h : List Node} {u : Nat} (hu : u < h.length) (c i v : Nat) :
    keysAt (leafHeap h u c i) v =
      if v = u then keysAt h u ++ [c] else if v = h.length then [] else keysAt h v := by
  have hu' : h[u]? = some h[u] := List.getElem?_eq_getElem hu
  unfold keysAt
  rw [getElem?_leafHeap hu']
  by_cases hvu : v = u
  · subst hvu; simp [hu']
  · simp only [hvu, if_false]
    by_cases hv2 : v = h.length
    · simp [hv2]
    · simp only [hv2, if_false]

theorem keysAt_splitHeap {h : List Node} {u x : Nat} {tr : Transition}
    (he : edgeAt h u x = some tr) (len d c i v : Nat) :
    keysAt (splitHeap h u x len d c i) v =
      if v = h.length then [d, c] else keysAt h v := by
  have hu : u < h.length := edgeAt_lt he
  have hu' : h[u]? = some h[u] := List.getElem?_eq_getElem hu
  unfold keysAt
  rw [getElem?_splitHeap hu' he]
  by_cases hvu : v = u
  · subst hvu
    have h2 : ¬ v = h.length := by omega
    simp only [if_true, h2, if_false, hu', mapSet_keys]
  · simp only [hvu, if_false]
    by_cases hv2 : v = h.length
    · simp [hv2]
    · simp only [hv2, if_false]
      by_cases hv3 : v = h.length + 1
      · subst hv3
        simp only [if_true]
        rw [List.getElem?_eq_none (by omega)]
        rfl
      · simp only [hv3, if_false]

theorem edgeAt_isSome_iff (h : List Node) (u k : Nat) :
    (edgeAt h u k).isSome = true ↔ k ∈ keysAt h u := by
  unfold edgeAt keysAt
  cases h[u]? with
  | none => simp
  | some nd => exact mapFind_isSome_iff nd.to_ k

theorem edgeAt_eq_none_iff (h : List Node) (u k : Nat) :
    edgeAt h u k = none ↔ k ∉ keysAt h u := by
  rw [← edgeAt_isSome_iff]
  cases edgeAt h u k <;> simp

theorem leafAt_false_of_edge {h : List Node} {u k : Nat} {tr : Transition}
    (he : edgeAt h u k = some tr) : leafAt h u = false := by
  unfold edgeAt at he
  unfold leafAt
  cases hn : h[u]? with
  | none => rfl
  | some nd =>
    simp only [hn] at he ⊢
    unfold Node.isLeaf
    cases hto : nd.to_ with
    | nil => rw [hto] at he; simp [mapFind] at he
    | cons a l => rfl

theorem leafAt_true_iff {h : List Node} {u : Nat} (hu : u < h.length) :
    leafAt h u = true ↔ keysAt h u = [] := by
  unfold leafAt keysAt
  rw [List.getElem?_eq_getElem hu]
  simp only [Node.isLeaf]
  cases h[u].to_ <;> simp

theorem TreeInv.pos {s : List Nat} {i L : Nat} {lab : Nat → List Nat} {h : List Node}
    {prev : Option Nat} (hI : TreeInv s i L lab h prev) {w : List Nat} {p : ActivePoint}
    (hw : locus s h w = some p) : PosAt s h lab p w :=
  PosAt.locus hI.edge hI.root hw

/-- The word of a leaf is longer than any segment that starts at or after
`L`. -/
theorem TreeInv.not_leaf {s : List Nat} {i L : Nat} {lab : Nat → List Nat} {h : List Node}
    {prev : Option Nat} (hI : TreeInv s i L lab h prev) {u a b : Nat} (hu : u < h.length)
    (hu0 : u ≠ 0) (hlab : lab u = seg s a b) (ha : L ≤ a) (hb : b ≤ s.length) :
    leafAt h u = false := by
  cases hl : leafAt h u with
  | false => rfl
  | true =>
    exfalso
    obtain ⟨j, hj, hlj⟩ := hI.leaf u hu hu0 hl
    have h1 := congrArg List.length hlab
    rw [hlj, seg_length s (Nat.le_refl _), seg_length s hb] at h1
    have := hI.bound.2.2
    omega

/-- A position spelling a segment that starts at or after `L` is not at a
leaf. -/
theorem TreeInv.pos_not_leaf {s : List Nat} {i L : Nat} {lab : Nat → List Nat} {h : List Node}
    {prev : Option Nat} (hI : TreeInv s i L lab h prev) {p : ActivePoint} {a b : Nat}
    (hp : PosAt s h lab p (seg s a b)) (ha : L ≤ a) (hb : b ≤ s.length) :
    leafAt h p.node = false ∨ p = ⟨0, 0, 0⟩ := by
  obtain ⟨hnode, hcase⟩ := hp
  rcases hcase with ⟨hl, hc, hw⟩ | ⟨hl, tr, he, hlt, hw⟩
  · by_cases h0 : p.node = 0
    · right
      cases p; simp only at h0 hl hc; subst h0; subst hl; subst hc; rfl
    · left; exact hI.not_leaf hnode h0 hw.symm ha hb
  · left; exact leafAt_false_of_edge he

theorem seg_suffix_eq {s : List Nat} {a b : Nat} {A B : List Nat} (hb : b ≤ s.length)
    (hab : a ≤ b) (h : seg s a b = A ++ B) : B = seg s (b - B.length) b ∧ A = seg s a (b - B.length) ∧
      A.length + B.length = b - a := by
  have hlen := congrArg List.length h
  rw [seg_length s hb, List.length_append] at hlen
  have h1 : (seg s a b).drop A.length = B := by rw [h]; simp
  have h2 : (seg s a b).take A.length = A := by rw [h]; simp
  rw [seg_drop] at h1
  rw [seg_take s _ (by omega)] at h2
  have e1 : a + A.length = b - B.length := by omega
  rw [e1] at h1 h2
  exact ⟨h1.symm, h2.symm, by omega⟩

/-! ## The tree after a leaf was added at a node -/

theorem extLab_new (lab : Nat → List Nat) (m : Nat) (w : List Nat) : extLab lab m w m = w := by
  simp [extLab]

theorem extLab_old (lab : Nat → List Nat) {m v : Nat} (w : List Nat) (hv : v ≠ m) :
    extLab lab m w v = lab v := by
  simp [extLab, hv]

theorem TreeInv.leaf_step {s : List Nat} {i L : Nat} {lab : Nat → List Nat} {h : List Node}
    {prev : Option Nat} (hI : TreeInv s i L lab h prev) (hL : L ≤ i) (hi : i < s.length)
    {c u : Nat} (hc : s[i]? = some c) (hloc : locus s h (seg s L i) = some ⟨u, 0, 0⟩)
    (hnone : edgeAt h u c = none) :
    TreeInv s i (L + 1) (extLab lab h.length (seg s L s.length))
      (linkHeap (leafHeap h u c i) (if u ≠ 0 then prev else none) u) none := by
  have hpos := hI.pos hloc
  have hu : u < h.length := hpos.1
  have hlabu : lab u = seg s L i := by
    rcases hpos.2 with ⟨_, _, hw⟩ | ⟨hl, _⟩
    · exact hw.symm
    · simp at hl
  have hleafu : u ≠ 0 → leafAt h u = false := fun h0 => hI.not_leaf hu h0 hlabu (Nat.le_refl _) hI.bound.2.1
  -- the new heap
  have hlen : (linkHeap (leafHeap h u c i) (if u ≠ 0 then prev else none) u).length = h.length + 1 := by
    rw [length_linkHeap, length_leafHeap hu]
  have hE1 : ∀ v k, edgeAt (linkHeap (leafHeap h u c i) (if u ≠ 0 then prev else none) u) v k =
      if v = u ∧ k = c then some ⟨some h.length, i, none⟩ else edgeAt h v k := by
    intro v k; rw [edgeAt_linkHeap, edgeAt_leafHeap hu hnone]
  have hLf : ∀ v, leafAt (linkHeap (leafHeap h u c i) (if u ≠ 0 then prev else none) u) v =
      if v = u then false else if v = h.length then true else leafAt h v := by
    intro v; rw [leafAt_linkHeap, leafAt_leafHeap hu]
  have hLk : ∀ v, linkAt (linkHeap (leafHeap h u c i) (if u ≠ 0 then prev else none) u) v =
      if (if u ≠ 0 then prev else none) = some v ∧ v < h.length + 1 then some u else linkAt h v := by
    intro v; rw [linkAt_linkHeap, length_leafHeap hu, linkAt_leafHeap hu]
  have hmono : ∀ v k tr, edgeAt h v k = some tr →
      edgeAt (linkHeap (leafHeap h u c i) (if u ≠ 0 then prev else none) u) v k = some tr := by
    intro v k tr he
    rw [hE1]
    by_cases hvk : v = u ∧ k = c
    · rw [hvk.1, hvk.2, hnone] at he; cases he
    · rw [if_neg hvk]; exact he
  have hlab1 : ∀ v, v < h.length →
      (extLab lab h.length (seg s L s.length)) v = lab v := by
    intro v hv
    have : ¬ v = h.length := by omega
    unfold extLab
    simp only [this, if_false]
  have hlabm : (extLab lab h.length (seg s L s.length)) h.length =
      seg s L s.length := by simp [extLab]
  -- the edges
  have hEdge : EdgeInv s i (extLab lab h.length (seg s L s.length))
      (linkHeap (leafHeap h u c i) (if u ≠ 0 then prev else none) u) := by
    intro v k tr he
    rw [hE1] at he
    by_cases hvk : v = u ∧ k = c
    · rw [if_pos hvk] at he
      injection he with he
      subst he
      obtain ⟨hv, hk⟩ := hvk
      subst hv; subst hk
      refine ⟨h.length, rfl, by omega, by omega, by simpa using hi, by simp, by simpa using hc, ?_, ?_, ?_⟩
      · rw [hlabm, hlab1 v hu, hlabu]
        simp only [Option.getD_none]
        exact (seg_append s hL (Nat.le_of_lt hi)).symm
      · rw [hLf]
        have : ¬ h.length = v := by omega
        simp [this]
      · intro e he; cases he
    · rw [if_neg hvk] at he
      obtain ⟨q, hq, hqlt, hq0, hlt, hle, hkey, hlabq, hleafq, hclosed⟩ := hI.edge v k tr he
      have hv : v < h.length := edgeAt_lt he
      refine ⟨q, hq, by omega, hq0, hlt, hle, hkey, ?_, ?_, hclosed⟩
      · rw [hlab1 q hqlt, hlab1 v hv]; exact hlabq
      · rw [hLf]
        have hqm : ¬ q = h.length := by omega
        by_cases hqu : q = u
        · simp only [hqu, if_true]
          rw [hleafq, hqu, hleafu (hqu ▸ hq0)]
        · simp only [hqu, hqm, if_false]; exact hleafq
  have hlocu : locus s (linkHeap (leafHeap h u c i) (if u ≠ 0 then prev else none) u) (seg s L i)
      = some ⟨u, 0, 0⟩ := walk_mono hmono hloc
  have hnew : edgeAt (linkHeap (leafHeap h u c i) (if u ≠ 0 then prev else none) u) u c =
      some ⟨some h.length, i, none⟩ := by
    rw [hE1]; simp
  have hwalk : ∀ b, i < b → b ≤ s.length →
      locus s (linkHeap (leafHeap h u c i) (if u ≠ 0 then prev else none) u) (seg s L b) =
        some (if b = s.length then ⟨h.length, 0, 0⟩ else ⟨u, c, b - i⟩) := by
    intro b hb1 hb2
    rw [← seg_append s hL (Nat.le_of_lt hb1)]
    unfold locus
    rw [walk_append]
    have := hlocu
    unfold locus at this
    rw [this]
    have hw := walk_edge hEdge hnew rfl (b - i) (by omega) (by simp only [Option.getD_none]; omega)
    simp only [Option.getD_none] at hw
    have e1 : i + (b - i) = b := by omega
    rw [e1] at hw
    exact hw
  refine ⟨hI.nonul, ⟨by omega, hI.bound.2.1, by omega⟩, ⟨by omega, ?_⟩, ?_, hEdge, ?_, ?_, ?_, ?_, ?_, ?_,
    ?_, ?_⟩
  · -- root
    rw [hlab1 0 hI.root.1]; exact hI.root.2
  · -- nodup
    intro v
    rw [keysAt_linkHeap, keysAt_leafHeap hu]
    by_cases hvu : v = u
    · simp only [hvu, if_true]
      rw [List.nodup_append]
      refine ⟨hI.nodup u, List.nodup_singleton c, ?_⟩
      intro a ha hb
      rw [List.mem_singleton] at hb
      subst hb
      exact (edgeAt_eq_none_iff h u a).1 hnone ha
    · simp only [hvu, if_false]
      by_cases hv2 : v = h.length
      · simp [hv2]
      · simp only [hv2, if_false]; exact hI.nodup v
  · -- reach
    intro v hv
    rw [hlen] at hv
    by_cases hvm : v = h.length
    · rw [hvm, hlabm, hwalk s.length hi (Nat.le_refl _)]
      simp
    · have hv' : v < h.length := by omega
      rw [hlab1 v hv']
      exact walk_mono hmono (hI.reach v hv')
  · -- leaf
    intro v hv hv0 hl
    rw [hlen] at hv
    rw [hLf] at hl
    by_cases hvu : v = u
    · simp [hvu] at hl
    · simp only [hvu, if_false] at hl
      by_cases hvm : v = h.length
      · exact ⟨L, by omega, by rw [hvm, hlabm]⟩
      · simp only [hvm, if_false] at hl
        have hv' : v < h.length := by omega
        obtain ⟨j, hj, hlj⟩ := hI.leaf v hv' hv0 hl
        exact ⟨j, by omega, by rw [hlab1 v hv']; exact hlj⟩
  · -- inner
    intro v hv hl
    rw [hlen] at hv
    rw [hLf] at hl
    by_cases hvu : v = u
    · exact ⟨L, i, hL, Nat.le_refl _, by rw [hvu, hlab1 u hu]; exact hlabu⟩
    · simp only [hvu, if_false] at hl
      by_cases hvm : v = h.length
      · simp [hvm] at hl
      · simp only [hvm, if_false] at hl
        have hv' : v < h.length := by omega
        rw [hlab1 v hv']
        exact hI.inner v hv' hl
  · -- count
    rw [leafCount_linkHeap, hLf]
    have h1 := leafCount_leafHeap hu c i
    have h2 := hI.count
    have h0m : ¬ 0 = h.length := by have := hI.root.1; omega
    by_cases hu0 : u = 0
    · subst hu0
      simp only [if_true, Bool.false_eq_true, if_false]
      omega
    · have h0u : ¬ 0 = u := fun e => hu0 e.symm
      simp only [h0u, h0m, if_false]
      rw [hleafu hu0] at h1
      simp only [Bool.false_eq_true, if_false] at h1
      omega
  · -- link
    intro a b hab
    rw [hLk] at hab
    rw [hlen]
    by_cases hpa : (if u ≠ 0 then prev else none) = some a ∧ a < h.length + 1
    · rw [if_pos hpa] at hab
      injection hab with hab
      subst hab
      have hu0 : u ≠ 0 := by
        intro e; rw [e] at hpa; simp at hpa
      have hprev : prev = some a := by
        have := hpa.1; rw [if_pos hu0] at this; exact this
      obtain ⟨halt, ha0, haleaf, hL1, hlaba, -⟩ := hI.pending a hprev
      refine ⟨by omega, hu0, by rw [hLf]; simp, ?_⟩
      have hx : s[L - 1]? = some s[L - 1] := List.getElem?_eq_getElem (by omega)
      refine ⟨s[L - 1], ?_⟩
      rw [hlab1 a halt, hlab1 u hu, hlaba, hlabu, seg_cons s (by omega) hx]
      congr 2; omega
    · rw [if_neg hpa] at hab
      obtain ⟨hblt, hb0, hbleaf, x, hx⟩ := hI.link a b hab
      have halt : a < h.length := by
        unfold linkAt at hab
        cases hn : h[a]? with
        | none => simp [hn] at hab
        | some nd => exact (List.getElem?_eq_some.1 hn).1
      refine ⟨by omega, hb0, ?_, x, by rw [hlab1 a halt, hlab1 b hblt]; exact hx⟩
      rw [hLf]
      have hbm : ¬ b = h.length := by omega
      by_cases hbu : b = u
      · simp [hbu]
      · simp only [hbu, hbm, if_false]; exact hbleaf
  · -- nolink
    intro v hv hv0 hl hlk
    rw [hlen] at hv
    rw [hLf] at hl
    rw [hLk] at hlk
    left
    by_cases hvm : v = h.length
    · have hvu : ¬ v = u := by omega
      rw [if_neg hvu, if_pos hvm] at hl
      cases hl
    · have hv' : v < h.length := by omega
      have hl' : leafAt h v = false := by
        by_cases hvu : v = u
        · rw [hvu]; exact hleafu (hvu ▸ hv0)
        · simp only [hvu, hvm, if_false] at hl; exact hl
      by_cases hpa : (if u ≠ 0 then prev else none) = some v ∧ v < h.length + 1
      · rw [if_pos hpa] at hlk; cases hlk
      · rw [if_neg hpa] at hlk
        rw [hlab1 v hv']
        rcases hI.nolink v hv' hv0 hl' hlk with h1 | h1
        · exact h1
        · have hu0 : u = 0 := by
            by_contra hne
            apply hpa
            rw [if_pos hne]
            exact ⟨h1, by omega⟩
          obtain ⟨_, _, _, hL1, hlabv, -⟩ := hI.pending v h1
          have hlen0 : (seg s L i).length = 0 := by
            rw [← hlabu, hu0, hI.root.2]; rfl
          rw [seg_length s hI.bound.2.1] at hlen0
          rw [hlabv, seg_length s hI.bound.2.1]
          omega
  · -- complete
    intro a b hab hcase
    by_cases hold : b ≤ i ∨ (a < L ∧ b ≤ s.length)
    · have := hI.complete a b hab hold
      obtain ⟨p, hp⟩ := Option.isSome_iff_exists.1 this
      have hp' : locus s (linkHeap (leafHeap h u c i) (if u ≠ 0 then prev else none) u) (seg s a b)
          = some p := walk_mono hmono hp
      rw [hp']; rfl
    · have haL : a = L := by omega
      have hb1 : i < b := by omega
      have hb2 : b ≤ s.length := by omega
      rw [haL, hwalk b hb1 hb2]; rfl
  · -- pending
    intro p hp; cases hp

/-! ## The tree after an edge was split -/

/-- Every step of the old tree is a step of the tree with the split edge,
between the corresponding positions. -/
theorem step_split {s : List Nat} {i0 : Nat} {lab : Nat → List Nat} {h : List Node}
    (hE : EdgeInv s i0 lab h) {u x len d c i : Nat} {tr : Transition}
    (he : edgeAt h u x = some tr) (hlen : 0 < len)
    (hlt : tr.start + len < tr.end_.getD s.length) (hd : s[tr.start + len]? = some d)
    {h1 : List Node}
    (hE1 : ∀ v k, edgeAt h1 v k = edgeAt (splitHeap h u x len d c i) v k)
    {p : ActivePoint} {a : Nat} {p1 : ActivePoint} (hs : step s h p a = some p1) :
    step s h1 (splitPos u x len d h.length p) a = some (splitPos u x len d h.length p1) := by
  obtain ⟨tr0, q0, he0, hq0, h2, h3, h4⟩ := (step_spec hE p a p1).1 hs
  have hpn : p.node < h.length := edgeAt_lt he0
  have hun : u < h.length := edgeAt_lt he
  unfold step
  simp only [hE1, edgeAt_splitHeap he]
  by_cases hA : p.node = u ∧ (if p.length = 0 then a else p.c) = x
  · obtain ⟨hA1, hA2⟩ := hA
    rw [hA1, hA2, he] at he0
    injection he0 with he0
    subst he0
    by_cases hl1 : p.length < len
    · -- before the split point
      have hf : splitPos u x len d h.length p = p := by
        unfold splitPos
        have : ¬ (p.node = u ∧ p.c = x ∧ len ≤ p.length) := by omega
        rw [if_neg this]
      rw [hf]
      simp only [hA1, hA2, if_true, Option.getD_some]
      have hc1 : tr.start + p.length < tr.start + len ∧ s[tr.start + p.length]? = some a :=
        ⟨by omega, h3⟩
      rw [if_pos hc1]
      have hnc : ¬ tr.start + p.length + 1 = tr.end_.getD s.length := by omega
      rw [if_neg hnc, hA1, hA2] at h4
      subst h4
      unfold splitPos
      simp only [true_and]
      by_cases hl2 : p.length + 1 = len
      · have e1 : tr.start + p.length + 1 = tr.start + len := by omega
        have e2 : len ≤ p.length + 1 := by omega
        simp [e1, e2, hl2]
      · have e1 : ¬ tr.start + p.length + 1 = tr.start + len := by omega
        have e2 : ¬ len ≤ p.length + 1 := by omega
        simp [e1, e2]
    · have hl0 : ¬ p.length = 0 := by omega
      rw [if_neg hl0] at hA2
      have hnm : ¬ h.length = u := by omega
      by_cases hl2 : p.length = len
      · -- at the split point
        have hf : splitPos u x len d h.length p = ⟨h.length, 0, 0⟩ := by
          unfold splitPos
          have : p.node = u ∧ p.c = x ∧ len ≤ p.length := ⟨hA1, hA2, by omega⟩
          rw [if_pos this, if_pos hl2]
        rw [hf]
        rw [hl2] at h3 h4 h2
        have had : a = d := by rw [hd] at h3; injection h3 with h3; exact h3.symm
        subst had
        simp only [hnm, if_true, if_false, Nat.add_zero]
        have hc1 : tr.start + len < tr.end_.getD s.length ∧ s[tr.start + len]? = some a := ⟨h2, h3⟩
        rw [if_pos hc1, hq0]
        have hlen0 : ¬ len = 0 := by omega
        rw [if_neg hlen0, hA1, hA2] at h4
        by_cases hc2 : tr.start + len + 1 = tr.end_.getD s.length
        · rw [if_pos hc2] at h4 ⊢
          subst h4
          unfold splitPos
          have : ¬ (q0 = u ∧ (0 : Nat) = x ∧ len ≤ 0) := by omega
          simp only [this, if_false]
        · rw [if_neg hc2] at h4 ⊢
          subst h4
          unfold splitPos
          have : u = u ∧ x = x ∧ len ≤ len + 1 := ⟨rfl, rfl, by omega⟩
          simp only [this, and_self, if_true]
          have h5 : ¬ len + 1 = len := by omega
          simp [h5]
      · -- after the split point
        have hf : splitPos u x len d h.length p = ⟨h.length, d, p.length - len⟩ := by
          unfold splitPos
          have : p.node = u ∧ p.c = x ∧ len ≤ p.length := ⟨hA1, hA2, by omega⟩
          rw [if_pos this, if_neg hl2]
        rw [hf]
        have hl3 : ¬ p.length - len = 0 := by omega
        simp only [hnm, hl3, if_true, if_false]
        have e1 : tr.start + len + (p.length - len) = tr.start + p.length := by omega
        rw [e1]
        have hc1 : tr.start + p.length < tr.end_.getD s.length ∧ s[tr.start + p.length]? = some a :=
          ⟨h2, h3⟩
        rw [if_pos hc1, hq0]
        rw [if_neg hl0, hA1, hA2] at h4
        by_cases hc2 : tr.start + p.length + 1 = tr.end_.getD s.length
        · rw [if_pos hc2] at h4 ⊢
          subst h4
          unfold splitPos
          have : ¬ (q0 = u ∧ (0 : Nat) = x ∧ len ≤ 0) := by omega
          simp only [this, if_false]
        · rw [if_neg hc2] at h4 ⊢
          subst h4
          unfold splitPos
          have : u = u ∧ x = x ∧ len ≤ p.length + 1 := ⟨rfl, rfl, by omega⟩
          simp only [this, and_self, if_true]
          have h5 : ¬ p.length + 1 = len := by omega
          simp only [h5, if_false]
          congr 2; omega
  · -- another edge
    have hf : splitPos u x len d h.length p = p := by
      unfold splitPos
      have : ¬ (p.node = u ∧ p.c = x ∧ len ≤ p.length) := by
        rintro ⟨h5, h6, h7⟩
        apply hA
        have : ¬ p.length = 0 := by omega
        rw [if_neg this]
        exact ⟨h5, h6⟩
      rw [if_neg this]
    rw [hf]
    have hpm : ¬ p.node = h.length := by omega
    have hedge : (if p.node = u then
        if (if p.length = 0 then a else p.c) = x then
          some (⟨some h.length, tr.start, some (tr.start + len)⟩ : Transition)
        else edgeAt h u (if p.length = 0 then a else p.c)
      else if p.node = h.length then
        if (if p.length = 0 then a else p.c) = d then some ⟨tr.node, tr.start + len, tr.end_⟩
        else if (if p.length = 0 then a else p.c) = c then some ⟨some (h.length + 1), i, none⟩
        else none
      else edgeAt h p.node (if p.length = 0 then a else p.c)) = some tr0 := by
      by_cases hpu : p.node = u
      · have : ¬ (if p.length = 0 then a else p.c) = x := fun e => hA ⟨hpu, e⟩
        rw [if_pos hpu, if_neg this, ← hpu]; exact he0
      · rw [if_neg hpu, if_neg hpm]; exact he0
    rw [hedge]
    simp only
    have hc1 : tr0.start + p.length < tr0.end_.getD s.length ∧ s[tr0.start + p.length]? = some a :=
      ⟨h2, h3⟩
    rw [if_pos hc1, hq0]
    by_cases hc2 : tr0.start + p.length + 1 = tr0.end_.getD s.length
    · rw [if_pos hc2] at h4 ⊢
      subst h4
      unfold splitPos
      have : ¬ (q0 = u ∧ (0 : Nat) = x ∧ len ≤ 0) := by omega
      simp only [this, if_false]
    · rw [if_neg hc2] at h4 ⊢
      subst h4
      unfold splitPos
      have : ¬ (p.node = u ∧ (if p.length = 0 then a else p.c) = x ∧ len ≤ p.length + 1) := by
        rintro ⟨h5, h6, _⟩
        exact hA ⟨h5, h6⟩
      simp only [this, if_false]

theorem walk_split {s : List Nat} {i0 : Nat} {lab : Nat → List Nat} {h : List Node}
    (hE : EdgeInv s i0 lab h) {u x len d c i : Nat} {tr : Transition}
    (he : edgeAt h u x = some tr) (hlen : 0 < len)
    (hlt : tr.start + len < tr.end_.getD s.length) (hd : s[tr.start + len]? = some d)
    {h1 : List Node}
    (hE1 : ∀ v k, edgeAt h1 v k = edgeAt (splitHeap h u x len d c i) v k)
    {p : ActivePoint} {w : List Nat} {p1 : ActivePoint} (hs : walk s h p w = some p1) :
    walk s h1 (splitPos u x len d h.length p) w = some (splitPos u x len d h.length p1) := by
  induction w generalizing p with
  | nil =>
    rw [walk_nil] at hs; injection hs with hs; subst hs; rfl
  | cons a w ih =>
    rw [walk_cons] at hs ⊢
    cases h2 : step s h p a with
    | none => rw [h2] at hs; cases hs
    | some q =>
      rw [h2] at hs
      rw [step_split hE he hlen hlt hd hE1 h2]
      exact ih hs

theorem splitPos_node (u x len d m v : Nat) (hlen : 0 < len) :
    splitPos u x len d m ⟨v, 0, 0⟩ = ⟨v, 0, 0⟩ := by
  unfold splitPos
  have : ¬ (v = u ∧ (0 : Nat) = x ∧ len ≤ 0) := by omega
  simp only [this, if_false]

/-- The edge the active point lies on, when it is inside an edge. -/
theorem TreeInv.active_edge {s : List Nat} {i L : Nat} {lab : Nat → List Nat} {h : List Node}
    {prev : Option Nat} (hI : TreeInv s i L lab h prev) (hL : L ≤ i)
    {u x len : Nat} (hloc : locus s h (seg s L i) = some ⟨u, x, len⟩) (hlen : 0 < len) :
    ∃ tr q, edgeAt h u x = some tr ∧ tr.node = some q ∧
      tr.start + len < tr.end_.getD s.length ∧ tr.start + len < i ∧
      seg s L i = lab u ++ seg s tr.start (tr.start + len) ∧ x ≠ 0 ∧ s[tr.start]? = some x ∧
      (lab u).length + len = i - L := by
  have hpos := hI.pos hloc
  rcases hpos.2 with ⟨hl, _⟩ | ⟨_, tr, he, hlt, hw⟩
  · simp only at hl; omega
  · simp only at he hlt hw
    obtain ⟨q, hq, hqlt, hq0, hlt2, hle, hkey, hlabq, hleafq, hclosed⟩ := hI.edge u x tr he
    have hlenw := congrArg List.length hw
    rw [seg_length s hI.bound.2.1, List.length_append, seg_length s (by omega)] at hlenw
    refine ⟨tr, q, he, hq, hlt, ?_, hw, ne_zero_of_getElem? hI.nonul hkey, hkey, by omega⟩
    cases hend : tr.end_ with
    | some e =>
      have := hclosed e hend
      rw [hend] at hlt
      simp only [Option.getD_some] at hlt
      omega
    | none =>
      have hleaf : leafAt h q = true := hleafq.1 hend
      obtain ⟨j, hj, hlj⟩ := hI.leaf q hqlt hq0 hleaf
      rw [hlj, hend] at hlabq
      simp only [Option.getD_none] at hlabq
      have hlen2 := congrArg List.length hlabq
      rw [seg_length s (Nat.le_refl _), List.length_append, seg_length s (Nat.le_refl _)] at hlen2
      rw [hend] at hlt
      simp only [Option.getD_none] at hlt
      have := hI.bound.2.2
      omega

theorem TreeInv.split_step {s : List Nat} {i L : Nat} {lab : Nat → List Nat} {h : List Node}
    {prev : Option Nat} (hI : TreeInv s i L lab h prev) (hL : L ≤ i) (hi : i < s.length)
    {c u x len d : Nat} {tr : Transition} (hc : s[i]? = some c)
    (hloc : locus s h (seg s L i) = some ⟨u, x, len⟩) (hlen : 0 < len)
    (he : edgeAt h u x = some tr) (hd : s[tr.start + len]? = some d) (hdc : d ≠ c) :
    TreeInv s i (L + 1)
      (extLab (extLab lab h.length (seg s L i)) (h.length + 1) (seg s L s.length))
      (linkHeap (splitHeap h u x len d c i) prev h.length) (some h.length) := by
  obtain ⟨tr', q, he', hq, hlt, hlti, hw, hx0, hkey, hlenu⟩ := hI.active_edge hL hloc hlen
  rw [he] at he'; injection he' with he'; subst he'
  obtain ⟨q', hq', hqlt, hq0, hlt2, hle, -, hlabq, hleafq, hclosed⟩ := hI.edge u x tr he
  rw [hq] at hq'; injection hq' with hq'; subst hq'
  have hu : u < h.length := edgeAt_lt he
  have hlen1 : (linkHeap (splitHeap h u x len d c i) prev h.length).length = h.length + 2 := by
    rw [length_linkHeap, length_splitHeap he]
  have hE1 : ∀ v k, edgeAt (linkHeap (splitHeap h u x len d c i) prev h.length) v k =
      edgeAt (splitHeap h u x len d c i) v k := fun v k => edgeAt_linkHeap _ _ _ v k
  have hLf : ∀ v, leafAt (linkHeap (splitHeap h u x len d c i) prev h.length) v =
      if v = h.length then false else if v = h.length + 1 then true else leafAt h v := by
    intro v; rw [leafAt_linkHeap, leafAt_splitHeap he]
  have hLk : ∀ v, linkAt (linkHeap (splitHeap h u x len d c i) prev h.length) v =
      if prev = some v ∧ v < h.length + 2 then some h.length else linkAt h v := by
    intro v; rw [linkAt_linkHeap, length_splitHeap he, linkAt_splitHeap he]
  have hlab1 : ∀ v, v < h.length →
      extLab (extLab lab h.length (seg s L i)) (h.length + 1) (seg s L s.length) v = lab v := by
    intro v hv
    rw [extLab_old _ _ (by omega), extLab_old _ _ (by omega)]
  have hlabm : extLab (extLab lab h.length (seg s L i)) (h.length + 1) (seg s L s.length) h.length
      = seg s L i := by
    rw [extLab_old _ _ (by omega), extLab_new]
  have hlabm1 : extLab (extLab lab h.length (seg s L i)) (h.length + 1) (seg s L s.length)
      (h.length + 1) = seg s L s.length := extLab_new _ _ _
  have hEu : edgeAt (linkHeap (splitHeap h u x len d c i) prev h.length) u x =
      some ⟨some h.length, tr.start, some (tr.start + len)⟩ := by
    rw [hE1, edgeAt_splitHeap he]; simp
  have hEd : edgeAt (linkHeap (splitHeap h u x len d c i) prev h.length) h.length d =
      some ⟨some q, tr.start + len, tr.end_⟩ := by
    rw [hE1, edgeAt_splitHeap he]
    have : ¬ h.length = u := by omega
    simp [this, hq]
  have hEc : edgeAt (linkHeap (splitHeap h u x len d c i) prev h.length) h.length c =
      some ⟨some (h.length + 1), i, none⟩ := by
    rw [hE1, edgeAt_splitHeap he]
    have h1 : ¬ h.length = u := by omega
    have h2 : ¬ c = d := fun e => hdc e.symm
    simp [h1, h2]
  -- the edges
  have hEdge : EdgeInv s i
      (extLab (extLab lab h.length (seg s L i)) (h.length + 1) (seg s L s.length))
      (linkHeap (splitHeap h u x len d c i) prev h.length) := by
    intro v k tr1 he1
    rw [hE1, edgeAt_splitHeap he] at he1
    by_cases hvu : v = u
    · rw [if_pos hvu] at he1
      by_cases hkx : k = x
      · rw [if_pos hkx] at he1
        injection he1 with he1
        subst he1; subst hvu; subst hkx
        refine ⟨h.length, rfl, by omega, by omega, by simpa using hlen, by simp; omega, hkey, ?_, ?_, ?_⟩
        · rw [hlabm, hlab1 v hu]; exact hw
        · rw [hLf]; simp
        · intro e he2
          simp only [Option.some.injEq] at he2
          omega
      · rw [if_neg hkx] at he1
        obtain ⟨q1, hq1, hq1lt, hq10, h3, h4, h5, h6, h7, h8⟩ := hI.edge u k tr1 he1
        refine ⟨q1, hq1, by omega, hq10, h3, h4, h5, ?_, ?_, h8⟩
        · rw [hlab1 q1 hq1lt, hvu, hlab1 u hu]; exact h6
        · rw [hLf]
          have e1 : ¬ q1 = h.length := by omega
          have e2 : ¬ q1 = h.length + 1 := by omega
          simp only [e1, e2, if_false]; exact h7
    · rw [if_neg hvu] at he1
      by_cases hvm : v = h.length
      · rw [if_pos hvm] at he1
        by_cases hkd : k = d
        · rw [if_pos hkd] at he1
          injection he1 with he1
          subst he1; subst hvm; subst hkd
          refine ⟨q, hq, by omega, hq0, by simpa using hlt, by simpa using hle, by simpa using hd, ?_, ?_, ?_⟩
          · rw [hlab1 q hqlt, hlabm, hlabq, hw, List.append_assoc]
            congr 1
            exact (seg_append s (Nat.le_add_right _ _) (Nat.le_of_lt hlt)).symm
          · rw [hLf]
            have e1 : ¬ q = h.length := by omega
            have e2 : ¬ q = h.length + 1 := by omega
            simp only [e1, e2, if_false]; exact hleafq
          · exact hclosed
        · rw [if_neg hkd] at he1
          by_cases hkc : k = c
          · rw [if_pos hkc] at he1
            injection he1 with he1
            subst he1; subst hvm; subst hkc
            refine ⟨h.length + 1, rfl, by omega, by omega, by simpa using hi, by simp, by simpa using hc,
              ?_, ?_, ?_⟩
            · rw [hlabm1, hlabm]
              simp only [Option.getD_none]
              exact (seg_append s hL (Nat.le_of_lt hi)).symm
            · rw [hLf]; simp
            · intro e he2; cases he2
          · rw [if_neg hkc] at he1; cases he1
      · rw [if_neg hvm] at he1
        have hv : v < h.length := edgeAt_lt he1
        obtain ⟨q1, hq1, hq1lt, hq10, h3, h4, h5, h6, h7, h8⟩ := hI.edge v k tr1 he1
        refine ⟨q1, hq1, by omega, hq10, h3, h4, h5, ?_, ?_, h8⟩
        · rw [hlab1 q1 hq1lt, hlab1 v hv]; exact h6
        · rw [hLf]
          have e1 : ¬ q1 = h.length := by omega
          have e2 : ¬ q1 = h.length + 1 := by omega
          simp only [e1, e2, if_false]; exact h7
  have hsim : ∀ w p, locus s h w = some p →
      locus s (linkHeap (splitHeap h u x len d c i) prev h.length) w =
        some (splitPos u x len d h.length p) := by
    intro w p hp
    have := walk_split hI.edge he hlen hlt hd hE1 hp
    rw [splitPos_node _ _ _ _ _ _ hlen] at this
    exact this
  have hlocm : locus s (linkHeap (splitHeap h u x len d c i) prev h.length) (seg s L i) =
      some ⟨h.length, 0, 0⟩ := by
    rw [hsim _ _ hloc]
    unfold splitPos
    simp
  have hwalk : ∀ b, i < b → b ≤ s.length →
      locus s (linkHeap (splitHeap h u x len d c i) prev h.length) (seg s L b) =
        some (if b = s.length then ⟨h.length + 1, 0, 0⟩ else ⟨h.length, c, b - i⟩) := by
    intro b hb1 hb2
    rw [← seg_append s hL (Nat.le_of_lt hb1)]
    unfold locus
    rw [walk_append]
    have := hlocm
    unfold locus at this
    rw [this]
    have hw := walk_edge hEdge hEc rfl (b - i) (by omega) (by simp only [Option.getD_none]; omega)
    simp only [Option.getD_none] at hw
    have e1 : i + (b - i) = b := by omega
    rw [e1] at hw
    exact hw
  refine ⟨hI.nonul, ⟨by omega, hI.bound.2.1, by omega⟩, ⟨by omega, ?_⟩, ?_, hEdge, ?_, ?_, ?_, ?_, ?_, ?_,
    ?_, ?_⟩
  · -- root
    rw [hlab1 0 hI.root.1]; exact hI.root.2
  · -- nodup
    intro v
    rw [keysAt_linkHeap, keysAt_splitHeap he]
    by_cases hvm : v = h.length
    · simp only [hvm, if_true]
      simp [hdc]
    · simp only [hvm, if_false]; exact hI.nodup v
  · -- reach
    intro v hv
    rw [hlen1] at hv
    by_cases hvm : v = h.length
    · rw [hvm, hlabm]; exact hlocm
    · by_cases hvm1 : v = h.length + 1
      · rw [hvm1, hlabm1, hwalk s.length hi (Nat.le_refl _)]
        simp
      · have hv' : v < h.length := by omega
        rw [hlab1 v hv', hsim _ _ (hI.reach v hv'), splitPos_node _ _ _ _ _ _ hlen]
  · -- leaf
    intro v hv hv0 hl
    rw [hlen1] at hv
    rw [hLf] at hl
    by_cases hvm : v = h.length
    · simp [hvm] at hl
    · simp only [hvm, if_false] at hl
      by_cases hvm1 : v = h.length + 1
      · exact ⟨L, by omega, by rw [hvm1, hlabm1]⟩
      · simp only [hvm1, if_false] at hl
        have hv' : v < h.length := by omega
        obtain ⟨j, hj, hlj⟩ := hI.leaf v hv' hv0 hl
        exact ⟨j, by omega, by rw [hlab1 v hv']; exact hlj⟩
  · -- inner
    intro v hv hl
    rw [hlen1] at hv
    rw [hLf] at hl
    by_cases hvm : v = h.length
    · exact ⟨L, i, hL, Nat.le_refl _, by rw [hvm, hlabm]⟩
    · simp only [hvm, if_false] at hl
      by_cases hvm1 : v = h.length + 1
      · simp [hvm1] at hl
      · simp only [hvm1, if_false] at hl
        have hv' : v < h.length := by omega
        rw [hlab1 v hv']
        exact hI.inner v hv' hl
  · -- count
    rw [leafCount_linkHeap, hLf, leafCount_splitHeap he, hI.count]
    have h0m : ¬ 0 = h.length := by have := hI.root.1; omega
    have h0m1 : ¬ 0 = h.length + 1 := by omega
    simp only [h0m, h0m1, if_false]
    omega
  · -- link
    intro a b hab
    rw [hLk] at hab
    rw [hlen1]
    by_cases hpa : prev = some a ∧ a < h.length + 2
    · rw [if_pos hpa] at hab
      injection hab with hab
      subst hab
      obtain ⟨halt, ha0, haleaf, hL1, hlaba, -⟩ := hI.pending a hpa.1
      refine ⟨by omega, by have := hI.root.1; omega, by rw [hLf]; simp, ?_⟩
      have hx : s[L - 1]? = some s[L - 1] := List.getElem?_eq_getElem (by omega)
      refine ⟨s[L - 1], ?_⟩
      rw [hlab1 a halt, hlabm, hlaba, seg_cons s (by omega) hx]
      congr 2; omega
    · rw [if_neg hpa] at hab
      obtain ⟨hblt, hb0, hbleaf, y, hy⟩ := hI.link a b hab
      have halt : a < h.length := by
        unfold linkAt at hab
        cases hn : h[a]? with
        | none => simp [hn] at hab
        | some nd => exact (List.getElem?_eq_some.1 hn).1
      refine ⟨by omega, hb0, ?_, y, by rw [hlab1 a halt, hlab1 b hblt]; exact hy⟩
      rw [hLf]
      have e1 : ¬ b = h.length := by omega
      have e2 : ¬ b = h.length + 1 := by omega
      simp only [e1, e2, if_false]; exact hbleaf
  · -- nolink
    intro v hv hv0 hl hlk
    rw [hlen1] at hv
    rw [hLf] at hl
    rw [hLk] at hlk
    by_cases hvm : v = h.length
    · right; rw [hvm]
    · left
      simp only [hvm, if_false] at hl
      by_cases hvm1 : v = h.length + 1
      · simp [hvm1] at hl
      · simp only [hvm1, if_false] at hl
        have hv' : v < h.length := by omega
        by_cases hpa : prev = some v ∧ v < h.length + 2
        · rw [if_pos hpa] at hlk; cases hlk
        · rw [if_neg hpa] at hlk
          rw [hlab1 v hv']
          rcases hI.nolink v hv' hv0 hl hlk with h1 | h1
          · exact h1
          · exact absurd ⟨h1, by omega⟩ hpa
  · -- complete
    intro a b hab hcase
    by_cases hold : b ≤ i ∨ (a < L ∧ b ≤ s.length)
    · have := hI.complete a b hab hold
      obtain ⟨p, hp⟩ := Option.isSome_iff_exists.1 this
      rw [hsim _ _ hp]; rfl
    · have haL : a = L := by omega
      have hb1 : i < b := by omega
      have hb2 : b ≤ s.length := by omega
      rw [haL, hwalk b hb1 hb2]; rfl
  · -- pending
    intro p hp
    injection hp with hp
    subst hp
    refine ⟨by omega, by have := hI.root.1; omega, by rw [hLf]; simp, by omega, ?_,
      d, _, hEd, ?_⟩
    · rw [hlabm]; congr 1
    · rw [hc]; intro e; injection e with e; exact hdc e.symm

/-! ## Words of the tree are words of the text -/

theorem TreeInv.node_seg {s : List Nat} {i L : Nat} {lab : Nat → List Nat} {h : List Node}
    {prev : Option Nat} (hI : TreeInv s i L lab h prev) {u : Nat} (hu : u < h.length) :
    ∃ a b, a ≤ b ∧ (b ≤ i ∨ a < L) ∧ b ≤ s.length ∧ lab u = seg s a b := by
  cases hl : leafAt h u with
  | false =>
    obtain ⟨a, b, hab, hb, hlab⟩ := hI.inner u hu hl
    exact ⟨a, b, hab, Or.inl hb, Nat.le_trans hb hI.bound.2.1, hlab⟩
  | true =>
    by_cases h0 : u = 0
    · exact ⟨0, 0, Nat.le_refl _, Or.inl (Nat.zero_le _), Nat.zero_le _,
        by rw [h0, hI.root.2, seg_self]⟩
    · obtain ⟨j, hj, hlab⟩ := hI.leaf u hu h0 hl
      exact ⟨j, s.length, by have := hI.bound.2.2; omega, Or.inr hj, Nat.le_refl _, hlab⟩

/-- Every word spelled in the tree is a segment of the text that ends at or
before `i` or starts before `L`. -/
theorem TreeInv.sound {s : List Nat} {i L : Nat} {lab : Nat → List Nat} {h : List Node}
    {prev : Option Nat} (hI : TreeInv s i L lab h prev) {p : ActivePoint} {w : List Nat}
    (hp : PosAt s h lab p w) :
    ∃ a b, a ≤ b ∧ (b ≤ i ∨ a < L) ∧ b ≤ s.length ∧ w = seg s a b := by
  rcases hp.2 with ⟨_, _, hw⟩ | ⟨hl, tr, he, hlt, hw⟩
  · rw [hw]; exact hI.node_seg hp.1
  · obtain ⟨q, hq, hqlt, hq0, hlt2, hle, hkey, hlabq, hleafq, hclosed⟩ := hI.edge _ _ tr he
    obtain ⟨a, b, hab, hcase, hb, hlab⟩ := hI.node_seg hqlt
    have e1 : lab q = w ++ seg s (tr.start + p.length) (tr.end_.getD s.length) := by
      rw [hlabq, hw, List.append_assoc,
        seg_append s (Nat.le_add_right _ _) (Nat.le_of_lt hlt)]
    have hlenq := congrArg List.length e1
    rw [hlab, seg_length s hb, List.length_append, seg_length s hle] at hlenq
    have e2 : w = (lab q).take w.length := by rw [e1]; simp
    rw [hlab, seg_take s _ (by omega)] at e2
    refine ⟨a, a + w.length, by omega, ?_, by omega, e2⟩
    rcases hcase with h1 | h1
    · left; omega
    · right; exact h1

/-- After a match, the suffix `s[L, i]` already occurs before position `i`. -/
theorem TreeInv.match_seg {s : List Nat} {i L : Nat} {lab : Nat → List Nat} {h : List Node}
    {prev : Option Nat} (hI : TreeInv s i L lab h prev) (hL : L ≤ i)
    {w : List Nat} {p : ActivePoint} (hlen : w.length = i + 1 - L)
    (hp : PosAt s h lab p w) : ∃ a b, a ≤ b ∧ b ≤ i ∧ w = seg s a b := by
  obtain ⟨a, b, hab, hcase, hb, hw⟩ := hI.sound hp
  have hl := congrArg List.length hw
  rw [seg_length s hb, hlen] at hl
  exact ⟨a, b, hab, by omega, hw⟩

theorem TreeInv.upgrade {s : List Nat} {i : Nat} {lab : Nat → List Nat} {h : List Node}
    {prev : Option Nat} (hI : TreeInv s i (i + 1) lab h prev) (hi : i < s.length) :
    TreeInv s (i + 1) (i + 1) lab h none := by
  refine ⟨hI.nonul, ⟨by omega, by omega, by omega⟩, hI.root, hI.nodup, ?_, hI.reach, hI.leaf, ?_,
    hI.count, hI.link, ?_, ?_, ?_⟩
  · intro u k tr he
    obtain ⟨q, h1, h2, h3, h4, h5, h6, h7, h8, h9⟩ := hI.edge u k tr he
    exact ⟨q, h1, h2, h3, h4, h5, h6, h7, h8, fun e he => Nat.le_succ_of_le (h9 e he)⟩
  · intro u hu hl
    obtain ⟨a, b, h1, h2, h3⟩ := hI.inner u hu hl
    exact ⟨a, b, h1, by omega, h3⟩
  · intro u hu hu0 hl hlk
    rcases hI.nolink u hu hu0 hl hlk with h1 | h1
    · exact Or.inl h1
    · exfalso
      obtain ⟨_, _, _, _, hlab, -⟩ := hI.pending u h1
      have e : i + 1 - 1 = i := by omega
      rw [e, seg_self] at hlab
      have := hI.reach u hu
      rw [hlab] at this
      unfold locus at this
      rw [walk_nil] at this
      injection this with this
      injection this with this
      exact hu0 this.symm
  · intro a b hab hcase
    by_cases hold : b ≤ i ∨ (a < i + 1 ∧ b ≤ s.length)
    · exact hI.complete a b hab hold
    · have hb : b = i + 1 := by omega
      have ha : a = i + 1 := by omega
      rw [ha, hb, seg_self]
      rfl
  · intro p hp; cases hp

/-! ## The tree after a match -/

/-- When a node is pending, the active point is at a node (the pending node
has a child that the active point lacks, so it cannot be inside an edge). -/
theorem TreeInv.pending_at_node {s : List Nat} {i L : Nat} {lab : Nat → List Nat}
    {h : List Node} {prev : Option Nat} (hI : TreeInv s i L lab h prev) (hL : L ≤ i)
    (hi : i < s.length) {c : Nat} {ap ap1 : ActivePoint} (hc : s[i]? = some c)
    (hloc : locus s h (seg s L i) = some ap) (hstep : step s h ap c = some ap1)
    {p : Nat} (hp : prev = some p) : ap.length = 0 := by
  obtain ⟨hplt, hp0, hpleaf, hL1, hlabp, d, trp, hep, hdc⟩ := hI.pending p hp
  obtain ⟨q, hq, hqlt, hq0, hlt, hle, hkey, hlabq, -, -⟩ := hI.edge p d trp hep
  obtain ⟨a2, b2, hab2, hcase2, hb2, hlab2⟩ := hI.node_seg hqlt
  obtain ⟨y, hx⟩ : ∃ y, s[L - 1]? = some y := ⟨_, List.getElem?_eq_getElem (by omega)⟩
  have e0 : L - 1 + 1 = L := by omega
  have hW : lab q = (y :: (seg s L i ++ [d])) ++
      seg s (trp.start + 1) (trp.end_.getD s.length) := by
    rw [hlabq, hlabp, seg_cons s hlt hkey, seg_cons s (by omega) hx, e0]
    simp
  have hlenq := congrArg List.length hW
  rw [hlab2, seg_length s hb2] at hlenq
  simp only [List.length_append, List.length_cons, List.length_nil] at hlenq
  rw [seg_length s hI.bound.2.1, seg_length s hle] at hlenq
  have hWt : y :: (seg s L i ++ [d]) = seg s a2 (a2 + (i - L + 2)) := by
    have : y :: (seg s L i ++ [d]) = (lab q).take (i - L + 2) := by
      rw [hW, List.take_left']
      simp only [List.length_cons, List.length_append, List.length_nil]
      rw [seg_length s hI.bound.2.1]
    rw [this, hlab2, seg_take s _ (by omega)]
  have hbound : a2 + (i - L + 2) ≤ i := by
    by_contra hcon
    have ha2 : a2 = L - 1 := by omega
    have hget := congrArg (fun l => l[i - L + 1]?) hWt
    simp only at hget
    rw [seg_getElem?, if_pos (by omega)] at hget
    have e1 : a2 + (i - L + 1) = i := by omega
    rw [e1, List.getElem?_cons_succ, List.getElem?_append_right
      (by rw [seg_length s hI.bound.2.1])] at hget
    rw [seg_length s hI.bound.2.1] at hget
    have e2 : i - L - (i - L) = 0 := by omega
    rw [e2] at hget
    simp only [List.getElem?_cons_zero] at hget
    exact hdc hget.symm
  have htail : seg s L i ++ [d] = seg s (a2 + 1) (a2 + (i - L + 2)) := by
    have := congrArg (List.drop 1) hWt
    rw [seg_drop] at this
    simpa using this
  have hsome := hI.complete (a2 + 1) (a2 + (i - L + 2)) (by omega) (Or.inl hbound)
  rw [← htail] at hsome
  unfold locus at hsome hloc
  rw [walk_snoc, hloc] at hsome
  obtain ⟨ap2, hstep2⟩ := Option.isSome_iff_exists.1 hsome
  change step s h ap d = some ap2 at hstep2
  by_contra hne
  obtain ⟨tr1, q1, he1, _, _, h13, _⟩ := (step_spec hI.edge ap c ap1).1 hstep
  obtain ⟨tr2, q2, he2, _, _, h23, _⟩ := (step_spec hI.edge ap d ap2).1 hstep2
  rw [if_neg hne] at he1 he2
  rw [he1] at he2; injection he2 with he2; subst he2
  rw [h13] at h23; injection h23 with h23
  rw [hc, h23] at hdc
  exact hdc rfl

theorem TreeInv.match_step {s : List Nat} {i L : Nat} {lab : Nat → List Nat} {h : List Node}
    {prev : Option Nat} (hI : TreeInv s i L lab h prev) (hL : L ≤ i) (hi : i < s.length)
    {c : Nat} {ap ap1 : ActivePoint} (hc : s[i]? = some c)
    (hloc : locus s h (seg s L i) = some ap) (hstep : step s h ap c = some ap1) :
    TreeInv s (i + 1) L lab (linkHeap h (if ap.node ≠ 0 then prev else none) ap.node) none ∧
      locus s (linkHeap h (if ap.node ≠ 0 then prev else none) ap.node) (seg s L (i + 1)) =
        some ap1 := by
  have hE1 : ∀ v k, edgeAt (linkHeap h (if ap.node ≠ 0 then prev else none) ap.node) v k =
      edgeAt h v k := fun v k => edgeAt_linkHeap _ _ _ v k
  have hmatch : locus s h (seg s L (i + 1)) = some ap1 := by
    rw [seg_succ s hL hc]
    unfold locus at hloc ⊢
    rw [walk_snoc, hloc]
    exact hstep
  have hpos1 := hI.pos hmatch
  obtain ⟨a, b, hab, hb, hseg⟩ := hI.match_seg hL (by rw [seg_length s (by omega)]) hpos1
  have hlenab := congrArg List.length hseg
  rw [seg_length s (by omega), seg_length s (by omega)] at hlenab
  have hpos := hI.pos hloc
  have hatnode : ∀ p, prev = some p → ap.length = 0 ∧ lab ap.node = seg s L i ∧
      leafAt h ap.node = false := by
    intro p hp
    have hl0 := hI.pending_at_node hL hi hc hloc hstep hp
    refine ⟨hl0, ?_, ?_⟩
    · rcases hpos.2 with ⟨_, _, hw⟩ | ⟨hl, _⟩
      · exact hw.symm
      · omega
    · obtain ⟨tr1, q1, he1, -⟩ := (step_spec hI.edge ap c ap1).1 hstep
      exact leafAt_false_of_edge he1
  refine ⟨⟨hI.nonul, ⟨by omega, by omega, hI.bound.2.2⟩, ?_, ?_, ?_, ?_, ?_, ?_, ?_, ?_, ?_, ?_, ?_⟩, ?_⟩
  · rw [length_linkHeap]; exact hI.root
  · intro v; rw [keysAt_linkHeap]; exact hI.nodup v
  · intro u k tr he
    rw [hE1] at he
    obtain ⟨q, h1, h2, h3, h4, h5, h6, h7, h8, h9⟩ := hI.edge u k tr he
    refine ⟨q, h1, by rw [length_linkHeap]; exact h2, h3, h4, h5, h6, h7, ?_,
      fun e he => Nat.le_succ_of_le (h9 e he)⟩
    rw [leafAt_linkHeap]; exact h8
  · intro u hu
    rw [length_linkHeap] at hu
    unfold locus
    rw [walk_congr hE1]
    exact hI.reach u hu
  · intro u hu hu0 hl
    rw [length_linkHeap] at hu
    rw [leafAt_linkHeap] at hl
    exact hI.leaf u hu hu0 hl
  · intro u hu hl
    rw [length_linkHeap] at hu
    rw [leafAt_linkHeap] at hl
    obtain ⟨a', b', h1, h2, h3⟩ := hI.inner u hu hl
    exact ⟨a', b', h1, by omega, h3⟩
  · rw [leafCount_linkHeap, leafAt_linkHeap]; exact hI.count
  · intro u v huv
    rw [linkAt_linkHeap] at huv
    rw [length_linkHeap, leafAt_linkHeap]
    by_cases hpa : (if ap.node ≠ 0 then prev else none) = some u ∧ u < h.length
    · rw [if_pos hpa] at huv
      injection huv with huv
      subst huv
      have hn0 : ap.node ≠ 0 := by
        intro e; rw [e] at hpa; simp at hpa
      have hprev : prev = some u := by
        have := hpa.1; rw [if_pos hn0] at this; exact this
      obtain ⟨hl0, hlabn, hleafn⟩ := hatnode u hprev
      obtain ⟨_, _, _, hL1, hlabu, -⟩ := hI.pending u hprev
      have hx : s[L - 1]? = some s[L - 1] := List.getElem?_eq_getElem (by omega)
      refine ⟨hpos.1, hn0, hleafn, s[L - 1], ?_⟩
      rw [hlabu, hlabn, seg_cons s (by omega) hx]
      congr 2; omega
    · rw [if_neg hpa] at huv
      exact hI.link u v huv
  · intro u hu hu0 hl hlk
    rw [length_linkHeap] at hu
    rw [leafAt_linkHeap] at hl
    rw [linkAt_linkHeap] at hlk
    left
    by_cases hpa : (if ap.node ≠ 0 then prev else none) = some u ∧ u < h.length
    · rw [if_pos hpa] at hlk; cases hlk
    · rw [if_neg hpa] at hlk
      rcases hI.nolink u hu hu0 hl hlk with h1 | h1
      · exact h1
      · have hn0 : ap.node = 0 := by
          by_contra hne
          apply hpa
          rw [if_pos hne]
          exact ⟨h1, hu⟩
        obtain ⟨hl0, hlabn, -⟩ := hatnode u h1
        obtain ⟨_, _, _, hL1, hlabu, -⟩ := hI.pending u h1
        have hlen0 : (seg s L i).length = 0 := by
          rw [← hlabn, hn0, hI.root.2]; rfl
        rw [seg_length s hI.bound.2.1] at hlen0
        rw [hlabu, seg_length s hI.bound.2.1]
        omega
  · intro a' b' hab' hcase
    unfold locus
    rw [walk_congr hE1]
    by_cases hold : b' ≤ i ∨ (a' < L ∧ b' ≤ s.length)
    · exact hI.complete a' b' hab' hold
    · have hb' : b' = i + 1 := by omega
      have ha' : L ≤ a' := by omega
      have e : seg s a' b' = seg s (a + (a' - L)) b := by
        have := congrArg (List.drop (a' - L)) hseg
        rw [seg_drop, seg_drop] at this
        have e1 : L + (a' - L) = a' := by omega
        rw [e1] at this
        rw [hb']; exact this
      rw [e]
      exact hI.complete _ _ (by omega) (Or.inl hb)
  · intro p hp; cases hp
  · unfold locus
    rw [walk_congr hE1]
    exact hmatch

/-! ## The functions of the engine on a tree satisfying the invariant -/

theorem NeedToSplit_eq {s : List Nat} {i0 : Nat} {lab : Nat → List Nat} {t : SuffixTree}
    (hE : EdgeInv s i0 lab t.heap) (hn : 0 ∉ s) (hts : t.s = s) {w : List Nat}
    (hp : PosAt s t.heap lab t.ap w) (c : Nat) :
    NeedToSplit t c = some (step s t.heap t.ap c).isNone := by
  obtain ⟨nd, hnode⟩ : ∃ nd, t.heap[t.ap.node]? = some nd :=
    ⟨_, List.getElem?_eq_getElem hp.1⟩
  unfold NeedToSplit
  rw [hnode]
  simp only
  rcases hp.2 with ⟨hl, hc0, _⟩ | ⟨hl, tr, he, hlt, _⟩
  · have : ¬ t.ap.c ≠ 0 := by simp [hc0]
    rw [if_neg this]
    unfold step
    simp only [hl, if_true, Nat.add_zero]
    rw [edgeAt_eq hnode]
    cases hf : mapFind nd.to_ c with
    | none => rfl
    | some tr =>
      obtain ⟨q, hq, _, _, hlt, _, hkey, _⟩ := hE t.ap.node c tr (by rw [edgeAt_eq hnode]; exact hf)
      simp only [hlt, hkey, and_self, if_true, hq]
      split <;> rfl
  · obtain ⟨q, hq, _, _, _, hle, hkey, _⟩ := hE _ _ tr he
    have hc0 : t.ap.c ≠ 0 := ne_zero_of_getElem? hn hkey
    rw [if_pos hc0]
    rw [edgeAt_eq hnode] at he
    rw [he]
    simp only
    have hlt2 : tr.start + t.ap.length < s.length := by omega
    rw [hts, charAt_of_lt hlt2, List.getElem?_eq_getElem hlt2]
    simp only
    unfold step
    have hl0 : ¬ t.ap.length = 0 := by omega
    simp only [hl0, if_false]
    rw [edgeAt_eq hnode, he]
    simp only [hlt, true_and, List.getElem?_eq_getElem hlt2, Option.some.injEq, hq]
    by_cases hx : s[tr.start + t.ap.length] = c
    · simp only [hx, if_true, bne_self_eq_false]
      split <;> rfl
    · simp only [hx, if_false]
      simp [hx]

theorem leafBranch_eq {t : SuffixTree} {c : Nat} (index : Nat) (prev : Option Nat)
    (hu : t.ap.node < t.heap.length) (hnone : edgeAt t.heap t.ap.node c = none) :
    leafBranch t c index prev = some { t with
      heap := linkHeap (leafHeap t.heap t.ap.node c index)
        (if t.ap.node ≠ 0 then prev else none) t.ap.node
      node_count := t.node_count + 1 } := by
  obtain ⟨nd, hnode⟩ : ∃ nd, t.heap[t.ap.node]? = some nd :=
    ⟨_, List.getElem?_eq_getElem hu⟩
  rw [edgeAt_eq hnode] at hnone
  unfold leafBranch leafHeap linkHeap
  rw [hnode]
  simp only [hnone, mapEmplace]
  cases prev with
  | none => simp
  | some p =>
    by_cases h0 : t.ap.node = 0
    · simp [h0]
    · simp [h0]

theorem splitBranch_eq {t : SuffixTree} {c d : Nat} {tr : Transition} (index : Nat)
    (prev : Option Nat) (he : edgeAt t.heap t.ap.node t.ap.c = some tr)
    (hd : charAt t.s (tr.start + t.ap.length) = some d) (hdc : d ≠ c) :
    splitBranch t c index prev = some ({ t with
      heap := linkHeap (splitHeap t.heap t.ap.node t.ap.c t.ap.length d c index) prev t.heap.length
      node_count := t.node_count + 2 }, t.heap.length) := by
  have hu : t.ap.node < t.heap.length := edgeAt_lt he
  obtain ⟨nd, hnode⟩ : ∃ nd, t.heap[t.ap.node]? = some nd :=
    ⟨_, List.getElem?_eq_getElem hu⟩
  unfold splitBranch
  rw [heapIndex_of_edge he]
  simp only [hd, hnode]
  unfold splitHeap linkHeap
  rw [hnode, he]
  have hcd : ¬ d = c := hdc
  simp only [mapEmplace, mapFind, hcd, if_false, Option.isSome_none, Bool.false_eq_true,
    List.nil_append, List.append_assoc, List.singleton_append]

theorem step_none_node {s : List Nat} {i0 : Nat} {lab : Nat → List Nat} {h : List Node}
    (hE : EdgeInv s i0 lab h) {p : ActivePoint} {c : Nat} (hl : p.length = 0)
    (hs : step s h p c = none) : edgeAt h p.node c = none := by
  cases he : edgeAt h p.node c with
  | none => rfl
  | some tr =>
    exfalso
    obtain ⟨q, hq, _, _, hlt, _, hkey, _⟩ := hE _ _ tr he
    have : step s h p c =
        some (if tr.start + p.length + 1 = tr.end_.getD s.length then ⟨q, 0, 0⟩
          else ⟨p.node, if p.length = 0 then c else p.c, p.length + 1⟩) := by
      rw [step_spec hE]
      refine ⟨tr, q, ?_, hq, ?_, ?_, rfl⟩
      · rw [if_pos hl]; exact he
      · rw [hl]; exact hlt
      · rw [hl]; exact hkey
    rw [this] at hs; cases hs

theorem step_none_edge {s : List Nat} {i0 : Nat} {lab : Nat → List Nat} {h : List Node}
    (hE : EdgeInv s i0 lab h) {p : ActivePoint} {c : Nat} {tr : Transition} (hl : 0 < p.length)
    (he : edgeAt h p.node p.c = some tr) (hlt : tr.start + p.length < tr.end_.getD s.length)
    (hs : step s h p c = none) : s[tr.start + p.length]? ≠ some c := by
  intro hx
  obtain ⟨q, hq, _⟩ := hE _ _ tr he
  have hl0 : ¬ p.length = 0 := by omega
  have : step s h p c =
      some (if tr.start + p.length + 1 = tr.end_.getD s.length then ⟨q, 0, 0⟩
        else ⟨p.node, if p.length = 0 then c else p.c, p.length + 1⟩) := by
    rw [step_spec hE]
    refine ⟨tr, q, ?_, hq, hlt, hx, rfl⟩
    rw [if_neg hl0]; exact he
  rw [this] at hs; cases hs

/-- `FixLengthOverflow` brings the cursor `(w, x, m)`, reached after an
extension, to the position spelled by `s[L, i)`. -/
theorem TreeInv.FLO_canon {s : List Nat} {i L : Nat} {lab : Nat → List Nat} {h : List Node}
    {prev : Option Nat} (hI : TreeInv s i L lab h prev) (hL : L ≤ i)
    (t2 : SuffixTree) (hts : t2.s = s) (hh : t2.heap = h) {w m x : Nat}
    (hw : w < h.length) (hm : 1 ≤ m) (hmi : m ≤ i) (hx : s[i - m]? = some x)
    (hap : t2.ap = ⟨w, x, m⟩) (hword : lab w ++ seg s (i - m) i = seg s L i) :
    ∃ p, FixLengthOverflow t2 i = some { t2 with ap := p } ∧
      locus s h (seg s L i) = some p := by
  have hsome := hI.complete L i hL (Or.inl (Nat.le_refl _))
  obtain ⟨p, hp⟩ := Option.isSome_iff_exists.1 hsome
  have hwalk : walk s h ⟨w, 0, 0⟩ (seg s (i - m) i) = some p := by
    have := hp
    rw [← hword] at this
    unfold locus at this
    rw [walk_append] at this
    have hr := hI.reach w hw
    unfold locus at hr
    rw [hr] at this
    exact this
  have hpos := hI.pos hp
  have hlenw := congrArg List.length hword
  rw [List.length_append, seg_length s hI.bound.2.1, seg_length s hI.bound.2.1] at hlenw
  have hnl : leafAt h p.node = false := by
    rcases hI.pos_not_leaf hpos (Nat.le_refl _) hI.bound.2.1 with h1 | h1
    · exact h1
    · exfalso
      rcases hpos.2 with ⟨_, _, hw0⟩ | ⟨hl, _⟩
      · rw [h1] at hw0
        simp only at hw0
        rw [hI.root.2] at hw0
        have := congrArg List.length hw0
        rw [seg_length s hI.bound.2.1] at this
        simp only [List.length_nil] at this
        omega
      · rw [h1] at hl; simp at hl
  obtain ⟨u', k', m', tr', q', hloop, hk', he', hq', hm', hcase⟩ :=
    FLO_loop hI.edge hI.nonul i hI.bound.2.1 (m + 1) m w x p hm hmi (by omega) hx hwalk hnl
  refine ⟨p, ?_, hp⟩
  have hloop2 : FixLengthOverflowLoop s i (t2.ap.length + 1) t2.heap t2.ap =
      some (h, ⟨u', k', m'⟩) := by
    rw [hap, hh]; exact hloop
  have := FLO_final t2 i hts hloop2 hk' he' hq' hcase
  rw [this]
  congr 1
  cases t2
  simp only at hh
  subst hh
  rfl

/-! ## One pass of the extension loop -/

theorem TreeInv.link_target {s : List Nat} {i L : Nat} {lab : Nat → List Nat} {h : List Node}
    {prev : Option Nat} (hI : TreeInv s i L lab h prev) {u : Nat} (hu : u < h.length)
    (hu0 : u ≠ 0) (hl : leafAt h u = false) (hp : prev ≠ some u) :
    (linkAt h u).getD 0 < h.length ∧ lab ((linkAt h u).getD 0) = (lab u).drop 1 ∧
      lab u ≠ [] := by
  cases hlk : linkAt h u with
  | some v =>
    obtain ⟨hv, _, _, x, hx⟩ := hI.link u v hlk
    simp only [Option.getD_some]
    exact ⟨hv, by rw [hx]; rfl, by rw [hx]; exact List.cons_ne_nil _ _⟩
  | none =>
    simp only [Option.getD_none]
    rcases hI.nolink u hu hu0 hl hlk with h1 | h1
    · refine ⟨hI.root.1, ?_, ?_⟩
      · rw [hI.root.2]
        symm
        apply List.drop_of_length_le
        omega
      · intro e; rw [e] at h1; simp at h1
    · exact absurd h1 hp

theorem advance_link {t : SuffixTree} (index : Nat) (h0 : t.ap.node ≠ 0)
    (hu : t.ap.node < t.heap.length) :
    advance t index = some { t with
      remainder := t.remainder - 1
      ap := { t.ap with node := (linkAt t.heap t.ap.node).getD 0 } } := by
  obtain ⟨nd, hnode⟩ : ∃ nd, t.heap[t.ap.node]? = some nd :=
    ⟨_, List.getElem?_eq_getElem hu⟩
  unfold advance linkAt
  simp only [h0, if_false, hnode]
  cases nd.suffix_link <;> rfl

theorem Inv.body_leaf {s : List Nat} {i L : Nat} {lab : Nat → List Nat} {t : SuffixTree}
    {prev : Option Nat} (hI : Inv s i L lab t prev) (hL : L ≤ i) (hi : i < s.length)
    {c : Nat} (hc : s[i]? = some c) (hr : t.remainder = i + 1 - L)
    (hstep : step s t.heap t.ap c = none) (hlen : t.ap.length = 0) :
    ∃ t1 lab1, loopBody c i t prev = some (t1, none, false) ∧
      Inv s i (L + 1) lab1 t1 none ∧ t1.remainder = i - L := by
  have hpos := hI.tree.pos hI.active
  have hc0 : t.ap.c = 0 := by
    rcases hpos.2 with ⟨_, h2, _⟩ | ⟨h1, _⟩
    · exact h2
    · omega
  have hlabu : lab t.ap.node = seg s L i := by
    rcases hpos.2 with ⟨_, _, h3⟩ | ⟨h1, _⟩
    · exact h3.symm
    · omega
  have hap : t.ap = ⟨t.ap.node, 0, 0⟩ := by
    cases hp : t.ap with
    | mk a b d => rw [hp] at hc0 hlen; simp only at hc0 hlen; rw [hc0, hlen]
  have hloc : locus s t.heap (seg s L i) = some ⟨t.ap.node, 0, 0⟩ := by
    rw [← hap]; exact hI.active
  have hnone := step_none_node hI.tree.edge hlen hstep
  have hI1 := hI.tree.leaf_step hL hi hc hloc hnone
  have hlen1 : (linkHeap (leafHeap t.heap t.ap.node c i)
      (if t.ap.node ≠ 0 then prev else none) t.ap.node).length = t.heap.length + 1 := by
    rw [length_linkHeap, length_leafHeap hpos.1]
  have hbody : ∀ t2, advance { t with
        heap := linkHeap (leafHeap t.heap t.ap.node c i)
          (if t.ap.node ≠ 0 then prev else none) t.ap.node
        node_count := t.node_count + 1 } i = some t2 → t2.ap.c = 0 →
      loopBody c i t prev = some (t2, none, false) := by
    intro t2 h2 h3
    unfold loopBody
    rw [NeedToSplit_eq hI.tree.edge hI.tree.nonul hI.text hpos, hstep]
    have : ¬ t.ap.c ≠ 0 := by simp [hc0]
    simp only [Option.isNone_none, this, if_false, leafBranch_eq i prev hpos.1 hnone, h2,
      FLO_zero t2 i h3]
  by_cases h0 : t.ap.node = 0
  · refine ⟨{ t with
        heap := linkHeap (leafHeap t.heap t.ap.node c i)
          (if t.ap.node ≠ 0 then prev else none) t.ap.node
        node_count := t.node_count + 1
        remainder := t.remainder - 1
        ap := ⟨0, 0, 0⟩ }, _, hbody _ ?_ rfl, ⟨hI.text, hI1, ?_, ?_⟩, ?_⟩
    · unfold advance
      simp only [h0, if_true, hlen, Nat.lt_irrefl, if_false, ne_eq, not_true_eq_false]
    · simp only
      have hz : (seg s L i).length = 0 := by
        rw [← hlabu, h0, hI.tree.root.2]; rfl
      rw [seg_length s hI.tree.bound.2.1] at hz
      rw [seg_of_le s (by omega)]
      rfl
    · simp only; rw [hlen1, hI.count_nodes]
    · simp only; omega
  · have hu1 : t.ap.node < (linkHeap (leafHeap t.heap t.ap.node c i)
        (if t.ap.node ≠ 0 then prev else none) t.ap.node).length := by
      rw [hlen1]; have := hpos.1; omega
    have hleaf1 : leafAt (linkHeap (leafHeap t.heap t.ap.node c i)
        (if t.ap.node ≠ 0 then prev else none) t.ap.node) t.ap.node = false := by
      rw [leafAt_linkHeap, leafAt_leafHeap hpos.1]; simp
    obtain ⟨htl, htlab, hne⟩ := hI1.link_target hu1 h0 hleaf1 (by simp)
    have hm : ¬ t.ap.node = t.heap.length := by have := hpos.1; omega
    rw [extLab_old _ _ hm, hlabu, seg_drop] at htlab
    refine ⟨{ t with
        heap := linkHeap (leafHeap t.heap t.ap.node c i)
          (if t.ap.node ≠ 0 then prev else none) t.ap.node
        node_count := t.node_count + 1
        remainder := t.remainder - 1
        ap := { t.ap with node := (linkAt (linkHeap (leafHeap t.heap t.ap.node c i)
          (if t.ap.node ≠ 0 then prev else none) t.ap.node) t.ap.node).getD 0 } }, _,
      hbody _ ?_ hc0, ⟨hI.text, hI1, ?_, ?_⟩, ?_⟩
    · exact advance_link i h0 hu1
    · simp only
      rw [← htlab, hI1.reach _ htl, hc0, hlen]
    · simp only; rw [hlen1, hI.count_nodes]
    · simp only; omega

theorem Inv.body_split {s : List Nat} {i L : Nat} {lab : Nat → List Nat} {t : SuffixTree}
    {prev : Option Nat} (hI : Inv s i L lab t prev) (hL : L ≤ i) (hi : i < s.length)
    {c : Nat} (hc : s[i]? = some c) (hr : t.remainder = i + 1 - L)
    (hstep : step s t.heap t.ap c = none) (hlen : 0 < t.ap.length) :
    ∃ t1 lab1, loopBody c i t prev = some (t1, some t.heap.length, false) ∧
      Inv s i (L + 1) lab1 t1 (some t.heap.length) ∧ t1.remainder = i - L := by
  have hpos := hI.tree.pos hI.active
  have hloc : locus s t.heap (seg s L i) = some ⟨t.ap.node, t.ap.c, t.ap.length⟩ := hI.active
  obtain ⟨tr, q, he, hq, hlt, hlti, hw, hx0, hkey, hlenu⟩ := hI.tree.active_edge hL hloc hlen
  obtain ⟨d, hd⟩ : ∃ d, s[tr.start + t.ap.length]? = some d :=
    ⟨_, List.getElem?_eq_getElem (by omega)⟩
  have hdc : d ≠ c := by
    intro e
    rw [e] at hd
    exact step_none_edge hI.tree.edge hlen he hlt hstep hd
  have hI1 := hI.tree.split_step hL hi hc hloc hlen he hd hdc
  have hlen1 : (linkHeap (splitHeap t.heap t.ap.node t.ap.c t.ap.length d c i) prev
      t.heap.length).length = t.heap.length + 2 := by
    rw [length_linkHeap, length_splitHeap he]
  have hchar : charAt t.s (tr.start + t.ap.length) = some d := by
    rw [hI.text, charAt_of_lt (by omega)]; exact hd
  have hbody : ∀ t2 t3, advance { t with
        heap := linkHeap (splitHeap t.heap t.ap.node t.ap.c t.ap.length d c i) prev t.heap.length
        node_count := t.node_count + 2 } i = some t2 → FixLengthOverflow t2 i = some t3 →
      loopBody c i t prev = some (t3, some t.heap.length, false) := by
    intro t2 t3 h2 h3
    unfold loopBody
    rw [NeedToSplit_eq hI.tree.edge hI.tree.nonul hI.text hpos, hstep]
    simp only [Option.isNone_none, hx0, ne_eq, not_false_eq_true, if_true,
      splitBranch_eq i prev he hchar hdc, h2, h3]
  have hsuf := seg_suffix_eq hI.tree.bound.2.1 hL hw
  rw [seg_length s (by omega)] at hsuf
  have e0 : tr.start + t.ap.length - tr.start = t.ap.length := by omega
  rw [e0] at hsuf
  obtain ⟨hB, hA, -⟩ := hsuf
  by_cases h0 : t.ap.node = 0
  · have hlab0 : (lab t.ap.node).length = 0 := by rw [h0, hI.tree.root.2]; rfl
    by_cases h1 : t.ap.length = 1
    · refine ⟨{ t with
          heap := linkHeap (splitHeap t.heap t.ap.node t.ap.c t.ap.length d c i) prev
            t.heap.length
          node_count := t.node_count + 2
          remainder := t.remainder - 1
          ap := ⟨0, 0, 0⟩ }, _, hbody _ _ ?_ (FLO_zero _ i rfl), ⟨hI.text, hI1, ?_, ?_⟩, ?_⟩
      · unfold advance
        simp only [h0, if_true, h1, Nat.lt_irrefl, if_false, ne_eq, not_true_eq_false]
        simp
      · simp only
        rw [seg_of_le s (by omega)]
        rfl
      · simp only; rw [hlen1, hI.count_nodes]
      · simp only; omega
    · obtain ⟨x', hx'⟩ : ∃ x', s[L + 1]? = some x' :=
        ⟨_, List.getElem?_eq_getElem (by omega)⟩
      have hadv : advance { t with
          heap := linkHeap (splitHeap t.heap t.ap.node t.ap.c t.ap.length d c i) prev
            t.heap.length
          node_count := t.node_count + 2 } i = some { t with
          heap := linkHeap (splitHeap t.heap t.ap.node t.ap.c t.ap.length d c i) prev
            t.heap.length
          node_count := t.node_count + 2
          remainder := t.remainder - 1
          ap := ⟨0, x', t.ap.length - 1⟩ } := by
        unfold advance
        have e1 : ¬ t.ap.length - 1 = 0 := by omega
        have e2 : t.remainder - 1 ≤ i := by omega
        have e3 : i - (t.remainder - 1) + 1 = L + 1 := by omega
        simp only [h0, if_true, hlen, e1, ne_eq, not_false_eq_true, e2, e3, hI.text]
        rw [charAt_of_lt (by omega), hx']
      have e4 : i - (t.ap.length - 1) = L + 1 := by omega
      obtain ⟨p, hflo, hlocp⟩ := hI1.FLO_canon (by omega) { t with
          heap := linkHeap (splitHeap t.heap t.ap.node t.ap.c t.ap.length d c i) prev
            t.heap.length
          node_count := t.node_count + 2
          remainder := t.remainder - 1
          ap := ⟨0, x', t.ap.length - 1⟩ } hI.text rfl
        (by rw [hlen1]; have := hI.tree.root.1; omega) (by omega) (by omega)
        (by rw [e4]; exact hx') rfl
        (by
          rw [extLab_old _ _ (by have := hI.tree.root.1; omega),
            extLab_old _ _ (by have := hI.tree.root.1; omega), hI.tree.root.2, e4]
          rfl)
      exact ⟨_, _, hbody _ _ hadv hflo, ⟨hI.text, hI1, hlocp, by simp only; rw [hlen1, hI.count_nodes]⟩,
        by simp only; omega⟩
  · have hu : t.ap.node < t.heap.length := hpos.1
    have hu1 : t.ap.node < (linkHeap (splitHeap t.heap t.ap.node t.ap.c t.ap.length d c i) prev
        t.heap.length).length := by rw [hlen1]; omega
    have hedge1 : edgeAt (linkHeap (splitHeap t.heap t.ap.node t.ap.c t.ap.length d c i) prev
        t.heap.length) t.ap.node t.ap.c =
        some ⟨some t.heap.length, tr.start, some (tr.start + t.ap.length)⟩ := by
      rw [edgeAt_linkHeap, edgeAt_splitHeap he]; simp
    obtain ⟨htl, htlab, hne⟩ := hI1.link_target hu1 h0 (leafAt_false_of_edge hedge1)
      (by intro e; injection e with e; omega)
    have hm : (linkAt (linkHeap (splitHeap t.heap t.ap.node t.ap.c t.ap.length d c i)
        prev t.heap.length) t.ap.node).getD 0 < t.heap.length := by
      -- the target of a suffix link is an old node
      cases hlk : linkAt (linkHeap (splitHeap t.heap t.ap.node t.ap.c t.ap.length d c i)
        prev t.heap.length) t.ap.node with
      | none => simp only [Option.getD_none]; exact hI.tree.root.1
      | some v =>
        simp only [Option.getD_some]
        rw [linkAt_linkHeap, linkAt_splitHeap he] at hlk
        by_cases hpa : prev = some t.ap.node ∧
            t.ap.node < (splitHeap t.heap t.ap.node t.ap.c t.ap.length d c i).length
        · exfalso
          obtain ⟨_, _, _, _, hlabp, -⟩ := hI.tree.pending _ hpa.1
          have := congrArg List.length hlabp
          rw [seg_length s hI.tree.bound.2.1] at this
          omega
        · rw [if_neg hpa] at hlk
          exact (hI.tree.link _ _ hlk).1
    rw [extLab_old _ _ (by omega), extLab_old _ _ (by omega), extLab_old _ _ (by omega),
      extLab_old _ _ (by omega)] at htlab
    rw [extLab_old _ _ (by omega), extLab_old _ _ (by omega)] at hne
    have hx : s[i - t.ap.length]? = some t.ap.c := by
      have h1 := seg_head? s (show tr.start < tr.start + t.ap.length by omega)
      have h2 := seg_head? s (show i - t.ap.length < i by omega)
      rw [← h2, ← hB, h1]; exact hkey
    have hword : lab ((linkAt (linkHeap (splitHeap t.heap t.ap.node t.ap.c t.ap.length d c i) prev
        t.heap.length) t.ap.node).getD 0) ++ seg s (i - t.ap.length) i = seg s (L + 1) i := by
      rw [htlab, ← seg_drop s L i 1, hw, ← hB]
      have : 1 ≤ (lab t.ap.node).length := by
        cases hl : lab t.ap.node with
        | nil => exact absurd hl hne
        | cons a l => simp
      rw [List.drop_append_of_le_length this]
    have hword1 : extLab (extLab lab t.heap.length (seg s L i)) (t.heap.length + 1)
        (seg s L s.length) ((linkAt (linkHeap (splitHeap t.heap t.ap.node t.ap.c t.ap.length d c i)
          prev t.heap.length) t.ap.node).getD 0) ++ seg s (i - t.ap.length) i = seg s (L + 1) i := by
      rw [extLab_old _ _ (by omega), extLab_old _ _ (by omega)]; exact hword
    obtain ⟨p, hflo, hlocp⟩ := hI1.FLO_canon (by omega) { t with
        heap := linkHeap (splitHeap t.heap t.ap.node t.ap.c t.ap.length d c i) prev t.heap.length
        node_count := t.node_count + 2
        remainder := t.remainder - 1
        ap := { t.ap with node := (linkAt (linkHeap (splitHeap t.heap t.ap.node t.ap.c
          t.ap.length d c i) prev t.heap.length) t.ap.node).getD 0 } } hI.text rfl htl hlen
      (by omega) hx rfl hword1
    exact ⟨_, _, hbody _ _ (advance_link i h0 hu1) hflo,
      ⟨hI.text, hI1, hlocp, by simp only; rw [hlen1, hI.count_nodes]⟩, by simp only; omega⟩

theorem loopBody_match (c index : Nat) (t : SuffixTree) (prev : Option Nat)
    (hN : NeedToSplit t c = some false) :
    loopBody c index t prev =
      (FixLengthOverflow { t with
          heap := linkHeap t.heap (if t.ap.node ≠ 0 then prev else none) t.ap.node
          ap := { t.ap with c := if t.ap.c = 0 then c else t.ap.c, length := t.ap.length + 1 } }
          index).map fun t3 => (t3, none, true) := by
  unfold loopBody linkHeap
  rw [hN]
  cases prev with
  | none =>
    simp only [ite_self]
    cases FixLengthOverflow _ index <;> rfl
  | some p =>
    by_cases h0 : t.ap.node = 0
    · simp only [h0, ne_eq, not_true_eq_false, if_false]
      cases FixLengthOverflow _ index <;> rfl
    · simp only [h0, ne_eq, not_false_eq_true, if_true]
      cases FixLengthOverflow _ index <;> rfl

theorem Inv.body_match {s : List Nat} {i L : Nat} {lab : Nat → List Nat} {t : SuffixTree}
    {prev : Option Nat} (hI : Inv s i L lab t prev) (hL : L ≤ i) (hi : i < s.length)
    {c : Nat} (hc : s[i]? = some c) {ap1 : ActivePoint}
    (hstep : step s t.heap t.ap c = some ap1) :
    ∃ t1, loopBody c i t prev = some (t1, none, true) ∧
      Inv s (i + 1) L lab t1 none ∧ t1.remainder = t.remainder := by
  have hpos := hI.tree.pos hI.active
  obtain ⟨hI1, hloc1⟩ := hI.tree.match_step hL hi hc hI.active hstep
  obtain ⟨tr, q, he, hq, h2, h3, h4⟩ := (step_spec hI.tree.edge _ _ _).1 hstep
  obtain ⟨q', hq', hqlt, hq0, hlt, hle, hkey, hlabq, hleafq, hclosed⟩ := hI.tree.edge _ _ tr he
  rw [hq] at hq'; injection hq' with hq'; subst hq'
  have hc0 : c ≠ 0 := ne_zero_of_getElem? hI.tree.nonul hc
  have hk : (if t.ap.c = 0 then c else t.ap.c) = (if t.ap.length = 0 then c else t.ap.c) := by
    rcases hpos.2 with ⟨h5, h6, _⟩ | ⟨h5, tr', he', _, _⟩
    · rw [if_pos h5, if_pos h6]
    · have h7 : ¬ t.ap.length = 0 := by omega
      obtain ⟨_, _, _, _, _, _, hkey', _⟩ := hI.tree.edge _ _ tr' he'
      have h8 : ¬ t.ap.c = 0 := ne_zero_of_getElem? hI.tree.nonul hkey'
      rw [if_neg h7, if_neg h8]
  have hk0 : (if t.ap.length = 0 then c else t.ap.c) ≠ 0 := by
    have := ne_zero_of_getElem? hI.tree.nonul hkey
    exact this
  have he1 : edgeAt (linkHeap t.heap (if t.ap.node ≠ 0 then prev else none) t.ap.node) t.ap.node
      (if t.ap.length = 0 then c else t.ap.c) = some tr := by
    rw [edgeAt_linkHeap]; exact he
  have hcase : (tr.start + (t.ap.length + 1) < tr.end_.getD s.length ∧
        ap1 = ⟨t.ap.node, if t.ap.length = 0 then c else t.ap.c, t.ap.length + 1⟩) ∨
      (tr.start + (t.ap.length + 1) = tr.end_.getD s.length ∧ tr.end_ ≠ none ∧
        ap1 = ⟨q, 0, 0⟩) := by
    by_cases hcol : tr.start + t.ap.length + 1 = tr.end_.getD s.length
    · rw [if_pos hcol] at h4
      right
      refine ⟨by omega, ?_, h4⟩
      intro hnone
      have hposq := hI1.pos hloc1
      rw [h4] at hposq
      have hlabq2 : lab q = seg s L (i + 1) := by
        rcases hposq.2 with ⟨_, _, hw⟩ | ⟨hl, _⟩
        · exact hw.symm
        · simp at hl
      have := hI.tree.not_leaf hqlt hq0 hlabq2 (Nat.le_refl _) (by omega)
      rw [hleafq.1 hnone] at this
      cases this
    · rw [if_neg hcol] at h4
      left
      exact ⟨by omega, h4⟩
  have hloop := @FLO_loop_stop s _ _ _ (t.ap.length + 1) _ i (t.ap.length + 1) hk0 he1 (by omega)
  have hflo := FLO_final { t with
      heap := linkHeap t.heap (if t.ap.node ≠ 0 then prev else none) t.ap.node
      ap := ⟨t.ap.node, if t.ap.length = 0 then c else t.ap.c, t.ap.length + 1⟩ } i
    hI.text hloop hk0 he1 hq hcase
  refine ⟨{ t with
      heap := linkHeap t.heap (if t.ap.node ≠ 0 then prev else none) t.ap.node
      ap := ap1 }, ?_, ⟨hI.text, hI1, hloc1, ?_⟩, rfl⟩
  · rw [loopBody_match c i t prev
      (by rw [NeedToSplit_eq hI.tree.edge hI.tree.nonul hI.text hpos, hstep]; rfl)]
    simp only [hk, hflo, Option.map_some']
  · simp only; rw [length_linkHeap]; exact hI.count_nodes

/-! ## The extension loop, `AddSuffix` and the loop of `Initialize` -/

/-- One pass of the loop body keeps the invariant: either a suffix got its
leaf, or the symbol was found and the pass leaves the loop; in the latter
case the suffix `s[L, i]` occurs before position `i`. -/
theorem Inv.body {s : List Nat} {i L : Nat} {lab : Nat → List Nat} {t : SuffixTree}
    {prev : Option Nat} (hI : Inv s i L lab t prev) (hL : L ≤ i) (hi : i < s.length)
    {c : Nat} (hc : s[i]? = some c) (hr : t.remainder = i + 1 - L) :
    ∃ t1 prev1 brk lab1, loopBody c i t prev = some (t1, prev1, brk) ∧
      ((brk = false ∧ Inv s i (L + 1) lab1 t1 prev1 ∧ t1.remainder = i - L) ∨
       (brk = true ∧ Inv s (i + 1) L lab1 t1 none ∧ t1.remainder = i + 1 - L ∧
          ∃ a b, a ≤ b ∧ b ≤ i ∧ seg s L (i + 1) = seg s a b)) := by
  cases hstep : step s t.heap t.ap c with
  | none =>
    by_cases hlen : t.ap.length = 0
    · obtain ⟨t1, lab1, h1, h2, h3⟩ := hI.body_leaf hL hi hc hr hstep hlen
      exact ⟨t1, none, false, lab1, h1, Or.inl ⟨rfl, h2, h3⟩⟩
    · obtain ⟨t1, lab1, h1, h2, h3⟩ := hI.body_split hL hi hc hr hstep (by omega)
      exact ⟨t1, _, false, lab1, h1, Or.inl ⟨rfl, h2, h3⟩⟩
  | some ap1 =>
    obtain ⟨t1, h1, h2, h3⟩ := hI.body_match hL hi hc hstep
    refine ⟨t1, none, true, lab, h1, Or.inr ⟨rfl, h2, by rw [h3, hr], ?_⟩⟩
    have hmatch : locus s t.heap (seg s L (i + 1)) = some ap1 := by
      rw [seg_succ s hL hc]
      have := hI.active
      unfold locus at this ⊢
      rw [walk_snoc, this]
      exact hstep
    exact hI.tree.match_seg hL (by rw [seg_length s (by omega)]) (hI.tree.pos hmatch)

/-- The state between two symbols, once `k` symbols are processed. -/
theorem Inv.boundary {s : List Nat} {i : Nat} {lab : Nat → List Nat} {t : SuffixTree}
    {prev : Option Nat} (hI : Inv s i (i + 1) lab t prev) (hi : i < s.length) :
    Inv s (i + 1) (i + 1) lab t none := by
  refine ⟨hI.text, hI.tree.upgrade hi, ?_, hI.count_nodes⟩
  have := hI.active
  rw [seg_of_le s (Nat.le_succ i)] at this
  rw [seg_self]
  exact this

theorem AddSuffixLoop_inv {s : List Nat} {i : Nat} (hi : i < s.length) {c : Nat}
    (hc : s[i]? = some c) :
    ∀ (fuel : Nat) (L : Nat) (lab : Nat → List Nat) (t : SuffixTree) (prev : Option Nat),
      Inv s i L lab t prev → t.remainder = i + 1 - L → t.remainder ≤ fuel →
      ∃ t1 L1 lab1, AddSuffixLoop c i fuel t prev = some t1 ∧ Inv s (i + 1) L1 lab1 t1 none ∧
        L1 ≤ i + 1 ∧ t1.remainder = i + 1 - L1 ∧
        (L1 = i + 1 ∨ ∃ a b, a ≤ b ∧ b ≤ i ∧ seg s L1 (i + 1) = seg s a b) ∧
        (∀ t2 ∈ loopTrace c i fuel t prev, GoodHeap s t2.heap) := by
  intro fuel
  induction fuel with
  | zero =>
    intro L lab t prev hI hr hf
    have hL : L = i + 1 := by have := hI.tree.bound.1; omega
    subst hL
    refine ⟨t, i + 1, lab, ?_, hI.boundary hi, Nat.le_refl _, by omega, Or.inl rfl, ?_⟩
    · unfold AddSuffixLoop
      have : ¬ t.remainder > 0 := by omega
      rw [if_neg this]
    · intro t2 ht2
      unfold loopTrace at ht2
      cases ht2
  | succ fuel ih =>
    intro L lab t prev hI hr hf
    by_cases hrem : t.remainder > 0
    · have hL : L ≤ i := by omega
      obtain ⟨t1, prev1, brk, lab1, hbody, hcase⟩ := hI.body hL hi hc hr
      rcases hcase with ⟨hb, hI1, hr1⟩ | ⟨hb, hI1, hr1, hrep⟩
      · subst hb
        obtain ⟨t2, L2, lab2, h1, h2, h3, h4, h5, h6⟩ :=
          ih (L + 1) lab1 t1 prev1 hI1 (by omega) (by omega)
        refine ⟨t2, L2, lab2, ?_, h2, h3, h4, h5, ?_⟩
        · unfold AddSuffixLoop
          rw [if_pos hrem, hbody]
          exact h1
        · intro t3 ht3
          unfold loopTrace at ht3
          rw [if_pos hrem, hbody] at ht3
          simp only at ht3
          rcases List.mem_cons.1 ht3 with h7 | h7
          · rw [h7]; exact ⟨_, _, _, _, hI1.tree⟩
          · exact h6 t3 h7
      · subst hb
        refine ⟨t1, L, lab1, ?_, hI1, by omega, hr1, Or.inr hrep, ?_⟩
        · unfold AddSuffixLoop
          rw [if_pos hrem, hbody]
        · intro t3 ht3
          unfold loopTrace at ht3
          rw [if_pos hrem, hbody] at ht3
          simp only at ht3
          rw [List.mem_singleton] at ht3
          rw [ht3]; exact ⟨_, _, _, _, hI1.tree⟩
    · have hL : L = i + 1 := by have := hI.tree.bound.1; omega
      subst hL
      refine ⟨t, i + 1, lab, ?_, hI.boundary hi, Nat.le_refl _, by omega, Or.inl rfl, ?_⟩
      · unfold AddSuffixLoop
        rw [if_neg hrem]
      · intro t2 ht2
        unfold loopTrace at ht2
        rw [if_neg hrem] at ht2
        cases ht2

/-- `AddSuffix` keeps the invariant from one symbol to the next. -/
theorem AddSuffix_inv {s : List Nat} {i L : Nat} {lab : Nat → List Nat} {t : SuffixTree}
    (hI : Inv s i L lab t none) (hL : L ≤ i) (hr : t.remainder = i - L) (hi : i < s.length)
    {c : Nat} (hc : s[i]? = some c) :
    ∃ t1 L1 lab1, AddSuffix t c i = some t1 ∧ Inv s (i + 1) L1 lab1 t1 none ∧
      L1 ≤ i + 1 ∧ t1.remainder = i + 1 - L1 ∧
      (L1 = i + 1 ∨ ∃ a b, a ≤ b ∧ b ≤ i ∧ seg s L1 (i + 1) = seg s a b) ∧
      (∀ t2 ∈ loopTrace c i (t.remainder + 1) { t with remainder := t.remainder + 1 } none,
        GoodHeap s t2.heap) := by
  have hI' : Inv s i L lab { t with remainder := t.remainder + 1 } none :=
    ⟨hI.text, hI.tree, hI.active, hI.count_nodes⟩
  exact AddSuffixLoop_inv hi hc (t.remainder + 1) L lab _ none hI' (by simp only; omega)
    (Nat.le_refl _)

theorem TreeInv.init {s : List Nat} (hn : 0 ∉ s) :
    TreeInv s 0 0 (fun _ => []) [⟨[], none⟩] none := by
  refine ⟨hn, ⟨by omega, by omega, by omega⟩, ⟨by simp, rfl⟩, ?_, ?_, ?_, ?_, ?_, ?_, ?_, ?_, ?_, ?_⟩
  · intro u
    unfold keysAt
    cases u with
    | zero => simp
    | succ u => simp
  · intro u k tr he
    unfold edgeAt at he
    cases u with
    | zero => simp [mapFind] at he
    | succ u => simp at he
  · intro u hu
    simp only [List.length_singleton] at hu
    have : u = 0 := by omega
    subst this
    rfl
  · intro u hu hu0
    simp only [List.length_singleton] at hu
    omega
  · intro u hu hl
    simp only [List.length_singleton] at hu
    have : u = 0 := by omega
    subst this
    simp [leafAt, Node.isLeaf] at hl
  · simp [leafCount, leafAt, Node.isLeaf]
  · intro u v huv
    unfold linkAt at huv
    cases u with
    | zero => simp at huv
    | succ u => simp at huv
  · intro u hu hu0
    simp only [List.length_singleton] at hu
    omega
  · intro a b hab hcase
    have hb : b = 0 := by omega
    have ha : a = 0 := by omega
    rw [ha, hb, seg_self]
    rfl
  · intro p hp; cases hp

theorem Inv.init_state {s : List Nat} (hn : 0 ∉ s) :
    Inv s 0 0 (fun _ => []) { SuffixTree.init s with node_count := 1 } none :=
  ⟨rfl, TreeInv.init hn, by rw [seg_self]; rfl, rfl⟩

/-- The loop of `Initialize` from position `k` on. -/
theorem addAll_inv {s : List Nat} :
    ∀ (m k L : Nat) (lab : Nat → List Nat) (t : SuffixTree), m + k = s.length →
      Inv s k L lab t none → L ≤ k → t.remainder = k - L →
      ∃ t1 L1 lab1, addAll (s.drop k) k t = some t1 ∧ Inv s s.length L1 lab1 t1 none ∧
        L1 ≤ s.length ∧ t1.remainder = s.length - L1 ∧
        (0 < m → L1 = s.length ∨
          ∃ a b, a ≤ b ∧ b + 1 ≤ s.length ∧ seg s L1 s.length = seg s a b) ∧
        (∀ t2 ∈ textTrace (s.drop k) k t, GoodHeap s t2.heap) := by
  intro m
  induction m with
  | zero =>
    intro k L lab t hk hI hL hr
    have hk' : k = s.length := by omega
    subst hk'
    refine ⟨t, L, lab, ?_, hI, hL, hr, fun h => by omega, ?_⟩
    · rw [List.drop_length]; rfl
    · intro t2 ht2
      rw [List.drop_length] at ht2
      unfold textTrace at ht2
      cases ht2
  | succ m ih =>
    intro k L lab t hk hI hL hr
    have hklt : k < s.length := by omega
    obtain ⟨c, hc⟩ : ∃ c, s[k]? = some c := ⟨_, List.getElem?_eq_getElem hklt⟩
    have hdrop : s.drop k = c :: s.drop (k + 1) := by
      rw [List.drop_eq_getElem_cons hklt]
      congr 1
      rw [List.getElem?_eq_getElem hklt] at hc
      injection hc
    obtain ⟨t1, L1, lab1, h1, h2, h3, h4, h5, h6⟩ := AddSuffix_inv hI hL hr hklt hc
    obtain ⟨t2, L2, lab2, g1, g2, g3, g4, g5, g6⟩ :=
      ih (k + 1) L1 lab1 t1 (by omega) h2 h3 h4
    refine ⟨t2, L2, lab2, ?_, g2, g3, g4, ?_, ?_⟩
    · rw [hdrop]
      unfold addAll
      rw [h1]
      exact g1
    · intro _
      cases m with
      | zero =>
        have hk1 : k + 1 = s.length := by omega
        rw [hk1, List.drop_length] at g1
        unfold addAll at g1
        injection g1 with g1
        subst g1
        have hLL : L1 = L2 := by
          have e := h4.symm.trans g4
          clear h5 h6 g5 g6 ih
          omega
        subst hLL
        rcases h5 with h5 | ⟨a, b, hab, hb, hseg⟩
        · left; omega
        · right
          rw [hk1] at hseg
          exact ⟨a, b, hab, by omega, hseg⟩
      | succ m => exact g5 (Nat.succ_pos _)
    · intro t3 ht3
      rw [hdrop] at ht3
      unfold textTrace at ht3
      rw [h1] at ht3
      rcases List.mem_append.1 ht3 with h7 | h7
      · exact h6 t3 h7
      · exact g6 t3 h7

/-- In a valid text the last symbol does not occur earlier, so no suffix
that contains it occurs twice. -/
theorem ValidText.no_repeat {s : List Nat} (hv : ValidText s) {L a b : Nat}
    (hL : L < s.length) (hab : a ≤ b) (hb : b + 1 ≤ s.length)
    (hseg : seg s L s.length = seg s a b) : False := by
  obtain ⟨hne, hn0, hlast⟩ := hv
  have hlen := congrArg List.length hseg
  rw [seg_length s (Nat.le_refl _), seg_length s (by omega)] at hlen
  have hget := congrArg (fun l => l[s.length - L - 1]?) hseg
  simp only at hget
  rw [seg_getElem?, seg_getElem?, if_pos (by omega), if_pos (by omega)] at hget
  have e1 : L + (s.length - L - 1) = s.length - 1 := by omega
  have e2 : a + (s.length - L - 1) = b - 1 := by omega
  rw [e1, e2] at hget
  have hl : s.getLast? = s[s.length - 1]? := List.getLast?_eq_getElem? s
  have hb1 : b - 1 < s.length - 1 := by omega
  obtain ⟨x, hx⟩ : ∃ x, s[s.length - 1]? = some x := ⟨_, List.getElem?_eq_getElem (by omega)⟩
  apply hlast x (by rw [hl, hx]; rfl)
  rw [hx] at hget
  have hd : s.dropLast[b - 1]? = some x := by
    rw [List.getElem?_dropLast, if_pos hb1]
    exact hget.symm
  exact List.mem_iff_getElem?.2 ⟨_, hd⟩

/-! ## The finished heap -/

theorem closeEdge_node (size : Nat) (tr : Transition) : (closeEdge size tr).node = tr.node := by
  unfold closeEdge; split <;> rfl

theorem closeEdge_start (size : Nat) (tr : Transition) : (closeEdge size tr).start = tr.start := by
  unfold closeEdge; split <;> rfl

theorem closeEdge_end (size : Nat) (tr : Transition) :
    (closeEdge size tr).end_ = some (tr.end_.getD size) := by
  unfold closeEdge
  cases h : tr.end_ <;> simp [h]

theorem closeEdge_getD (size : Nat) (tr : Transition) :
    (closeEdge size tr).end_.getD size = tr.end_.getD size := by
  rw [closeEdge_end]; rfl

theorem mapFind_closeEnds (size : Nat) (m : List (Nat × Transition)) (k : Nat) :
    mapFind (closeEnds size m) k = (mapFind m k).map (closeEdge size) := by
  induction m with
  | nil => rfl
  | cons e m ih =>
    obtain ⟨k', t'⟩ := e
    unfold closeEnds at ih ⊢
    simp only [List.map_cons, mapFind_cons]
    by_cases hk : k' = k
    · simp [hk]
    · simp only [hk, if_false]; exact ih

theorem length_closeHeap (size : Nat) (h : List Node) : (closeHeap size h).length = h.length := by
  simp [closeHeap]

theorem getElem?_closeHeap (size : Nat) (h : List Node) (u : Nat) :
    (closeHeap size h)[u]? = (h[u]?).map (closeNode size) := by
  simp [closeHeap]

theorem edgeAt_closeHeap (size : Nat) (h : List Node) (u k : Nat) :
    edgeAt (closeHeap size h) u k = (edgeAt h u k).map (closeEdge size) := by
  unfold edgeAt
  rw [getElem?_closeHeap]
  cases h[u]? with
  | none => rfl
  | some nd => exact mapFind_closeEnds size nd.to_ k

theorem leafAt_closeHeap (size : Nat) (h : List Node) (u : Nat) :
    leafAt (closeHeap size h) u = leafAt h u := by
  unfold leafAt
  rw [getElem?_closeHeap]
  cases h[u]? with
  | none => rfl
  | some nd =>
    simp only [Option.map_some', Node.isLeaf, closeNode, closeEnds]
    cases nd.to_ <;> rfl

theorem linkAt_closeHeap (size : Nat) (h : List Node) (u : Nat) :
    linkAt (closeHeap size h) u = linkAt h u := by
  unfold linkAt
  rw [getElem?_closeHeap]
  cases h[u]? <;> rfl

theorem keysAt_closeHeap (size : Nat) (h : List Node) (u : Nat) :
    keysAt (closeHeap size h) u = keysAt h u := by
  unfold keysAt
  rw [getElem?_closeHeap]
  cases h[u]? with
  | none => rfl
  | some nd =>
    simp only [Option.map_some', closeNode, closeEnds, List.map_map]
    rfl

theorem leafCount_closeHeap (size : Nat) (h : List Node) :
    leafCount (closeHeap size h) = leafCount h := by
  unfold leafCount closeHeap
  rw [List.countP_map]
  congr 1
  funext nd
  simp only [Function.comp, Node.isLeaf, closeNode, closeEnds]
  cases nd.to_ <;> rfl

theorem step_closeHeap (s : List Nat) (h : List Node) (p : ActivePoint) (a : Nat) :
    step s (closeHeap s.length h) p a = step s h p a := by
  unfold step
  simp only [edgeAt_closeHeap]
  cases edgeAt h p.node (if p.length = 0 then a else p.c) with
  | none => rfl
  | some tr =>
    simp only [Option.map_some', closeEdge_getD, closeEdge_start, closeEdge_node]

theorem walk_closeHeap (s : List Nat) (h : List Node) (p : ActivePoint) (w : List Nat) :
    walk s (closeHeap s.length h) p w = walk s h p w := by
  induction w generalizing p with
  | nil => rfl
  | cons a w ih =>
    rw [walk_cons, walk_cons, step_closeHeap]
    cases step s h p a with
    | none => rfl
    | some q => exact ih q

/-- A map that is the old one up to fixed ends and has no open end left is
the old one with all ends fixed. -/
theorem mapLe_closed {size : Nat} {m m1 : List (Nat × Transition)}
    (hle : List.Forall₂ (edgeLe size) m m1) (hc : ∀ e ∈ m1, e.2.end_ ≠ none) :
    m1 = closeEnds size m := by
  induction hle with
  | nil => rfl
  | @cons a b l l1 hab _ ih =>
    unfold closeEnds at ih ⊢
    rw [List.map_cons, ih (fun e he => hc e (List.mem_cons_of_mem _ he))]
    congr 1
    obtain ⟨ka, ta⟩ := a
    obtain ⟨kb, tb⟩ := b
    obtain ⟨h1, h2, h3, h4⟩ := hab
    simp only at h1 h2 h3 h4
    have hb := hc (kb, tb) (List.mem_cons_self _ _)
    simp only at hb
    have hend : tb.end_ = (closeEdge size ta).end_ := by
      rw [closeEdge_end]
      rcases h4 with h4 | ⟨h4, h5⟩
      · rw [h4] at hb ⊢
        cases hta : ta.end_ with
        | none => exact absurd hta hb
        | some e => rfl
      · rw [h5, h4]; rfl
    have : tb = closeEdge size ta := by
      cases tb
      cases hce : closeEdge size ta
      have e1 := closeEdge_node size ta
      have e2 := closeEdge_start size ta
      rw [hce] at hend e1 e2
      simp only at h2 h3 hend e1 e2
      simp only [Transition.mk.injEq]
      exact ⟨h2.trans e1.symm, h3.trans e2.symm, hend⟩
    rw [h1, this]

/-- When every node of the heap lies in the tree and keys are unique,
`FinishString` at the root fixes every open end: the result is
`closeHeap`. -/
theorem FinishString_eq_closeHeap {size fuel : Nat} {h h1 : List Node}
    (hf : FinishString size fuel h 0 = some h1)
    (hnodup : ∀ u, (keysAt h u).Nodup) (hreach : ∀ u, u < h.length → Desc h 0 u) :
    h1 = closeHeap size h := by
  obtain ⟨hle, hcl⟩ := FinishString_spec size fuel h 0 h1 hf
  apply List.ext_getElem?
  intro u
  rw [getElem?_closeHeap]
  cases hu : h[u]? with
  | none =>
    have : h1[u]? = none := by
      rw [List.getElem?_eq_none_iff] at hu ⊢
      rw [hle.1]; exact hu
    rw [this]; rfl
  | some nd =>
    obtain ⟨nd1, hu1, hn⟩ := heapLe_get hle hu
    rw [hu1]
    simp only [Option.map_some', Option.some.injEq]
    have hult : u < h.length := (List.getElem?_eq_some.1 hu).1
    have hclosed := hcl u ((heapLe_desc hle).1 (hreach u hult))
    have hk1 : (nd1.to_.map Prod.fst).Nodup := by
      rw [mapLe_keys hn.2, ← keysAt_eq hu]; exact hnodup u
    have hto : nd1.to_ = closeEnds size nd.to_ := by
      apply mapLe_closed hn.2
      intro e he
      obtain ⟨k, tr⟩ := e
      exact hclosed k tr (by rw [edgeAt_eq hu1]; exact mapFind_of_mem_nodup hk1 he)
    cases nd1
    cases nd
    simp only [closeNode, Node.mk.injEq]
    exact ⟨hto, hn.1⟩

theorem step_desc {s : List Nat} {i : Nat} {lab : Nat → List Nat} {h : List Node}
    (hE : EdgeInv s i lab h) {v : Nat} {p p1 : ActivePoint} {a : Nat}
    (hd : Desc h v p.node) (hs : step s h p a = some p1) : Desc h v p1.node := by
  obtain ⟨tr, q, he, hq, _, _, h4⟩ := (step_spec hE p a p1).1 hs
  by_cases hc : tr.start + p.length + 1 = tr.end_.getD s.length
  · rw [if_pos hc] at h4
    rw [h4]
    exact Desc.child _ _ _ tr hd he hq
  · rw [if_neg hc] at h4
    rw [h4]
    exact hd

theorem walk_desc {s : List Nat} {i : Nat} {lab : Nat → List Nat} {h : List Node}
    (hE : EdgeInv s i lab h) {v : Nat} {p p1 : ActivePoint} {w : List Nat}
    (hd : Desc h v p.node) (hs : walk s h p w = some p1) : Desc h v p1.node := by
  induction w generalizing p with
  | nil => rw [walk_nil] at hs; injection hs with hs; rw [← hs]; exact hd
  | cons a w ih =>
    rw [walk_cons] at hs
    cases h1 : step s h p a with
    | none => rw [h1] at hs; cases hs
    | some q =>
      rw [h1] at hs
      exact ih (step_desc hE hd h1) hs

/-- Every node of the heap lies in the tree. -/
theorem TreeInv.desc {s : List Nat} {i L : Nat} {lab : Nat → List Nat} {h : List Node}
    {prev : Option Nat} (hI : TreeInv s i L lab h prev) {u : Nat} (hu : u < h.length) :
    Desc h 0 u :=
  @walk_desc s i lab h hI.edge 0 ⟨0, 0, 0⟩ ⟨u, 0, 0⟩ (lab u) Desc.refl (hI.reach u hu)

theorem TreeInv.ranked {s : List Nat} {i L : Nat} {lab : Nat → List Nat} {h : List Node}
    {prev : Option Nat} (hI : TreeInv s i L lab h prev) :
    Ranked (fun u => (lab u).length) s.length h := by
  intro u k tr he
  obtain ⟨q, hq, hqlt, hq0, hlt, hle, hkey, hlabq, -, -⟩ := hI.edge u k tr he
  obtain ⟨a, b, hab, -, hb, hlab⟩ := hI.node_seg hqlt
  refine ⟨q, hq, hqlt, ?_, ?_⟩
  · simp only
    rw [hlabq, List.length_append, seg_length s hle]
    omega
  · simp only
    rw [hlab, seg_length s hb]
    omega

/-- For a text without NUL the constructor returns: the loop of
`Initialize` ends in a state satisfying the invariant, and `FinishString`
fixes all open ends. -/
theorem build_eq {s : List Nat} (hn : 0 ∉ s) :
    ∃ t1 L lab, addAll s 0 { SuffixTree.init s with node_count := 1 } = some t1 ∧
      Inv s s.length L lab t1 none ∧ L ≤ s.length ∧ t1.remainder = s.length - L ∧
      (ValidText s → L = s.length) ∧
      build s = some { t1 with heap := closeHeap s.length t1.heap } ∧
      (∀ t2 ∈ textTrace s 0 { SuffixTree.init s with node_count := 1 }, GoodHeap s t2.heap) := by
  obtain ⟨t1, L, lab, h1, h2, h3, h4, h5, h6⟩ :=
    addAll_inv s.length 0 0 (fun _ => []) { SuffixTree.init s with node_count := 1 }
      (by omega) (Inv.init_state hn) (Nat.le_refl _) rfl
  rw [List.drop_zero] at h1 h6
  refine ⟨t1, L, lab, h1, h2, h3, h4, ?_, ?_, h6⟩
  · intro hv
    by_contra hne
    have hpos : 0 < s.length := by
      cases hs : s with
      | nil => exact absurd hs hv.1
      | cons a l => simp
    rcases h5 hpos with h7 | ⟨a, b, hab, hb, hseg⟩
    · exact hne h7
    · exact hv.no_repeat (by omega) hab hb hseg
  · obtain ⟨hf, hfe⟩ := FinishString_total s.length (fun u => (lab u).length) s.length
      (s.length + 1) t1.heap 0 h2.tree.ranked h2.tree.root.1
      (by simp only; rw [h2.tree.root.2]; exact Nat.zero_le _) (by omega)
    have := FinishString_eq_closeHeap hfe h2.tree.nodup (fun u hu => h2.tree.desc hu)
    subst this
    unfold build Initialize
    have e : ({ SuffixTree.init s with node_count := (SuffixTree.init s).node_count + 1 } :
        SuffixTree) = { SuffixTree.init s with node_count := 1 } := rfl
    have e2 : (SuffixTree.init s).s = s := rfl
    rw [e, e2, h1]
    simp only [h2.text, hfe]

/-! ## Path labels -/

theorem edgeLabel_eq_seg (s : List Nat) (tr : Transition) :
    edgeLabel s tr = seg s tr.start (tr.end_.getD s.length) := rfl

theorem edgeLabel_closeEdge (s : List Nat) (tr : Transition) :
    edgeLabel s (closeEdge s.length tr) = edgeLabel s tr := by
  unfold edgeLabel
  rw [closeEdge_getD, closeEdge_start]

/-- A path label of a node is the word `lab` assigns to it. -/
theorem TreeInv.pathLabel_unique {s : List Nat} {i L : Nat} {lab : Nat → List Nat}
    {h : List Node} {prev : Option Nat} (hI : TreeInv s i L lab h prev) {v : Nat}
    {w : List Nat} (hp : PathLabel s h v w) : v < h.length ∧ w = lab v := by
  induction hp with
  | root => exact ⟨hI.root.1, hI.root.2.symm⟩
  | edge u q k w nd tr _ hu hmem hq ih =>
    have hnd : (nd.to_.map Prod.fst).Nodup := by rw [← keysAt_eq hu]; exact hI.nodup u
    have he : edgeAt h u k = some tr := by
      rw [edgeAt_eq hu]; exact mapFind_of_mem_nodup hnd hmem
    obtain ⟨q', hq', hqlt, _, _, _, _, hlabq, _⟩ := hI.edge u k tr he
    rw [hq] at hq'; injection hq' with hq'; subst hq'
    exact ⟨hqlt, by rw [hlabq, ih.2, edgeLabel_eq_seg]⟩

theorem step_pathLabel {s : List Nat} {i : Nat} {lab : Nat → List Nat} {h : List Node}
    (hE : EdgeInv s i lab h) {p p1 : ActivePoint} {a : Nat}
    (hd : PathLabel s h p.node (lab p.node)) (hs : step s h p a = some p1) :
    PathLabel s h p1.node (lab p1.node) := by
  obtain ⟨tr, q, he, hq, _, _, h4⟩ := (step_spec hE p a p1).1 hs
  by_cases hc : tr.start + p.length + 1 = tr.end_.getD s.length
  · rw [if_pos hc] at h4
    rw [h4]
    simp only
    obtain ⟨q', hq', _, _, _, _, _, hlabq, _⟩ := hE _ _ tr he
    rw [hq] at hq'; injection hq' with hq'; subst hq'
    rw [hlabq, ← edgeLabel_eq_seg]
    unfold edgeAt at he
    cases hn : h[p.node]? with
    | none => simp [hn] at he
    | some nd =>
      simp only [hn] at he
      exact PathLabel.edge _ _ _ _ nd tr hd hn (mapFind_mem he) hq
  · rw [if_neg hc] at h4
    rw [h4]
    exact hd

theorem walk_pathLabel {s : List Nat} {i : Nat} {lab : Nat → List Nat} {h : List Node}
    (hE : EdgeInv s i lab h) {p p1 : ActivePoint} {w : List Nat}
    (hd : PathLabel s h p.node (lab p.node)) (hs : walk s h p w = some p1) :
    PathLabel s h p1.node (lab p1.node) := by
  induction w generalizing p with
  | nil => rw [walk_nil] at hs; injection hs with hs; rw [← hs]; exact hd
  | cons a w ih =>
    rw [walk_cons] at hs
    cases h1 : step s h p a with
    | none => rw [h1] at hs; cases hs
    | some q =>
      rw [h1] at hs
      exact ih (step_pathLabel hE hd h1) hs

/-- Every node of the heap is reached from the root by a path spelling its
word. -/
theorem TreeInv.pathLabel_exists {s : List Nat} {i L : Nat} {lab : Nat → List Nat}
    {h : List Node} {prev : Option Nat} (hI : TreeInv s i L lab h prev) {v : Nat}
    (hv : v < h.length) : PathLabel s h v (lab v) := by
  have h0 : PathLabel s h (⟨0, 0, 0⟩ : ActivePoint).node (lab (⟨0, 0, 0⟩ : ActivePoint).node) := by
    simp only
    rw [hI.root.2]
    exact PathLabel.root
  exact walk_pathLabel hI.edge h0 (hI.reach v hv)

theorem mem_closeEnds {size : Nat} {m : List (Nat × Transition)} {k : Nat} {tr1 : Transition} :
    (k, tr1) ∈ closeEnds size m ↔ ∃ tr, (k, tr) ∈ m ∧ tr1 = closeEdge size tr := by
  unfold closeEnds
  rw [List.mem_map]
  constructor
  · rintro ⟨⟨k', tr⟩, hmem, heq⟩
    simp only [Prod.mk.injEq] at heq
    obtain ⟨h1, h2⟩ := heq
    subst h1
    exact ⟨tr, hmem, h2.symm⟩
  · rintro ⟨tr, hmem, heq⟩
    exact ⟨(k, tr), hmem, by rw [heq]⟩

theorem pathLabel_closeHeap (s : List Nat) (h : List Node) (v : Nat) (w : List Nat) :
    PathLabel s (closeHeap s.length h) v w ↔ PathLabel s h v w := by
  constructor
  · intro hp
    induction hp with
    | root => exact PathLabel.root
    | edge u q k w nd1 tr1 _ hu hmem hq ih =>
      rw [getElem?_closeHeap] at hu
      cases hn : h[u]? with
      | none => rw [hn] at hu; cases hu
      | some nd =>
        rw [hn] at hu
        simp only [Option.map_some', Option.some.injEq] at hu
        subst hu
        obtain ⟨tr, hmem', heq⟩ := mem_closeEnds.1 hmem
        subst heq
        rw [edgeLabel_closeEdge]
        rw [closeEdge_node] at hq
        exact PathLabel.edge u q k w nd tr ih hn hmem' hq
  · intro hp
    induction hp with
    | root => exact PathLabel.root
    | edge u q k w nd tr _ hu hmem hq ih =>
      rw [← edgeLabel_closeEdge]
      refine PathLabel.edge u q k w (closeNode s.length nd) (closeEdge s.length tr) ih ?_ ?_ ?_
      · rw [getElem?_closeHeap, hu]; rfl
      · exact mem_closeEnds.2 ⟨tr, hmem, rfl⟩
      · rw [closeEdge_node]; exact hq

/-- The initial heap, the heaps during the construction and the finished
heap all satisfy the invariant, the last one up to fixed ends. -/
theorem snapshots_good {s : List Nat} (hn : 0 ∉ s) :
    ∀ t ∈ snapshots s, SnapHeap s t.heap := by
  obtain ⟨t1, L, lab, h1, h2, h3, h4, h5, h6, h7⟩ := build_eq hn
  intro t ht
  unfold snapshots at ht
  rcases List.mem_cons.1 ht with h8 | h8
  · rw [h8]
    exact Or.inl ⟨0, 0, _, none, TreeInv.init hn⟩
  · rcases List.mem_append.1 h8 with h9 | h9
    · exact Or.inl (h7 t h9)
    · rw [h6] at h9
      simp only [List.mem_singleton] at h9
      rw [h9]
      exact Or.inr ⟨t1.heap, ⟨_, _, _, _, h2.tree⟩, rfl⟩

/-! ## The finished tree -/

/-- Two nodes with the same word are the same node. -/
theorem TreeInv.lab_inj {s : List Nat} {i L : Nat} {lab : Nat → List Nat} {h : List Node}
    {prev : Option Nat} (hI : TreeInv s i L lab h prev) {u v : Nat} (hu : u < h.length)
    (hv : v < h.length) (e : lab u = lab v) : u = v := by
  have h1 := hI.reach u hu
  have h2 := hI.reach v hv
  rw [e, h2] at h1
  injection h1 with h1
  injection h1 with h1
  exact h1.symm

theorem TreeInv.root_not_leaf {s : List Nat} {i L : Nat} {lab : Nat → List Nat} {h : List Node}
    {prev : Option Nat} (hI : TreeInv s i L lab h prev) (hi : 1 ≤ i) : leafAt h 0 = false := by
  have hc := hI.complete 0 1 (by omega) (Or.inl hi)
  have hlen : 0 < s.length := by have := hI.bound.2.1; omega
  obtain ⟨x, hx⟩ : ∃ x, s[0]? = some x := ⟨s[0], List.getElem?_eq_getElem hlen⟩
  rw [seg_cons s (by omega) hx, seg_self] at hc
  unfold locus at hc
  rw [walk_cons] at hc
  cases hl : leafAt h 0 with
  | false => rfl
  | true => rw [step_leaf hl] at hc; simp at hc

/-- A node that is not a leaf has a child with a strictly longer word. -/
theorem TreeInv.extend {s : List Nat} {i L : Nat} {lab : Nat → List Nat} {h : List Node}
    {prev : Option Nat} (hI : TreeInv s i L lab h prev) {u : Nat} (hu : u < h.length)
    (hl : leafAt h u = false) : ∃ q X, q < h.length ∧ X ≠ [] ∧ lab q = lab u ++ X := by
  have hk : keysAt h u ≠ [] := fun e => by rw [(leafAt_true_iff hu).2 e] at hl; cases hl
  obtain ⟨k, hk⟩ := List.exists_mem_of_ne_nil _ hk
  obtain ⟨tr, he⟩ := Option.isSome_iff_exists.1 ((edgeAt_isSome_iff h u k).2 hk)
  obtain ⟨q, hq, hqlt, hq0, hlt, hle, hkey, hlabq, _, _⟩ := hI.edge u k tr he
  refine ⟨q, _, hqlt, ?_, hlabq⟩
  intro e
  have := congrArg List.length e
  rw [seg_length s hle] at this
  simp at this
  omega

/-- The word of a node other than the root is not empty. -/
theorem TreeInv.lab_ne_nil {s : List Nat} {i L : Nat} {lab : Nat → List Nat} {h : List Node}
    {prev : Option Nat} (hI : TreeInv s i L lab h prev) {u : Nat} (hu : u < h.length)
    (hu0 : u ≠ 0) : lab u ≠ [] := by
  intro e
  apply hu0
  apply hI.lab_inj hu hI.root.1
  rw [e, hI.root.2]

/-- In a valid text no segment properly extends a suffix. -/
theorem ValidText.no_extend {s : List Nat} (hv : ValidText s) {j a b : Nat} {X : List Nat}
    (hj : j < s.length) (hab : a ≤ b) (hb : b ≤ s.length) (hX : X ≠ [])
    (e : seg s a b = seg s j s.length ++ X) : False := by
  obtain ⟨-, hA, hlen⟩ := seg_suffix_eq hb hab e
  have hx : 0 < X.length := List.length_pos.2 hX
  exact hv.no_repeat hj (by omega : a ≤ b - X.length) (by omega) hA

/-- In the tree of a valid text, every suffix that has been inserted ends at
a leaf. -/
theorem TreeInv.suffix_leaf {s : List Nat} {L : Nat} {lab : Nat → List Nat} {h : List Node}
    (hI : TreeInv s s.length L lab h none) (hv : ValidText s) {j : Nat} (hj : j < L) :
    ∃ v, v < h.length ∧ leafAt h v = true ∧ lab v = seg s j s.length := by
  have hjn : j < s.length := by have := hI.bound.2.2; omega
  have hc := hI.complete j s.length (by omega) (Or.inl (Nat.le_refl _))
  obtain ⟨p, hloc⟩ := Option.isSome_iff_exists.1 hc
  have hp := hI.pos hloc
  rcases hp.2 with ⟨_, _, hw⟩ | ⟨hl, tr, he, hlt, hw⟩
  · cases hleaf : leafAt h p.node with
    | true => exact ⟨p.node, hp.1, hleaf, hw.symm⟩
    | false =>
      exfalso
      obtain ⟨q, X, hq, hX, hlabq⟩ := hI.extend hp.1 hleaf
      obtain ⟨a, b, hab, -, hb, hlab⟩ := hI.node_seg hq
      rw [hlab, ← hw] at hlabq
      exact hv.no_extend hjn hab hb hX hlabq
  · exfalso
    obtain ⟨q, hq, hqlt, hq0, hlt2, hle, hkey, hlabq, _, _⟩ := hI.edge _ _ tr he
    obtain ⟨a, b, hab, -, hb, hlab⟩ := hI.node_seg hqlt
    rw [← seg_append s (Nat.le_add_right tr.start p.length) (Nat.le_of_lt hlt),
      ← List.append_assoc, ← hw, hlab] at hlabq
    refine hv.no_extend hjn hab hb ?_ hlabq
    intro e
    have := congrArg List.length e
    rw [seg_length s hle] at this
    simp at this
    omega

/-- What the constructor returns for a text without NUL: the tree that
satisfies the invariant at the end of the text, with every open end fixed. -/
theorem build_spec {s : List Nat} (hn : 0 ∉ s) :
    ∃ t h L lab, build s = some t ∧ t.heap = closeHeap s.length h ∧
      TreeInv s s.length L lab h none ∧ (ValidText s → L = s.length) := by
  obtain ⟨t1, L, lab, _, h2, _, _, h5, h6, _⟩ := build_eq hn
  exact ⟨_, t1.heap, L, lab, h6, rfl, h2.tree, h5⟩

theorem desc_closeHeap (size : Nat) (h : List Node) (v u : Nat) :
    Desc h v u → Desc (closeHeap size h) v u := by
  intro hd
  induction hd with
  | refl => exact Desc.refl
  | child u k q tr _ he hq ih =>
    refine Desc.child u k q (closeEdge size tr) ih ?_ ?_
    · rw [edgeAt_closeHeap, he]; rfl
    · rw [closeEdge_node]; exact hq

theorem firstSymbols_closeNode (s : List Nat) (size : Nat) (nd : Node) :
    firstSymbols s (closeNode size nd) = firstSymbols s nd := by
  unfold firstSymbols closeNode closeEnds
  rw [List.map_map]
  apply List.map_congr_left
  intro e _
  simp only [Function.comp, closeEdge_start]

theorem keysMatch_closeHeap {s : List Nat} {h : List Node} (size : Nat) (hk : keysMatch s h) :
    keysMatch s (closeHeap size h) := by
  intro nd1 hnd1 e1 he1
  unfold closeHeap at hnd1
  obtain ⟨nd, hnd, rfl⟩ := List.mem_map.1 hnd1
  obtain ⟨k, tr1⟩ := e1
  obtain ⟨tr, hmem, rfl⟩ := mem_closeEnds.1 he1
  rw [closeEdge_start]
  exact hk nd hnd (k, tr) hmem

/-- In a heap that satisfies the invariant every edge is stored under the
first symbol of its label, and the first symbols at a node are distinct. -/
theorem GoodHeap.keys {s : List Nat} {h : List Node} (hg : GoodHeap s h) :
    keysMatch s h ∧ ∀ nd ∈ h, (firstSymbols s nd).Nodup := by
  obtain ⟨i, L, lab, prev, hI⟩ := hg
  have key : ∀ nd ∈ h, ∀ e ∈ nd.to_, charAt s e.2.start = some e.1 := by
    intro nd hnd e he
    obtain ⟨u, hu⟩ := List.mem_iff_getElem?.1 hnd
    have hnodup : (nd.to_.map Prod.fst).Nodup := by rw [← keysAt_eq hu]; exact hI.nodup u
    obtain ⟨k, tr⟩ := e
    have hedge : edgeAt h u k = some tr := by
      rw [edgeAt_eq hu]; exact mapFind_of_mem_nodup hnodup he
    obtain ⟨q, _, _, _, hlt, hle, hkey, _⟩ := hI.edge u k tr hedge
    have hs : tr.start < s.length := by omega
    exact (charAt_of_lt hs).trans hkey
  refine ⟨key, ?_⟩
  intro nd hnd
  obtain ⟨u, hu⟩ := List.mem_iff_getElem?.1 hnd
  have hnodup : (nd.to_.map Prod.fst).Nodup := by rw [← keysAt_eq hu]; exact hI.nodup u
  have e : firstSymbols s nd = (nd.to_.map Prod.fst).map some := by
    unfold firstSymbols
    rw [List.map_map]
    apply List.map_congr_left
    intro e he
    exact key nd hnd e he
  rw [e]
  exact hnodup.map (Option.some_injective _)

theorem SnapHeap.keys_snap {s : List Nat} {h : List Node} (hg : SnapHeap s h) :
    keysMatch s h ∧ ∀ nd ∈ h, (firstSymbols s nd).Nodup := by
  rcases hg with hg | ⟨h0, hg, rfl⟩
  · exact hg.keys
  · refine ⟨keysMatch_closeHeap _ hg.keys.1, ?_⟩
    intro nd1 hnd1
    unfold closeHeap at hnd1
    obtain ⟨nd, hnd, rfl⟩ := List.mem_map.1 hnd1
    rw [firstSymbols_closeNode]
    exact hg.keys.2 nd hnd

/-- In a heap that satisfies the invariant the word of the target of a
suffix link is the word of its source without the first symbol. -/
theorem GoodHeap.link_label {s : List Nat} {h : List Node} (hg : GoodHeap s h) {v w : Nat}
    (hl : linkAt h v = some w) :
    ∃ x α, PathLabel s h v (x :: α) ∧ PathLabel s h w α ∧
      (∀ β, PathLabel s h v β → β = x :: α) ∧ (∀ β, PathLabel s h w β → β = α) := by
  obtain ⟨i, L, lab, prev, hI⟩ := hg
  obtain ⟨hw, _, _, x, hx⟩ := hI.link v w hl
  have hv : v < h.length := by
    unfold linkAt at hl
    cases hn : h[v]? with
    | none => rw [hn] at hl; cases hl
    | some nd => exact (List.getElem?_eq_some_iff.1 hn).1
  refine ⟨x, lab w, ?_, hI.pathLabel_exists hw, ?_, ?_⟩
  · rw [← hx]; exact hI.pathLabel_exists hv
  · intro β hβ; rw [← hx]; exact (hI.pathLabel_unique hβ).2
  · intro β hβ; exact (hI.pathLabel_unique hβ).2

theorem SnapHeap.link_label_snap {s : List Nat} {h : List Node} (hg : SnapHeap s h) {v w : Nat}
    (hl : linkAt h v = some w) :
    ∃ x α, PathLabel s h v (x :: α) ∧ PathLabel s h w α ∧
      (∀ β, PathLabel s h v β → β = x :: α) ∧ (∀ β, PathLabel s h w β → β = α) := by
  rcases hg with hg | ⟨h0, hg, rfl⟩
  · exact hg.link_label hl
  · rw [linkAt_closeHeap] at hl
    simp only [pathLabel_closeHeap]
    exact hg.link_label hl

/-! ## The claims about the finished tree and the construction -/

/-- C1: for every valid text `s` (non-empty, without NUL, whose last symbol
occurs nowhere else) the constructor (`Initialize`: `AddSuffix` for each
index, then `FinishString`) returns a tree with exactly `s.length` leaves,
a leaf being a node with no outgoing edges; every node of the heap is a node
of that tree. -/
theorem build_leafCount (s : List Nat) (hv : ValidText s) :
    ∃ t, build s = some t ∧ leafCount t.heap = s.length ∧
      ∀ v, v < t.heap.length → Desc t.heap 0 v := by
  obtain ⟨t, h, L, lab, hb, ht, hI, hL⟩ := build_spec hv.2.1
  have hL := hL hv
  subst hL
  have hpos : 1 ≤ s.length := by
    have := List.length_pos.2 hv.1
    omega
  refine ⟨t, hb, ?_, ?_⟩
  · rw [ht, leafCount_closeHeap, hI.count, hI.root_not_leaf hpos]
    simp
  · intro v hlt
    rw [ht] at hlt ⊢
    rw [length_closeHeap] at hlt
    exact desc_closeHeap _ _ _ _ (hI.desc hlt)

theorem build_leafCount_witness :
    ValidText [97, 98, 97, 36] ∧ ∃ t, build [97, 98, 97, 36] = some t ∧
      leafCount t.heap = [97, 98, 97, 36].length ∧
      ∀ v, v < t.heap.length → Desc t.heap 0 v :=
  ⟨by decide, build_leafCount [97, 98, 97, 36] (by decide)⟩

theorem fixedPathLabel_closeHeap (s : List Nat) (h : List Node) (v : Nat) (w : List Nat) :
    FixedPathLabel s (closeHeap s.length h) v w ↔ PathLabel s h v w := by
  constructor
  · intro hp
    induction hp with
    | root => exact PathLabel.root
    | edge u q k e w nd1 tr1 _ hu hmem hq hend ih =>
      rw [getElem?_closeHeap] at hu
      cases hn : h[u]? with
      | none => rw [hn] at hu; cases hu
      | some nd =>
        rw [hn] at hu
        simp only [Option.map_some', Option.some.injEq] at hu
        subst hu
        obtain ⟨tr, hmem', heq⟩ := mem_closeEnds.1 hmem
        subst heq
        rw [closeEdge_end] at hend
        injection hend with hend
        rw [closeEdge_node] at hq
        rw [closeEdge_start, ← hend]
        exact PathLabel.edge u q k w nd tr ih hn hmem' hq
  · intro hp
    induction hp with
    | root => exact FixedPathLabel.root
    | edge u q k w nd tr _ hu hmem hq ih =>
      have := FixedPathLabel.edge u q k (tr.end_.getD s.length) w (closeNode s.length nd)
        (closeEdge s.length tr) ih (by rw [getElem?_closeHeap, hu]; rfl)
        (mem_closeEnds.2 ⟨tr, hmem, rfl⟩) (by rw [closeEdge_node]; exact hq)
        (closeEdge_end _ _)
      rw [closeEdge_start] at this
      exact this

theorem closed_closeHeap (size : Nat) (h : List Node) :
    ∀ nd ∈ closeHeap size h, ∀ e ∈ nd.to_, e.2.end_ ≠ none := by
  intro nd1 hnd1 e1 he1
  unfold closeHeap at hnd1
  obtain ⟨nd, hnd, rfl⟩ := List.mem_map.1 hnd1
  obtain ⟨k, tr1⟩ := e1
  obtain ⟨tr, hmem, rfl⟩ := mem_closeEnds.1 he1
  exact closeEdge_closed size tr

/-- C2: for every valid text `s` and every offset `i < s.length`, every
transition of the finished tree has a fixed end, and the tree has exactly one
leaf such that the labels `s[start, end)` of the transitions along the path
from the root to it, each read up to its own fixed `end`, concatenate to the
suffix of `s` that starts at `i`. -/
theorem build_suffix_leaf (s : List Nat) (i : Nat) (hv : ValidText s) (hi : i < s.length) :
    ∃ t, build s = some t ∧ (∀ nd ∈ t.heap, ∀ e ∈ nd.to_, e.2.end_ ≠ none) ∧
      ∃! v, leafAt t.heap v = true ∧ FixedPathLabel s t.heap v (s.drop i) := by
  obtain ⟨t, h, L, lab, hb, ht, hI, hL⟩ := build_spec hv.2.1
  have hL := hL hv
  subst hL
  obtain ⟨v, hlt, hleaf, hlab⟩ := hI.suffix_leaf hv hi
  refine ⟨t, hb, by rw [ht]; exact closed_closeHeap _ _, v, ⟨?_, ?_⟩, ?_⟩
  · rw [ht, leafAt_closeHeap]; exact hleaf
  · rw [ht, fixedPathLabel_closeHeap, ← seg_full, ← hlab]
    exact hI.pathLabel_exists hlt
  · rintro v1 ⟨-, hp⟩
    rw [ht, fixedPathLabel_closeHeap] at hp
    obtain ⟨hlt1, e⟩ := hI.pathLabel_unique hp
    apply hI.lab_inj hlt1 hlt
    rw [← e, hlab, seg_full]

theorem build_suffix_leaf_witness :
    ValidText [97, 98, 97, 36] ∧ 2 < [97, 98, 97, 36].length ∧
      ∃ t, build [97, 98, 97, 36] = some t ∧
        (∀ nd ∈ t.heap, ∀ e ∈ nd.to_, e.2.end_ ≠ none) ∧
        ∃! v, leafAt t.heap v = true ∧
          FixedPathLabel [97, 98, 97, 36] t.heap v ([97, 98, 97, 36].drop 2) :=
  ⟨by decide, by decide, build_suffix_leaf [97, 98, 97, 36] 2 (by decide) (by decide)⟩

/-- C3, counterexample: `"aab$"` is a valid text, and in its finished tree
the node reached from the root through `'a'` is not the root, has outgoing
edges, and its `suffix_link` is null. -/
theorem aab_internal_node_without_link :
    ValidText [97, 97, 98, 36] ∧ ∃ t, build [97, 97, 98, 36] = some t ∧
      ∃ v, childAt t.heap 0 97 = some v ∧ v ≠ 0 ∧ v < t.heap.length ∧
        leafAt t.heap v = false ∧ linkAt t.heap v = none := by
  refine ⟨by decide, ?_⟩
  have h : ∃ t ∈ build [97, 97, 98, 36], ∃ v ∈ childAt t.heap 0 97,
      v ≠ 0 ∧ v < t.heap.length ∧ leafAt t.heap v = false ∧ linkAt t.heap v = none := by
    decide
  obtain ⟨t, ht, v, hv, h1⟩ := h
  exact ⟨t, ht, v, hv, h1⟩

/-- C3, amended: for every valid text, in the finished tree an internal node
other than the root has a non-null `suffix_link` exactly when its path label
has at least two symbols; an internal node whose path label is one symbol
keeps the null link (which `AddSuffix` reads as the root). -/
theorem build_suffix_link_iff (s : List Nat) (hv : ValidText s) :
    ∃ t, build s = some t ∧
      ∀ v w, v ≠ 0 → leafAt t.heap v = false → PathLabel s t.heap v w →
        ((linkAt t.heap v).isSome = true ↔ 2 ≤ w.length) := by
  obtain ⟨t, h, L, lab, hb, ht, hI, -⟩ := build_spec hv.2.1
  refine ⟨t, hb, ?_⟩
  intro v w hv0 hleaf hp
  rw [ht] at hleaf hp ⊢
  rw [leafAt_closeHeap] at hleaf
  rw [pathLabel_closeHeap] at hp
  rw [linkAt_closeHeap]
  obtain ⟨hlt, e⟩ := hI.pathLabel_unique hp
  subst e
  constructor
  · intro hsome
    obtain ⟨x, hx⟩ := Option.isSome_iff_exists.1 hsome
    obtain ⟨hxlt, hx0, -, y, hy⟩ := hI.link v x hx
    have hne := hI.lab_ne_nil hxlt hx0
    have := List.length_pos.2 hne
    rw [hy, List.length_cons]
    omega
  · intro hlen
    cases hl : linkAt h v with
    | some x => rfl
    | none =>
      rcases hI.nolink v hlt hv0 hleaf hl with h1 | h1
      · omega
      · cases h1

theorem build_suffix_link_iff_witness :
    ValidText [97, 97, 98, 36] ∧ ∃ t, build [97, 97, 98, 36] = some t ∧
      ∀ v w, v ≠ 0 → leafAt t.heap v = false → PathLabel [97, 97, 98, 36] t.heap v w →
        ((linkAt t.heap v).isSome = true ↔ 2 ≤ w.length) :=
  ⟨by decide, build_suffix_link_iff [97, 97, 98, 36] (by decide)⟩

/-- C4: for every text without NUL, in every tree observable during and
after the construction, whenever a node `v` has a non-null `suffix_link`
`w`, the node `v` has the one path label `x :: α` and `w` has the one path
label `α`: the path label of `w` is that of `v` without its first symbol. -/
theorem snapshots_suffix_link_label (s : List Nat) (hn : 0 ∉ s) (t : SuffixTree)
    (ht : t ∈ snapshots s) (v w : Nat) (hl : linkAt t.heap v = some w) :
    ∃ x α, PathLabel s t.heap v (x :: α) ∧ PathLabel s t.heap w α ∧
      (∀ β, PathLabel s t.heap v β → β = x :: α) ∧ (∀ β, PathLabel s t.heap w β → β = α) :=
  (snapshots_good hn t ht).link_label_snap hl

/-- C5, counterexample: the empty text and the text `"aa"`, whose last
symbol also occurs earlier, are not valid, yet the constructor returns a tree
for both, and for `"aa"` a node and an edge have been added to the root. -/
theorem build_accepts_invalid_text :
    ¬ ValidText [] ∧ (∃ t, build [] = some t) ∧
      ¬ ValidText [97, 97] ∧ (∃ x ∈ [97, 97].getLast?, x ∈ [97, 97].dropLast) ∧
      ∃ t, build [97, 97] = some t ∧ keysAt t.heap 0 = [97] ∧ t.heap.length = 2 := by
  refine ⟨by decide, ⟨_, rfl⟩, by decide, by decide, ?_⟩
  have h : ∃ t ∈ build [97, 97], keysAt t.heap 0 = [97] ∧ t.heap.length = 2 := by decide
  obtain ⟨t, ht, h1⟩ := h
  exact ⟨t, ht, h1⟩

/-- C5, amended: for every text without NUL that is empty or whose last
symbol also occurs earlier, the constructor reports no failure and builds a
tree as for any other text: the root stays without edges only for the empty
text. -/
theorem build_no_validation (s : List Nat) (hn : 0 ∉ s)
    (hbad : s = [] ∨ ∃ x ∈ s.getLast?, x ∈ s.dropLast) :
    ∃ t, build s = some t ∧ (keysAt t.heap 0 = [] ↔ s = []) := by
  obtain ⟨t, h, L, lab, hb, ht, hI, -⟩ := build_spec hn
  refine ⟨t, hb, ?_⟩
  rw [ht, keysAt_closeHeap, ← leafAt_true_iff hI.root.1]
  constructor
  · intro hleaf
    cases hs : s with
    | nil => rfl
    | cons a r =>
      have hpos : 1 ≤ s.length := by rw [hs]; simp
      rw [hI.root_not_leaf hpos] at hleaf
      cases hleaf
  · intro hs
    subst hs
    cases hleaf : leafAt h 0 with
    | true => rfl
    | false =>
      obtain ⟨q, X, hq, hX, hlabq⟩ := hI.extend hI.root.1 hleaf
      obtain ⟨a, b, hab, -, hb2, hlab⟩ := hI.node_seg hq
      rw [hlab] at hlabq
      have := congrArg List.length hlabq
      rw [seg_length _ hb2] at this
      have hx := List.length_pos.2 hX
      simp at this hb2
      omega

theorem build_no_validation_witness :
    0 ∉ [97, 98, 97] ∧ ([97, 98, 97] = [] ∨ ∃ x ∈ [97, 98, 97].getLast?, x ∈ [97, 98, 97].dropLast) ∧
      ∃ t, build [97, 98, 97] = some t ∧ (keysAt t.heap 0 = [] ↔ [97, 98, 97] = []) :=
  ⟨by decide, by decide, build_no_validation [97, 98, 97] (by decide) (by decide)⟩

/-- C8, counterexample: for the text `[2, 2, 0, 1, 1, 0, 1, 2]`, which
contains NUL, a tree observable during the construction has a node whose map
holds under the key `1` the default transition, whose `start` is `0`, while
`s[0]` is `2`. -/
theorem key_mismatch_with_nul :
    ∃ t ∈ snapshots [2, 2, 0, 1, 1, 0, 1, 2], ∃ nd ∈ t.heap,
      (1, Transition.default) ∈ nd.to_ ∧
      charAt [2, 2, 0, 1, 1, 0, 1, 2] Transition.default.start = some 2 ∧
      ¬ keysMatch [2, 2, 0, 1, 1, 0, 1, 2] t.heap := by
  decide

/-- C8, amended: for every text without NUL, in every tree observable during
and after the construction, every edge stored in a node's map under the key
`k` has a label whose first symbol is `k`, and the first symbols of the
labels of the edges of a node are pairwise distinct. -/
theorem snapshots_keysMatch (s : List Nat) (hn : 0 ∉ s) (t : SuffixTree)
    (ht : t ∈ snapshots s) :
    keysMatch s t.heap ∧ ∀ nd ∈ t.heap, (firstSymbols s nd).Nodup :=
  (snapshots_good hn t ht).keys_snap

/-- C10: the tree built for `"aab$"` has 4 leaves; the root has exactly the
3 outgoing edges keyed `'a'`, `'b'`, `'$'`; the node reached from the root
through `'a'` has exactly the 2 outgoing edges keyed `'a'` and `'b'`, each
leading to a leaf. -/
theorem build_aab :
    ∃ t, build [97, 97, 98, 36] = some t ∧ leafCount t.heap = 4 ∧
      keysAt t.heap 0 = [97, 98, 36] ∧
      ∃ v, childAt t.heap 0 97 = some v ∧ keysAt t.heap v = [97, 98] ∧
        ∃ a b, childAt t.heap v 97 = some a ∧ childAt t.heap v 98 = some b ∧
          leafAt t.heap a = true ∧ leafAt t.heap b = true := by
  have h : ∃ t ∈ build [97, 97, 98, 36], leafCount t.heap = 4 ∧
      keysAt t.heap 0 = [97, 98, 36] ∧
      ∃ v ∈ childAt t.heap 0 97, keysAt t.heap v = [97, 98] ∧
        ∃ a ∈ childAt t.heap v 97, ∃ b ∈ childAt t.heap v 98,
          leafAt t.heap a = true ∧ leafAt t.heap b = true := by
    decide
  obtain ⟨t, ht, h1, h2, v, hv, h3, a, ha, b, hb, h4⟩ := h
  exact ⟨t, ht, h1, h2, v, hv, h3, a, b, ha, hb, h4⟩

/-! ## The claims about `FinishString` -/

theorem Ranked.of_entries {rank : Nat → Nat} {bound : Nat} {h : List Node}
    (hr : RankedEntries rank bound h) : Ranked rank bound h := by
  intro u k tr he
  unfold edgeAt at he
  cases hn : h[u]? with
  | none => rw [hn] at he; cases he
  | some nd =>
    rw [hn] at he
    have hu : u < h.length := (List.getElem?_eq_some_iff.1 hn).1
    obtain ⟨q, hq, h1⟩ := hr u hu nd hn (k, tr) (mapFind_mem he)
    exact ⟨q, hq, h1⟩

theorem closeEdge_of_le {size k : Nat} {tr tr1 : Transition}
    (hle : edgeLe size (k, tr) (k, tr1)) (hc : tr1.end_ ≠ none) : tr1 = closeEdge size tr := by
  obtain ⟨-, h2, h3, h4⟩ := hle
  simp only at h2 h3 h4
  obtain ⟨n1, s1, e1⟩ := tr1
  obtain ⟨n, s, e⟩ := tr
  simp only at h2 h3 h4 hc
  subst h2 h3
  unfold closeEdge
  rcases h4 with h4 | ⟨h4, h5⟩
  · subst h4
    cases e1 with
    | none => exact absurd rfl hc
    | some x => rfl
  · subst h4 h5
    rfl

/-- C6: `FinishString` is idempotent. For every tree (a heap whose
transitions lead to nodes of strictly larger rank) and every text length
`size`, `FinishString` applied to the root returns a heap, and applied to the
root of that heap it returns the very same heap: same nodes, keys, starts,
ends and suffix links. -/
theorem FinishString_twice (size : Nat) (rank : Nat → Nat) (bound : Nat) (h : List Node)
    (hr : Ranked rank bound h) (h0 : 0 < h.length) (hb : rank 0 ≤ bound) :
    ∃ h1, FinishString size (bound + 1) h 0 = some h1 ∧
      FinishString size (bound + 1) h1 0 = some h1 := by
  obtain ⟨h1, hf⟩ := FinishString_total size rank bound (bound + 1) h 0 hr h0 hb (by omega)
  exact ⟨h1, hf, FinishString_idem size (bound + 1) h 0 h1 hf h1 (heapLe_refl size h1)⟩

theorem FinishString_twice_witness :
    RankedEntries (fun u => if u = 0 then 0 else if u = 2 then 1 else 2) 2
        [⟨[(97, ⟨some 1, 0, none⟩), (98, ⟨some 2, 1, some 2⟩)], none⟩, ⟨[], none⟩,
          ⟨[(97, ⟨some 3, 2, none⟩), (99, ⟨some 4, 3, some 5⟩)], some 0⟩, ⟨[], none⟩, ⟨[], none⟩] ∧
      ∃ h1, FinishString 5 (2 + 1)
          [⟨[(97, ⟨some 1, 0, none⟩), (98, ⟨some 2, 1, some 2⟩)], none⟩, ⟨[], none⟩,
            ⟨[(97, ⟨some 3, 2, none⟩), (99, ⟨some 4, 3, some 5⟩)], some 0⟩, ⟨[], none⟩, ⟨[], none⟩]
          0 = some h1 ∧
        FinishString 5 (2 + 1) h1 0 = some h1 :=
  ⟨by decide, FinishString_twice 5 (fun u => if u = 0 then 0 else if u = 2 then 1 else 2) 2 _
    (Ranked.of_entries (by decide)) (by decide) (by decide)⟩

/-- C7: for every tree, `FinishString` applied to the root returns a heap
with the same nodes, suffix links, keys, children and starts, in which an
end is either unchanged or was open and is now `size` (the text length);
every transition of the tree is fixed as by `closeEdge`, so a fixed end is
kept and an open end becomes `size`; and afterwards no transition of the
tree, at any depth, has an open end. -/
theorem FinishString_frame (size : Nat) (rank : Nat → Nat) (bound : Nat) (h : List Node)
    (hr : Ranked rank bound h) (h0 : 0 < h.length) (hb : rank 0 ≤ bound) :
    ∃ h1, FinishString size (bound + 1) h 0 = some h1 ∧ heapLe size h h1 ∧
      (∀ u k tr, Desc h 0 u → edgeAt h u k = some tr →
        edgeAt h1 u k = some (closeEdge size tr)) ∧
      ∀ u k tr, Desc h1 0 u → edgeAt h1 u k = some tr → tr.end_ ≠ none := by
  obtain ⟨h1, hf⟩ := FinishString_total size rank bound (bound + 1) h 0 hr h0 hb (by omega)
  obtain ⟨hle, hcl⟩ := FinishString_spec size (bound + 1) h 0 h1 hf
  refine ⟨h1, hf, hle, ?_, fun u k tr hd he => hcl u hd k tr he⟩
  intro u k tr hd he
  rcases heapLe_edgeAt hle u k with ⟨h2, _⟩ | ⟨tr0, tr1, h2, h3, h4⟩
  · rw [h2] at he; cases he
  · rw [h2] at he
    injection he with he
    subst he
    rw [h3, closeEdge_of_le h4 (hcl u ((heapLe_desc hle).1 hd) k tr1 h3)]

theorem FinishString_frame_witness :
    RankedEntries (fun u => u) 3
        [⟨[(97, ⟨some 1, 0, some 1⟩), (98, ⟨some 3, 1, none⟩)], none⟩,
          ⟨[(97, ⟨some 2, 1, none⟩)], some 0⟩, ⟨[], none⟩, ⟨[], none⟩] ∧
      ∃ h1, FinishString 4 (3 + 1)
          [⟨[(97, ⟨some 1, 0, some 1⟩), (98, ⟨some 3, 1, none⟩)], none⟩,
            ⟨[(97, ⟨some 2, 1, none⟩)], some 0⟩, ⟨[], none⟩, ⟨[], none⟩] 0 = some h1 ∧
        heapLe 4
          [⟨[(97, ⟨some 1, 0, some 1⟩), (98, ⟨some 3, 1, none⟩)], none⟩,
            ⟨[(97, ⟨some 2, 1, none⟩)], some 0⟩, ⟨[], none⟩, ⟨[], none⟩] h1 ∧
        (∀ u k tr, Desc
            [⟨[(97, ⟨some 1, 0, some 1⟩), (98, ⟨some 3, 1, none⟩)], none⟩,
              ⟨[(97, ⟨some 2, 1, none⟩)], some 0⟩, ⟨[], none⟩, ⟨[], none⟩] 0 u →
          edgeAt
            [⟨[(97, ⟨some 1, 0, some 1⟩), (98, ⟨some 3, 1, none⟩)], none⟩,
              ⟨[(97, ⟨some 2, 1, none⟩)], some 0⟩, ⟨[], none⟩, ⟨[], none⟩] u k = some tr →
          edgeAt h1 u k = some (closeEdge 4 tr)) ∧
        ∀ u k tr, Desc h1 0 u → edgeAt h1 u k = some tr → tr.end_ ≠ none :=
  ⟨by decide, FinishString_frame 4 (fun u => u) 3 _ (Ranked.of_entries (by decide)) (by decide) (by decide)⟩

theorem snapshots_suffix_link_label_witness :
    0 ∉ [97, 98, 97, 98, 36] ∧ ∃ t ∈ snapshots [97, 98, 97, 98, 36],
      linkAt t.heap 3 = some 5 ∧
      ∃ x α, PathLabel [97, 98, 97, 98, 36] t.heap 3 (x :: α) ∧
        PathLabel [97, 98, 97, 98, 36] t.heap 5 α ∧
        (∀ β, PathLabel [97, 98, 97, 98, 36] t.heap 3 β → β = x :: α) ∧
        (∀ β, PathLabel [97, 98, 97, 98, 36] t.heap 5 β → β = α) := by
  have h : ∃ t ∈ snapshots [97, 98, 97, 98, 36], linkAt t.heap 3 = some 5 := by decide
  obtain ⟨t, ht, hl⟩ := h
  exact ⟨by decide, t, ht, hl,
    snapshots_suffix_link_label [97, 98, 97, 98, 36] (by decide) t ht 3 5 hl⟩

theorem snapshots_keysMatch_witness :
    0 ∉ [97, 98, 97, 98, 36] ∧ ∃ t ∈ snapshots [97, 98, 97, 98, 36],
      t.heap.length = 7 ∧ keysMatch [97, 98, 97, 98, 36] t.heap ∧
        ∀ nd ∈ t.heap, (firstSymbols [97, 98, 97, 98, 36] nd).Nodup := by
  have h : ∃ t ∈ snapshots [97, 98, 97, 98, 36], t.heap.length = 7 := by decide
  obtain ⟨t, ht, hl⟩ := h
  exact ⟨by decide, t, ht, hl, snapshots_keysMatch [97, 98, 97, 98, 36] (by decide) t ht⟩

/-! ## Texts with pairwise distinct symbols -/

theorem mapFind_star_none {s : List Nat} (hd : s.Nodup) {k : Nat} (hk : k < s.length)
    (e : Option Nat) :
    mapFind ((List.range k).map fun i => (s.getD i 0, (⟨some (i + 1), i, e⟩ : Transition)))
      (s.getD k 0) = none := by
  rw [mapFind_eq_none_iff]
  intro hmem
  rw [List.map_map] at hmem
  obtain ⟨i, hi, heq⟩ := List.mem_map.1 hmem
  rw [List.mem_range] at hi
  simp only [Function.comp] at heq
  rw [List.getD_eq_getElem s 0 (by omega), List.getD_eq_getElem s 0 hk] at heq
  have := (List.Nodup.getElem_inj_iff hd).1 heq
  omega

theorem starHeap_succ (s : List Nat) (k : Nat) :
    setNode (starHeap s none k) 0
        { to_ := ((List.range k).map fun i => (s.getD i 0, (⟨some (i + 1), i, none⟩ : Transition))) ++
            [(s.getD k 0, ⟨some (k + 1), k, none⟩)],
          suffix_link := none } ++ [⟨[], none⟩] = starHeap s none (k + 1) := by
  unfold starHeap setNode
  rw [List.range_succ, List.map_append, List.replicate_succ']
  rfl

theorem AddSuffix_star {s : List Nat} (hd : s.Nodup) {k : Nat} (hk : k < s.length) :
    AddSuffix (starState s k) (s.getD k 0) k = some (starState s (k + 1)) := by
  have hfind := mapFind_star_none hd hk none
  have hN : NeedToSplit { starState s k with remainder := 1 } (s.getD k 0) = some true := by
    unfold NeedToSplit
    simp only [starState, starHeap, List.getElem?_cons_zero, hfind, ne_eq, not_true_eq_false,
      if_false, Option.isNone_none]
  have hL : leafBranch { starState s k with remainder := 1 } (s.getD k 0) k none =
      some { starState s (k + 1) with remainder := 1 } := by
    unfold leafBranch
    simp only [starState, starHeap, List.getElem?_cons_zero, hfind, mapEmplace,
      List.length_cons, List.length_replicate]
    have hs := starHeap_succ s k
    unfold starHeap at hs
    rw [hs]
  have hA : advance { starState s (k + 1) with remainder := 1 } k = some (starState s (k + 1)) := by
    unfold advance
    simp [starState]
  have hB : loopBody (s.getD k 0) k { starState s k with remainder := 1 } none =
      some (starState s (k + 1), none, false) := by
    unfold loopBody
    rw [hN]
    simp only
    have hc : ¬ ({ starState s k with remainder := 1 } : SuffixTree).ap.c ≠ 0 := by
      simp [starState]
    rw [if_neg hc, hL]
    simp only
    rw [hA]
    simp only
    rw [FLO_zero _ _ rfl]
  unfold AddSuffix
  have e : ({ starState s k with remainder := (starState s k).remainder + 1 } : SuffixTree) =
      { starState s k with remainder := 1 } := rfl
  rw [e]
  have e2 : (starState s k).remainder + 1 = 0 + 1 := rfl
  rw [e2]
  unfold AddSuffixLoop
  rw [if_pos (by show 1 > 0; omega), hB]
  simp only
  unfold AddSuffixLoop
  rw [if_neg (by show ¬ 0 > 0; omega)]

theorem addAll_star {s : List Nat} (hd : s.Nodup) :
    ∀ (m k : Nat), k + m = s.length →
      addAll (s.drop k) k (starState s k) = some (starState s s.length) := by
  intro m
  induction m with
  | zero =>
    intro k hk
    have : k = s.length := by omega
    subst this
    rw [List.drop_length]
    rfl
  | succ m ih =>
    intro k hk
    have hlt : k < s.length := by omega
    rw [List.drop_eq_getElem_cons hlt]
    unfold addAll
    rw [← List.getD_eq_getElem s 0 hlt, AddSuffix_star hd hlt]
    exact ih (k + 1) (by omega)

theorem closeHeap_star (s : List Nat) (size k : Nat) :
    closeHeap size (starHeap s none k) = starHeap s (some size) k := by
  unfold closeHeap starHeap
  rw [List.map_cons, List.map_replicate]
  congr 1
  unfold closeNode closeEnds
  simp only [List.map_map]
  congr 1

theorem leafCount_star (s : List Nat) (e : Option Nat) {k : Nat} (hk : 0 < k) :
    leafCount (starHeap s e k) = k := by
  unfold leafCount starHeap
  rw [List.countP_cons_of_neg, List.countP_replicate]
  · simp [Node.isLeaf]
  · simp only [Node.isLeaf, List.isEmpty_eq_true, List.map_eq_nil_iff, List.range_eq_nil]
    omega

/-- C9, counterexample: the empty text has pairwise distinct symbols, none
of them NUL, and its finished tree is the root alone, which has no outgoing
edge: one leaf, while the text has length `0`. -/
theorem empty_text_one_leaf :
    ([] : List Nat).Nodup ∧ 0 ∉ ([] : List Nat) ∧
      ∃ t, build [] = some t ∧ t.heap = [⟨[], none⟩] ∧ leafCount t.heap = 1 ∧
        leafCount t.heap ≠ ([] : List Nat).length :=
  ⟨List.nodup_nil, by decide, _, rfl, rfl, rfl, by decide⟩

/-- C9, amended: for every non-empty text `s` whose symbols are pairwise
distinct and not NUL, the finished tree is the star: the root has exactly
`s.length` outgoing edges, the one for index `i` keyed by `s[i]`, with label
`[i, s.length)` and leading to a node of its own without outgoing edges;
there is no other node, and the leaves are `s.length` in total. -/
theorem build_distinct (s : List Nat) (hd : s.Nodup) (hn : 0 ∉ s) (hne : s ≠ []) :
    ∃ t, build s = some t ∧ t.heap = starHeap s (some s.length) s.length ∧
      leafCount t.heap = s.length := by
  obtain ⟨t1, L, lab, h1, _, _, _, _, h6, _⟩ := build_eq hn
  have h2 := addAll_star hd s.length 0 (by omega)
  rw [List.drop_zero] at h2
  have e : ({ SuffixTree.init s with node_count := 1 } : SuffixTree) = starState s 0 := rfl
  rw [e, h2] at h1
  injection h1 with h1
  subst h1
  refine ⟨_, h6, ?_, ?_⟩
  · exact closeHeap_star s s.length s.length
  · show leafCount (closeHeap s.length (starHeap s none s.length)) = s.length
    rw [closeHeap_star]
    exact leafCount_star s _ (List.length_pos.2 hne)

theorem build_distinct_witness :
    [97, 98, 36].Nodup ∧ 0 ∉ [97, 98, 36] ∧ [97, 98, 36] ≠ [] ∧
      ∃ t, build [97, 98, 36] = some t ∧
        t.heap = starHeap [97, 98, 36] (some [97, 98, 36].length) [97, 98, 36].length ∧
        leafCount t.heap = [97, 98, 36].length :=
  ⟨by decide, by decide, by decide,
    build_distinct [97, 98, 36] (by decide) (by decide) (by decide)⟩

/-! ## The invariant along the passes of the extension loop -/

theorem loopPasses_inv {s : List Nat} (Q : List Node → Prop)
    (hQ : ∀ p, PassInv s p → Q p.pre.heap → Q p.post.heap)
    {i : Nat} (hi : i < s.length) {c : Nat} (hc : s[i]? = some c) :
    ∀ (fuel : Nat) (L : Nat) (lab : Nat → List Nat) (t : SuffixTree) (prev : Option Nat),
      Inv s i L lab t prev → t.remainder = i + 1 - L → t.remainder ≤ fuel → Q t.heap →
      (∀ p ∈ loopPasses c i fuel t prev, PassInv s p ∧ Q p.pre.heap ∧ Q p.post.heap) ∧
        ∀ t1, AddSuffixLoop c i fuel t prev = some t1 → Q t1.heap := by
  intro fuel
  induction fuel with
  | zero =>
    intro L lab t prev hI hr hf hq
    constructor
    · intro p hp
      unfold loopPasses at hp
      cases hp
    · intro t1 h1
      unfold AddSuffixLoop at h1
      have : ¬ t.remainder > 0 := by omega
      rw [if_neg this] at h1
      injection h1 with h1
      rw [← h1]
      exact hq
  | succ fuel ih =>
    intro L lab t prev hI hr hf hq
    by_cases hrem : t.remainder > 0
    · have hL : L ≤ i := by omega
      obtain ⟨t1, prev1, brk, lab1, hbody, hcase⟩ := hI.body hL hi hc hr
      have hP : PassInv s ⟨i, c, t, prev, t1, brk⟩ := by
        refine ⟨L, lab, lab1, prev1, hi, hc, hL, hI, hr, hbody, ?_⟩
        rcases hcase with ⟨hb, hI1, hr1⟩ | ⟨hb, hI1, hr1, _⟩
        · exact Or.inl ⟨hb, hI1, hr1⟩
        · exact Or.inr ⟨hb, hI1, hr1⟩
      have hq1 : Q t1.heap := hQ _ hP hq
      rcases hcase with ⟨hb, hI1, hr1⟩ | ⟨hb, hI1, hr1, _⟩
      · subst hb
        obtain ⟨g1, g2⟩ := ih (L + 1) lab1 t1 prev1 hI1 (by omega) (by omega) hq1
        constructor
        · intro p hp
          unfold loopPasses at hp
          rw [if_pos hrem, hbody] at hp
          simp only at hp
          rcases List.mem_cons.1 hp with h7 | h7
          · rw [h7]; exact ⟨hP, hq, hq1⟩
          · exact g1 p h7
        · intro t2 h2
          unfold AddSuffixLoop at h2
          rw [if_pos hrem, hbody] at h2
          exact g2 t2 h2
      · subst hb
        constructor
        · intro p hp
          unfold loopPasses at hp
          rw [if_pos hrem, hbody] at hp
          simp only at hp
          rw [List.mem_singleton] at hp
          rw [hp]; exact ⟨hP, hq, hq1⟩
        · intro t2 h2
          unfold AddSuffixLoop at h2
          rw [if_pos hrem, hbody] at h2
          simp only at h2
          injection h2 with h2
          rw [← h2]
          exact hq1
    · constructor
      · intro p hp
        unfold loopPasses at hp
        rw [if_neg hrem] at hp
        cases hp
      · intro t1 h1
        unfold AddSuffixLoop at h1
        rw [if_neg hrem] at h1
        injection h1 with h1
        rw [← h1]
        exact hq

theorem textPasses_inv {s : List Nat} (Q : List Node → Prop)
    (hQ : ∀ p, PassInv s p → Q p.pre.heap → Q p.post.heap) :
    ∀ (m k L : Nat) (lab : Nat → List Nat) (t : SuffixTree), m + k = s.length →
      Inv s k L lab t none → L ≤ k → t.remainder = k - L → Q t.heap →
      ∀ p ∈ textPasses (s.drop k) k t, PassInv s p ∧ Q p.pre.heap ∧ Q p.post.heap := by
  intro m
  induction m with
  | zero =>
    intro k L lab t hk hI hL hr hq p hp
    have hk' : k = s.length := by omega
    subst hk'
    rw [List.drop_length] at hp
    unfold textPasses at hp
    cases hp
  | succ m ih =>
    intro k L lab t hk hI hL hr hq p hp
    have hklt : k < s.length := by omega
    obtain ⟨c, hc⟩ : ∃ c, s[k]? = some c := ⟨_, List.getElem?_eq_getElem hklt⟩
    have hdrop : s.drop k = c :: s.drop (k + 1) := by
      rw [List.drop_eq_getElem_cons hklt]
      congr 1
      rw [List.getElem?_eq_getElem hklt] at hc
      injection hc
    obtain ⟨t1, L1, lab1, h1, h2, h3, h4, -, -⟩ := AddSuffix_inv hI hL hr hklt hc
    have hI' : Inv s k L lab { t with remainder := t.remainder + 1 } none :=
      ⟨hI.text, hI.tree, hI.active, hI.count_nodes⟩
    obtain ⟨g1, g2⟩ := loopPasses_inv Q hQ hklt hc (t.remainder + 1) L lab _ none hI'
      (by simp only; omega) (Nat.le_refl _) hq
    rw [hdrop] at hp
    unfold textPasses at hp
    rw [h1] at hp
    simp only at hp
    rcases List.mem_append.1 hp with h5 | h5
    · exact g1 p h5
    · exact ih (k + 1) L1 lab1 t1 (by omega) h2 h3 h4 (g2 t1 h1) p h5

/-- Every pass of the extension loop of a text without NUL starts and ends
with a tree satisfying the invariant; a property of heaps that the passes
keep holds throughout. -/
theorem passes_inv {s : List Nat} (hn : 0 ∉ s) (Q : List Node → Prop)
    (hQ : ∀ p, PassInv s p → Q p.pre.heap → Q p.post.heap) (hQ0 : Q [⟨[], none⟩]) :
    ∀ p ∈ passes s, PassInv s p ∧ Q p.pre.heap ∧ Q p.post.heap := by
  have := textPasses_inv Q hQ s.length 0 0 _ _ (by omega) (Inv.init_state hn) (Nat.le_refl _)
    rfl hQ0
  rw [List.drop_zero] at this
  exact this

theorem addAll_append (a b : List Nat) :
    ∀ (idx : Nat) (t : SuffixTree),
      addAll (a ++ b) idx t = (addAll a idx t).bind fun t1 => addAll b (idx + a.length) t1 := by
  induction a with
  | nil => intro idx t; rfl
  | cons c a ih =>
    intro idx t
    have e1 : addAll (c :: a ++ b) idx t = match AddSuffix t c idx with
        | none => none
        | some t1 => addAll (a ++ b) (idx + 1) t1 := rfl
    have e2 : addAll (c :: a) idx t = match AddSuffix t c idx with
        | none => none
        | some t1 => addAll a (idx + 1) t1 := rfl
    rw [e1, e2]
    cases h : AddSuffix t c idx with
    | none => rfl
    | some t1 =>
      simp only
      rw [ih (idx + 1) t1, List.length_cons]
      have : idx + 1 + a.length = idx + (a.length + 1) := by omega
      rw [this]

/-- The tree after the first `k` symbols of a text without NUL satisfies
the invariant, with `remainder` suffixes still implicit. -/
theorem prefixState_inv {s : List Nat} (hn : 0 ∉ s) (Q : List Node → Prop)
    (hQ : ∀ p, PassInv s p → Q p.pre.heap → Q p.post.heap) (hQ0 : Q [⟨[], none⟩]) :
    ∀ k, k ≤ s.length → ∃ t L lab, prefixState s k = some t ∧ Inv s k L lab t none ∧
      L ≤ k ∧ t.remainder = k - L ∧ Q t.heap := by
  intro k
  induction k with
  | zero =>
    intro _
    exact ⟨_, 0, _, rfl, Inv.init_state hn, Nat.le_refl _, rfl, hQ0⟩
  | succ k ih =>
    intro hk
    have hklt : k < s.length := by omega
    obtain ⟨t, L, lab, h1, hI, hL, hr, hq⟩ := ih (by omega)
    obtain ⟨c, hc⟩ : ∃ c, s[k]? = some c := ⟨_, List.getElem?_eq_getElem hklt⟩
    obtain ⟨t1, L1, lab1, g1, g2, g3, g4, -, -⟩ := AddSuffix_inv hI hL hr hklt hc
    have hI' : Inv s k L lab { t with remainder := t.remainder + 1 } none :=
      ⟨hI.text, hI.tree, hI.active, hI.count_nodes⟩
    obtain ⟨_, g6⟩ := loopPasses_inv Q hQ hklt hc (t.remainder + 1) L lab _ none hI'
      (by simp only; omega) (Nat.le_refl _) hq
    refine ⟨t1, L1, lab1, ?_, g2, g3, g4, g6 t1 g1⟩
    unfold prefixState at h1 ⊢
    have htake : s.take (k + 1) = s.take k ++ [c] := by
      rw [List.take_succ, hc]
      rfl
    rw [htake, addAll_append, h1]
    have hl : 0 + (s.take k).length = k := by
      rw [List.length_take]
      omega
    have e : addAll [c] k t = match AddSuffix t c k with
        | none => none
        | some t1 => addAll [] (k + 1) t1 := rfl
    show addAll [c] (0 + (List.take k s).length) t = some t1
    rw [hl, e, g1]
    rfl

/-! ## The active point and the ends of the transitions -/

/-- An open transition leads to the leaf of a suffix `j < L`, and starts
where the word of its source ends in that suffix. -/
theorem TreeInv.open_edge {s : List Nat} {i L : Nat} {lab : Nat → List Nat} {h : List Node}
    {prev : Option Nat} (hI : TreeInv s i L lab h prev) {u k : Nat} {tr : Transition}
    (he : edgeAt h u k = some tr) (ho : tr.end_ = none) :
    ∃ q j, tr.node = some q ∧ q < h.length ∧ leafAt h q = true ∧ j < L ∧
      lab q = seg s j s.length ∧ tr.start = j + (lab u).length ∧ tr.start < s.length := by
  obtain ⟨q, hq, hqlt, hq0, hlt, hle, hkey, hlabq, hleafq, hclosed⟩ := hI.edge u k tr he
  have hleaf := hleafq.1 ho
  obtain ⟨j, hj, hlabj⟩ := hI.leaf q hqlt hq0 hleaf
  rw [ho] at hlt hlabq
  simp only [Option.getD_none] at hlt hlabq
  refine ⟨q, j, hq, hqlt, hleaf, hj, hlabj, ?_, hlt⟩
  have hlen := congrArg List.length hlabq
  rw [hlabj, List.length_append, seg_length s (Nat.le_refl _), seg_length s (Nat.le_refl _)] at hlen
  have := hI.bound.2.2
  omega

/-- A position inside a transition, spelling a segment that starts at or
after `L`: the part of the transition read so far ends before the end of the
segment when the transition is open. -/
theorem TreeInv.pos_bound {s : List Nat} {i L : Nat} {lab : Nat → List Nat} {h : List Node}
    {prev : Option Nat} (hI : TreeInv s i L lab h prev) {p : ActivePoint} {a b : Nat}
    (hp : PosAt s h lab p (seg s a b)) (ha : L ≤ a) (hb : b ≤ s.length) (hl : 0 < p.length) :
    p.c ≠ 0 ∧ ∃ tr, edgeAt h p.node p.c = some tr ∧
      tr.start + p.length < tr.end_.getD s.length ∧
      (tr.end_ = none → tr.start + p.length < b) := by
  rcases hp.2 with ⟨h0, _, _⟩ | ⟨_, tr, he, hlt, hw⟩
  · omega
  · obtain ⟨q, hq, hqlt, hq0, hlt2, hle, hkey, hlabq, hleafq, hclosed⟩ := hI.edge _ _ tr he
    refine ⟨ne_zero_of_getElem? hI.nonul hkey, tr, he, hlt, ?_⟩
    intro ho
    obtain ⟨q1, j, _, _, _, hj, _, hstart, _⟩ := hI.open_edge he ho
    have hlen := congrArg List.length hw
    rw [List.length_append, seg_length s hb, seg_length s (by omega)] at hlen
    omega

theorem PosAt.length_zero {s : List Nat} {h : List Node} {lab : Nat → List Nat}
    {p : ActivePoint} {w : List Nat} (hp : PosAt s h lab p w) (hl : p.length = 0) : p.c = 0 := by
  rcases hp.2 with ⟨_, h2, _⟩ | ⟨h1, _⟩
  · exact h2
  · omega

/-- The active point of a tree satisfying the invariant, when at most `k`
symbols are read. -/
theorem Inv.activeOK {s : List Nat} {i L : Nat} {lab : Nat → List Nat} {t : SuffixTree}
    {prev : Option Nat} (hI : Inv s i L lab t prev) {k : Nat} (hk : i ≤ k) :
    ActiveOK k t ∧ (0 < t.ap.length → ∃ tr, edgeAt t.heap t.ap.node t.ap.c = some tr ∧
      tr.start + t.ap.length < i ∧ tr.start + t.ap.length < tr.end_.getD k) := by
  have hpos := hI.tree.pos hI.active
  have hb := hI.tree.bound.2.1
  have key : 0 < t.ap.length → t.ap.c ≠ 0 ∧ ∃ tr, edgeAt t.heap t.ap.node t.ap.c = some tr ∧
      tr.start + t.ap.length < i ∧ tr.start + t.ap.length < tr.end_.getD k := by
    intro hl
    obtain ⟨hc, tr, he, hlt, hopen⟩ := hI.tree.pos_bound hpos (Nat.le_refl _) hb hl
    obtain ⟨q, hq, hqlt, hq0, hlt2, hle, hkey, hlabq, hleafq, hclosed⟩ := hI.tree.edge _ _ tr he
    refine ⟨hc, tr, he, ?_⟩
    cases hend : tr.end_ with
    | none =>
      have := hopen hend
      simp only [Option.getD_none]
      omega
    | some e =>
      have := hclosed e hend
      rw [hend] at hlt
      simp only [Option.getD_some] at hlt ⊢
      omega
  refine ⟨⟨⟨?_, hpos.length_zero⟩, ?_⟩, fun hl => (key hl).2⟩
  · intro hc
    cases Nat.eq_zero_or_pos t.ap.length with
    | inl h0 => exact h0
    | inr hl => exact absurd hc (key hl).1
  · intro hl
    obtain ⟨_, tr, he, h1, h2⟩ := key hl
    exact ⟨tr, he, by omega⟩

/-- Every entry of the map of a node is what a lookup of its key finds. -/
theorem TreeInv.entries {s : List Nat} {i L : Nat} {lab : Nat → List Nat} {h : List Node}
    {prev : Option Nat} (hI : TreeInv s i L lab h prev) {nd : Node} (hnd : nd ∈ h)
    {e : Nat × Transition} (he : e ∈ nd.to_) :
    ∃ u, h[u]? = some nd ∧ edgeAt h u e.1 = some e.2 := by
  obtain ⟨u, hu⟩ := List.mem_iff_getElem?.1 hnd
  have hnodup : (nd.to_.map Prod.fst).Nodup := by rw [← keysAt_eq hu]; exact hI.nodup u
  refine ⟨u, hu, ?_⟩
  rw [edgeAt_eq hu]
  exact mapFind_of_mem_nodup hnodup he

theorem TreeInv.endsOK {s : List Nat} {i L : Nat} {lab : Nat → List Nat} {h : List Node}
    {prev : Option Nat} (hI : TreeInv s i L lab h prev) {k : Nat} (hk : i ≤ k) :
    EndsOK k h := by
  intro nd hnd e he
  obtain ⟨u, _, hedge⟩ := hI.entries hnd he
  obtain ⟨q, hq, _, _, _, _, _, _, hleafq, hclosed⟩ := hI.edge u e.1 e.2 hedge
  exact ⟨q, hq, hleafq, fun x hx => Nat.le_trans (hclosed x hx) hk⟩

theorem PassInv.post_inv {s : List Nat} {p : Pass} (hP : PassInv s p) :
    ∃ i L lab prev, Inv s i L lab p.post prev ∧ i ≤ p.index + 1 := by
  obtain ⟨L, lab, lab1, prev1, _, _, _, _, _, _, hcase⟩ := hP
  rcases hcase with ⟨_, hI1, _⟩ | ⟨_, hI1, _⟩
  · exact ⟨_, _, _, _, hI1, Nat.le_succ _⟩
  · exact ⟨_, _, _, _, hI1, Nat.le_refl _⟩

/-! ## The claims about the states of the construction -/

theorem leafCount_tail (h : List Node) (h0 : 0 < h.length) :
    leafCount h = leafCount h.tail + (if leafAt h 0 then 1 else 0) := by
  cases h with
  | nil => simp at h0
  | cons nd rest =>
    simp [leafCount, leafAt, List.countP_cons]

theorem TreeInv.leaves_tail {s : List Nat} {i L : Nat} {lab : Nat → List Nat} {h : List Node}
    {prev : Option Nat} (hI : TreeInv s i L lab h prev) : leafCount h.tail = L := by
  have h1 := leafCount_tail h hI.root.1
  have h2 := hI.count
  omega

/-- C12: for every text without NUL, after every pass of the extension loop
(`index + 1` symbols being read) and after every call of `AddSuffix` (after
`k` symbols), `ap.c` is NUL exactly when `ap.length` is `0`, and when
`ap.length > 0` the node `ap.node` has a transition keyed `ap.c` and
`ap.length` is at most its resolved length; and every pass that splits a
transition (`NeedToSplit` holds and `ap.c` is not NUL) starts with
`0 < ap.length < ` the resolved length of that transition. -/
theorem active_point_invariant (s : List Nat) (hn : 0 ∉ s) :
    (∀ p ∈ passes s, ActiveOK (p.index + 1) p.post) ∧
    (∀ k, k ≤ s.length → ∃ t, prefixState s k = some t ∧ ActiveOK k t) ∧
    (∀ p ∈ passes s, NeedToSplit p.pre p.c = some true → p.pre.ap.c ≠ 0 →
      ∃ tr, edgeAt p.pre.heap p.pre.ap.node p.pre.ap.c = some tr ∧
        0 < p.pre.ap.length ∧ p.pre.ap.length < tr.end_.getD (p.index + 1) - tr.start) := by
  have hpass := passes_inv hn (fun _ => True) (fun _ _ _ => trivial) trivial
  refine ⟨?_, ?_, ?_⟩
  · intro p hp
    obtain ⟨i, L, lab, prev, hI, hi⟩ := (hpass p hp).1.post_inv
    exact (hI.activeOK hi).1
  · intro k hk
    obtain ⟨t, L, lab, h1, hI, _, _, _⟩ :=
      prefixState_inv hn (fun _ => True) (fun _ _ _ => trivial) trivial k hk
    exact ⟨t, h1, (hI.activeOK (Nat.le_refl _)).1⟩
  · intro p hp _ hc
    obtain ⟨L, lab, lab1, prev1, -, -, -, hI, -, -, -⟩ := (hpass p hp).1
    obtain ⟨⟨hiff, -⟩, hedge⟩ := hI.activeOK (Nat.le_add_right p.index 1)
    have hl : 0 < p.pre.ap.length := by
      cases Nat.eq_zero_or_pos p.pre.ap.length with
      | inl h0 => exact absurd (hiff.2 h0) hc
      | inr hl => exact hl
    obtain ⟨tr, he, -, h2⟩ := hedge hl
    exact ⟨tr, he, hl, by omega⟩

theorem active_point_invariant_witness :
    0 ∉ [97, 98, 97, 98, 99, 36] ∧
    (∀ p ∈ passes [97, 98, 97, 98, 99, 36], ActiveOK (p.index + 1) p.post) ∧
    (∀ k, k ≤ [97, 98, 97, 98, 99, 36].length →
      ∃ t, prefixState [97, 98, 97, 98, 99, 36] k = some t ∧ ActiveOK k t) ∧
    (∀ p ∈ passes [97, 98, 97, 98, 99, 36], NeedToSplit p.pre p.c = some true →
      p.pre.ap.c ≠ 0 →
      ∃ tr, edgeAt p.pre.heap p.pre.ap.node p.pre.ap.c = some tr ∧
        0 < p.pre.ap.length ∧ p.pre.ap.length < tr.end_.getD (p.index + 1) - tr.start) :=
  ⟨by decide, active_point_invariant [97, 98, 97, 98, 99, 36] (by decide)⟩

/-- C13, counterexample: before any symbol of the text `"a$"` is processed
(`k = 0`) the tree is the root alone, which has no outgoing edges: one leaf
and `remainder = 0`, so leaves plus `remainder` is `1`, not `0`. -/
theorem leaves_plus_remainder_at_zero :
    0 ∉ [97, 36] ∧ 0 ≤ [97, 36].length ∧
      ∃ t, prefixState [97, 36] 0 = some t ∧ leafCount t.heap = 1 ∧ t.remainder = 0 ∧
        leafCount t.heap + t.remainder ≠ 0 :=
  ⟨by decide, by decide, _, rfl, rfl, rfl, by decide⟩

/-- C13, amended: for every text without NUL and every `k` with
`1 ≤ k ≤ n`, after `AddSuffix` has processed the first `k` symbols the
number of leaves plus `remainder` is `k`, and `remainder` is at most `k`;
for every `k ≤ n` the number of leaves other than the root plus `remainder`
is `k`; and every pass of the extension loop starts with
`1 ≤ remainder ≤ index + 1` and either decrements `remainder` and adds
exactly one leaf, or leaves the loop with `remainder` and the leaves
unchanged. -/
theorem leaves_plus_remainder (s : List Nat) (hn : 0 ∉ s) :
    (∀ k, 1 ≤ k → k ≤ s.length → ∃ t, prefixState s k = some t ∧
      leafCount t.heap + t.remainder = k ∧ t.remainder ≤ k) ∧
    (∀ k, k ≤ s.length → ∃ t, prefixState s k = some t ∧
      leafCount t.heap.tail + t.remainder = k) ∧
    (∀ p ∈ passes s, 1 ≤ p.pre.remainder ∧ p.pre.remainder ≤ p.index + 1 ∧
      ((p.brk = false ∧ p.post.remainder + 1 = p.pre.remainder ∧
          leafCount p.post.heap.tail = leafCount p.pre.heap.tail + 1) ∨
        (p.brk = true ∧ p.post.remainder = p.pre.remainder ∧
          leafCount p.post.heap.tail = leafCount p.pre.heap.tail))) := by
  have hpass := passes_inv hn (fun _ => True) (fun _ _ _ => trivial) trivial
  have hpre := prefixState_inv hn (fun _ => True) (fun _ _ _ => trivial) trivial
  refine ⟨?_, ?_, ?_⟩
  · intro k hk1 hk
    obtain ⟨t, L, lab, h1, hI, hL, hr, _⟩ := hpre k hk
    refine ⟨t, h1, ?_, by omega⟩
    rw [hI.tree.count, hI.tree.root_not_leaf hk1]
    simp only [Bool.false_eq_true, if_false]
    omega
  · intro k hk
    obtain ⟨t, L, lab, h1, hI, hL, hr, _⟩ := hpre k hk
    refine ⟨t, h1, ?_⟩
    rw [hI.tree.leaves_tail]
    omega
  · intro p hp
    obtain ⟨L, lab, lab1, prev1, -, -, hL, hI, hr, -, hcase⟩ := (hpass p hp).1
    refine ⟨by omega, by omega, ?_⟩
    rcases hcase with ⟨hb, hI1, hr1⟩ | ⟨hb, hI1, hr1⟩
    · left
      refine ⟨hb, by omega, ?_⟩
      rw [hI1.tree.leaves_tail, hI.tree.leaves_tail]
    · right
      refine ⟨hb, by omega, ?_⟩
      rw [hI1.tree.leaves_tail, hI.tree.leaves_tail]

theorem leaves_plus_remainder_witness :
    0 ∉ [97, 98, 97, 98, 99, 36] ∧
    (∀ k, 1 ≤ k → k ≤ [97, 98, 97, 98, 99, 36].length →
      ∃ t, prefixState [97, 98, 97, 98, 99, 36] k = some t ∧
        leafCount t.heap + t.remainder = k ∧ t.remainder ≤ k) ∧
    (∀ k, k ≤ [97, 98, 97, 98, 99, 36].length →
      ∃ t, prefixState [97, 98, 97, 98, 99, 36] k = some t ∧
        leafCount t.heap.tail + t.remainder = k) ∧
    (∀ p ∈ passes [97, 98, 97, 98, 99, 36],
      1 ≤ p.pre.remainder ∧ p.pre.remainder ≤ p.index + 1 ∧
      ((p.brk = false ∧ p.post.remainder + 1 = p.pre.remainder ∧
          leafCount p.post.heap.tail = leafCount p.pre.heap.tail + 1) ∨
        (p.brk = true ∧ p.post.remainder = p.pre.remainder ∧
          leafCount p.post.heap.tail = leafCount p.pre.heap.tail))) :=
  ⟨by decide, leaves_plus_remainder [97, 98, 97, 98, 99, 36] (by decide)⟩

/-- C15: for every text without NUL, at every point before `FinishString`
runs (at the top and at the end of every pass of the extension loop, with
`index + 1` symbols read, and after `AddSuffix` has processed `k` symbols),
every transition has a child, its end is open exactly when the child is a
leaf, and a fixed end is at most the number of symbols read; so transitions
to internal nodes have a fixed end of at most that number. -/
theorem open_end_iff_leaf (s : List Nat) (hn : 0 ∉ s) :
    (∀ p ∈ passes s, EndsOK (p.index + 1) p.pre.heap ∧ EndsOK (p.index + 1) p.post.heap) ∧
    (∀ k, k ≤ s.length → ∃ t, prefixState s k = some t ∧ EndsOK k t.heap) := by
  have hpass := passes_inv hn (fun _ => True) (fun _ _ _ => trivial) trivial
  have hpre := prefixState_inv hn (fun _ => True) (fun _ _ _ => trivial) trivial
  constructor
  · intro p hp
    obtain ⟨i, L, lab, prev, hI, hi⟩ := (hpass p hp).1.post_inv
    obtain ⟨L0, lab0, _, _, _, _, _, hI0, _⟩ := (hpass p hp).1
    exact ⟨hI0.tree.endsOK (Nat.le_add_right _ 1), hI.tree.endsOK hi⟩
  · intro k hk
    obtain ⟨t, L, lab, h1, hI, _, _, _⟩ := hpre k hk
    exact ⟨t, h1, hI.tree.endsOK (Nat.le_refl _)⟩

theorem open_end_iff_leaf_witness :
    0 ∉ [97, 98, 97, 98, 99, 36] ∧
    (∀ p ∈ passes [97, 98, 97, 98, 99, 36],
      EndsOK (p.index + 1) p.pre.heap ∧ EndsOK (p.index + 1) p.post.heap) ∧
    (∀ k, k ≤ [97, 98, 97, 98, 99, 36].length →
      ∃ t, prefixState [97, 98, 97, 98, 99, 36] k = some t ∧ EndsOK k t.heap) :=
  ⟨by decide, open_end_iff_leaf [97, 98, 97, 98, 99, 36] (by decide)⟩

theorem activeEdgePrefix_eq {s : List Nat} {i L : Nat} {lab : Nat → List Nat} {t : SuffixTree}
    {prev : Option Nat} (hI : Inv s i L lab t prev) :
    lab t.ap.node ++ activeEdgePrefix s t = seg s L i ∧
      (lab t.ap.node).length + t.ap.length = i - L := by
  have hpos := hI.tree.pos hI.active
  have hb := hI.tree.bound.2.1
  rcases hpos.2 with ⟨hl, hc, hw⟩ | ⟨hl, tr, he, hlt, hw⟩
  · have e : activeEdgePrefix s t = [] := by
      unfold activeEdgePrefix
      rw [hl]
      cases edgeAt t.heap t.ap.node t.ap.c <;> simp
    rw [e, List.append_nil, ← hw]
    refine ⟨rfl, ?_⟩
    rw [seg_length s hb]
    omega
  · obtain ⟨q, hq, hqlt, hq0, hlt2, hle, _⟩ := hI.tree.edge _ _ tr he
    have e : activeEdgePrefix s t = seg s tr.start (tr.start + t.ap.length) := by
      unfold activeEdgePrefix seg
      rw [he]
      simp only [Nat.add_sub_cancel_left]
    rw [e, ← hw]
    refine ⟨rfl, ?_⟩
    have := congrArg List.length hw
    rw [List.length_append, seg_length s hb, seg_length s (by omega)] at this
    omega

/-- C20: for every text without NUL and every `k ≤ n`, after `AddSuffix`
has processed the first `k` symbols, with `remainder = r`, the node
`ap.node` has one path label, and that label followed by the first
`ap.length` symbols of the transition keyed `ap.c` is `s[k - r, k)`; so the
depth of `ap.node` plus `ap.length` is `r`. For a valid text the state after
all symbols, and the finished tree, have `r = 0` and the active point
`(root, NUL, 0)`. -/
theorem active_point_spells (s : List Nat) (hn : 0 ∉ s) :
    (∀ k, k ≤ s.length → ∃ t w, prefixState s k = some t ∧ t.remainder ≤ k ∧
      PathLabel s t.heap t.ap.node w ∧ (∀ w1, PathLabel s t.heap t.ap.node w1 → w1 = w) ∧
      w ++ activeEdgePrefix s t = seg s (k - t.remainder) k ∧
      w.length + t.ap.length = t.remainder) ∧
    (ValidText s → ∃ t t1, prefixState s s.length = some t ∧ t.remainder = 0 ∧
      t.ap = ⟨0, 0, 0⟩ ∧ build s = some t1 ∧ t1.remainder = 0 ∧ t1.ap = ⟨0, 0, 0⟩) := by
  have hpre := prefixState_inv hn (fun _ => True) (fun _ _ _ => trivial) trivial
  constructor
  · intro k hk
    obtain ⟨t, L, lab, h1, hI, hL, hr, _⟩ := hpre k hk
    have hnode := (hI.tree.pos hI.active).1
    obtain ⟨e1, e2⟩ := activeEdgePrefix_eq hI
    have hkr : k - t.remainder = L := by omega
    refine ⟨t, lab t.ap.node, h1, by omega, hI.tree.pathLabel_exists hnode,
      fun w1 hw1 => (hI.tree.pathLabel_unique hw1).2, ?_, by omega⟩
    rw [hkr]
    exact e1
  · intro hv
    obtain ⟨t1, L, lab, g1, g2, g3, g4, g5, g6, -⟩ := build_eq hn
    have hL := g5 hv
    subst hL
    have hap : t1.ap = ⟨0, 0, 0⟩ := by
      have := g2.active
      rw [seg_self] at this
      injection this with this
      exact this.symm
    refine ⟨t1, _, ?_, by omega, hap, g6, by simp only; omega, hap⟩
    unfold prefixState
    rw [List.take_length]
    exact g1

theorem active_point_spells_witness :
    0 ∉ [97, 98, 97, 98, 99, 36] ∧
    (∀ k, k ≤ [97, 98, 97, 98, 99, 36].length → ∃ t w,
      prefixState [97, 98, 97, 98, 99, 36] k = some t ∧ t.remainder ≤ k ∧
      PathLabel [97, 98, 97, 98, 99, 36] t.heap t.ap.node w ∧
      (∀ w1, PathLabel [97, 98, 97, 98, 99, 36] t.heap t.ap.node w1 → w1 = w) ∧
      w ++ activeEdgePrefix [97, 98, 97, 98, 99, 36] t =
        seg [97, 98, 97, 98, 99, 36] (k - t.remainder) k ∧
      w.length + t.ap.length = t.remainder) ∧
    (ValidText [97, 98, 97, 98, 99, 36] → ∃ t t1,
      prefixState [97, 98, 97, 98, 99, 36] [97, 98, 97, 98, 99, 36].length = some t ∧
      t.remainder = 0 ∧ t.ap = ⟨0, 0, 0⟩ ∧ build [97, 98, 97, 98, 99, 36] = some t1 ∧
      t1.remainder = 0 ∧ t1.ap = ⟨0, 0, 0⟩) :=
  ⟨by decide, active_point_spells [97, 98, 97, 98, 99, 36] (by decide)⟩

/-! ## Spelling the suffixes of the text read so far -/

theorem walk_leaf {s : List Nat} {h : List Node} {q : Nat} (hl : leafAt h q = true)
    {w : List Nat} {p : ActivePoint} (hw : walk s h ⟨q, 0, 0⟩ w = some p) :
    w = [] ∧ p = ⟨q, 0, 0⟩ := by
  cases w with
  | nil =>
    rw [walk_nil] at hw
    injection hw with hw
    exact ⟨rfl, hw.symm⟩
  | cons a w =>
    rw [walk_cons, step_leaf hl] at hw
    cases hw

/-- A segment `s[a, b)` whose position lies on the open transition to a
leaf `q`, or at `q` itself: the word of `q` is at least as long as the
suffix that starts at `a`. -/
theorem TreeInv.leaf_territory {s : List Nat} {i L : Nat} {lab : Nat → List Nat}
    {h : List Node} {prev : Option Nat} (hI : TreeInv s i L lab h prev) {a b : Nat}
    (hab : a ≤ b) (hb : b ≤ s.length) {p : ActivePoint}
    (hloc : locus s h (seg s a b) = some p) {u k q : Nat} {tr : Transition}
    (he : edgeAt h u k = some tr) (ho : tr.end_ = none) (hq : tr.node = some q)
    (hcase : (0 < p.length ∧ p.node = u ∧ p.c = k) ∨ p = ⟨q, 0, 0⟩) :
    s.length ≤ (lab q).length + a := by
  obtain ⟨q1, j, hq1, hqlt, hleaf, hj, hlabq, hstart, hslt⟩ := hI.open_edge he ho
  rw [hq] at hq1; injection hq1 with hq1; subst hq1
  have hjn : j ≤ s.length := by have := hI.bound.2.2; omega
  have hlq : (lab q).length = s.length - j := by rw [hlabq, seg_length s (Nat.le_refl _)]
  by_cases haL : L ≤ a
  · omega
  · have haL' : a < L := by omega
    have hc := hI.complete a s.length (by omega) (Or.inr ⟨haL', Nat.le_refl _⟩)
    obtain ⟨pe, hpe⟩ := Option.isSome_iff_exists.1 hc
    have hwalk : walk s h p (seg s b s.length) = some pe := by
      have := hpe
      rw [← seg_append s hab hb] at this
      unfold locus at this hloc
      rw [walk_append, hloc] at this
      exact this
    have hpos := hI.pos hpe
    obtain ⟨q2, _, _, _, _, _, _, hlabq2, _, _⟩ := hI.edge u k tr he
    have hlu : (lab q).length = (lab u).length + (s.length - tr.start) := by
      obtain ⟨q3, hq3, _, _, _, _, _, hlab3, _, _⟩ := hI.edge u k tr he
      rw [hq] at hq3; injection hq3 with hq3; subst hq3
      rw [hlab3, List.length_append, ho]
      simp only [Option.getD_none]
      rw [seg_length s (Nat.le_refl _)]
    have atleaf : pe = ⟨q, 0, 0⟩ → s.length ≤ (lab q).length + a := by
      intro hpq
      rcases hpos.2 with ⟨_, _, hw⟩ | ⟨hl, _⟩
      · rw [hpq] at hw
        simp only at hw
        have := congrArg List.length hw
        rw [seg_length s (Nat.le_refl _)] at this
        omega
      · rw [hpq] at hl; simp at hl
    rcases hcase with ⟨hl, hu, hk⟩ | hpq
    · have hp : p = ⟨u, k, p.length⟩ := by
        cases p with
        | mk n c l => simp only at hu hk; subst hu hk; rfl
      rw [hp] at hwalk
      have hposp := hI.pos hloc
      have hlt : tr.start + p.length < tr.end_.getD s.length := by
        rcases hposp.2 with ⟨h0, _, _⟩ | ⟨_, tr', he', hlt', _⟩
        · omega
        · rw [hu, hk, he] at he'; injection he' with he'; subst he'; exact hlt'
      rcases walk_inside hI.edge he hq _ p.length pe hl hlt hwalk with ⟨h1, h2⟩ | ⟨_, h2⟩
      · rcases hpos.2 with ⟨h0, _, _⟩ | ⟨_, tr', he', hlt', hw⟩
        · rw [h2] at h0; simp only at h0; omega
        · rw [h2] at he' hlt' hw
          simp only at he' hlt' hw
          rw [he] at he'; injection he' with he'; subst he'
          have := congrArg List.length hw
          rw [List.length_append, seg_length s (Nat.le_refl _), seg_length s (by omega)] at this
          rw [ho] at hlt'
          simp only [Option.getD_none] at hlt'
          omega
      · exact atleaf (walk_leaf hleaf h2).2
    · rw [hpq] at hwalk
      exact atleaf (walk_leaf hleaf hwalk).2

/-- A step computed from the transition it uses. -/
theorem step_of_edge {s : List Nat} {h : List Node} {p : ActivePoint} {x q : Nat}
    {tr : Transition} (he : edgeAt h p.node (if p.length = 0 then x else p.c) = some tr)
    (hq : tr.node = some q) (hlt : tr.start + p.length < tr.end_.getD s.length)
    (hx : s[tr.start + p.length]? = some x) :
    step s h p x = some (if tr.start + p.length + 1 = tr.end_.getD s.length then ⟨q, 0, 0⟩
      else ⟨p.node, if p.length = 0 then x else p.c, p.length + 1⟩) := by
  unfold step
  simp only [he, hq]
  rw [if_pos ⟨hlt, hx⟩]
  split <;> rfl

theorem getElem?_take_of_lt (s : List Nat) {j k : Nat} (hj : j < k) :
    (s.take k)[j]? = s[j]? := by
  rw [List.getElem?_take]
  simp [hj]

/-- Reading the suffix `s[a, k)` of the text read so far in the tree after
`k` symbols, the open ends standing for `k`: all its proper prefixes lead
to the same positions as with the whole text, and the last symbol can be
read. -/
theorem TreeInv.walk_take {s : List Nat} {k L : Nat} {lab : Nat → List Nat} {h : List Node}
    {prev : Option Nat} (hI : TreeInv s k L lab h prev) (a : Nat) :
    ∀ m, a + m ≤ k →
      (a + m < k → locus (s.take k) h (seg s a (a + m)) = locus s h (seg s a (a + m))) ∧
      (locus (s.take k) h (seg s a (a + m))).isSome = true := by
  have hk := hI.bound.2.1
  have hlen : (s.take k).length = k := by rw [List.length_take]; omega
  intro m
  induction m with
  | zero =>
    intro _
    rw [Nat.add_zero, seg_self]
    exact ⟨fun _ => rfl, rfl⟩
  | succ m ih =>
    intro hm
    obtain ⟨ih1, -⟩ := ih (by omega)
    have ih1 := ih1 (by omega)
    obtain ⟨x, hx⟩ : ∃ x, s[a + m]? = some x := ⟨_, List.getElem?_eq_getElem (by omega)⟩
    have hseg : seg s a (a + (m + 1)) = seg s a (a + m) ++ [x] :=
      seg_succ s (Nat.le_add_right a m) hx
    have hc := hI.complete a (a + (m + 1)) (by omega) (Or.inl hm)
    obtain ⟨p1, hp1⟩ := Option.isSome_iff_exists.1 hc
    have hc0 := hI.complete a (a + m) (by omega) (Or.inl (by omega))
    obtain ⟨p, hp⟩ := Option.isSome_iff_exists.1 hc0
    have hstep : step s h p x = some p1 := by
      have := hp1
      rw [hseg] at this
      unfold locus at this hp
      rw [walk_snoc, hp] at this
      exact this
    have hloc' : locus (s.take k) h (seg s a (a + (m + 1))) = step (s.take k) h p x := by
      rw [hseg]
      unfold locus at ih1 hp ⊢
      rw [walk_snoc, ih1, hp]
      rfl
    obtain ⟨tr, q, he, hq, h2, h3, h4⟩ := (step_spec hI.edge p x p1).1 hstep
    obtain ⟨q', hq', hqlt, hq0, hlt, hle, hkey, hlabq, hleafq, hclosed⟩ := hI.edge _ _ tr he
    rw [hq] at hq'; injection hq' with hq'; subst hq'
    have hposp := hI.pos hp
    have hpl : (lab p.node).length + p.length = m := by
      have hb : a + m ≤ s.length := by omega
      rcases hposp.2 with ⟨h0, _, hw⟩ | ⟨_, tr', he', hlt', hw⟩
      · have := congrArg List.length hw
        rw [seg_length s hb] at this
        omega
      · have := congrArg List.length hw
        rw [List.length_append, seg_length s hb, seg_length s (by
          obtain ⟨_, _, _, _, _, hle', _⟩ := hI.edge _ _ tr' he'
          omega)] at this
        omega
    rw [hloc']
    cases hend : tr.end_ with
    | some e =>
      have hek := hclosed e hend
      rw [hend] at h2 h4
      simp only [Option.getD_some] at h2 h4
      have hs' : step (s.take k) h p x = some p1 := by
        rw [step_of_edge he hq (by rw [hend]; exact h2)
          (by rw [getElem?_take_of_lt s (by omega)]; exact h3), hend, h4]
        rfl
      rw [hs', hp1]
      exact ⟨fun _ => rfl, rfl⟩
    | none =>
      obtain ⟨q1, j, hq1, _, hleaf, hj, hlabj, hstart, hslt⟩ := hI.open_edge he hend
      rw [hq] at hq1; injection hq1 with hq1; subst hq1
      rw [hend] at h2 h4
      simp only [Option.getD_none] at h2 h4
      have hterr : s.length ≤ (lab q).length + a := by
        refine hI.leaf_territory (by omega : a ≤ a + (m + 1)) (by omega) hp1 he hend hq ?_
        by_cases hat : tr.start + p.length + 1 = s.length
        · rw [if_pos hat] at h4
          exact Or.inr h4
        · rw [if_neg hat] at h4
          left
          rw [h4]
          exact ⟨Nat.succ_pos _, rfl, rfl⟩
      have hlq : (lab q).length = s.length - j := by
        rw [hlabj, seg_length s (Nat.le_refl _)]
      have hjn : j ≤ s.length := by have := hI.bound.2.2; omega
      have hja : j ≤ a := by omega
      have hread : tr.start + p.length < k := by omega
      have hs' : step (s.take k) h p x =
          some (if tr.start + p.length + 1 = k then ⟨q, 0, 0⟩
            else ⟨p.node, if p.length = 0 then x else p.c, p.length + 1⟩) := by
        rw [step_of_edge he hq (by rw [hend, hlen]; exact hread)
          (by rw [getElem?_take_of_lt s hread]; exact h3), hend, hlen]
        rfl
      rw [hs']
      refine ⟨?_, rfl⟩
      intro hlt1
      rw [hp1, h4]
      have e1 : ¬ tr.start + p.length + 1 = k := by omega
      have e2 : ¬ tr.start + p.length + 1 = s.length := by omega
      rw [if_neg e1, if_neg e2]

/-- C17: for every text without NUL (with or without a sentinel) and every
`k ≤ n`, after `AddSuffix` has processed the first `k` symbols, every suffix
of `s[0, k)` can be read from the root along the transitions of the tree
(ending at a node or inside a transition), the open ends standing for `k`
(the labels are read in the text `s[0, k)`). -/
theorem suffixes_spelled (s : List Nat) (hn : 0 ∉ s) (k : Nat) (hk : k ≤ s.length) :
    ∃ t, prefixState s k = some t ∧
      ∀ a, a ≤ k → (locus (s.take k) t.heap ((s.take k).drop a)).isSome = true := by
  obtain ⟨t, L, lab, h1, hI, -, -, -⟩ :=
    prefixState_inv hn (fun _ => True) (fun _ _ _ => trivial) trivial k hk
  refine ⟨t, h1, ?_⟩
  intro a ha
  have e : (s.take k).drop a = seg s a (a + (k - a)) := by
    unfold seg
    rw [List.drop_take]
    congr 1
    omega
  rw [e]
  exact (hI.tree.walk_take a (k - a) (by omega)).2

theorem suffixes_spelled_witness :
    0 ∉ [97, 98, 97, 98, 99, 36] ∧ 4 ≤ [97, 98, 97, 98, 99, 36].length ∧
      ∃ t, prefixState [97, 98, 97, 98, 99, 36] 4 = some t ∧
        ∀ a, a ≤ 4 → (locus ([97, 98, 97, 98, 99, 36].take 4) t.heap
          (([97, 98, 97, 98, 99, 36].take 4).drop a)).isSome = true :=
  ⟨by decide, by decide, suffixes_spelled [97, 98, 97, 98, 99, 36] (by decide) 4 (by decide)⟩

/-! ## `FixLengthOverflow` and the maps of the nodes -/

theorem Grow.refl_grow (h : List Node) : Grow h h :=
  ⟨rfl, fun u nd hu => ⟨[], by rw [List.append_nil]; exact hu, fun e he => by cases he⟩⟩

theorem Grow.trans_grow {h h1 h2 : List Node} (g1 : Grow h h1) (g2 : Grow h1 h2) : Grow h h2 := by
  refine ⟨g2.1.trans g1.1, ?_⟩
  intro u nd hu
  obtain ⟨x1, hx1, hd1⟩ := g1.2 u nd hu
  obtain ⟨x2, hx2, hd2⟩ := g2.2 u _ hx1
  refine ⟨x1 ++ x2, ?_, ?_⟩
  · rw [hx2]
    simp only [List.append_assoc]
  · intro e he
    rcases List.mem_append.1 he with h3 | h3
    · exact hd1 e h3
    · exact hd2 e h3

theorem heapIndex_grow {h h1 : List Node} {a k : Nat} {tr : Transition}
    (hi : heapIndex h a k = some (h1, tr)) :
    Grow h h1 ∧ ((∃ nd, h[a]? = some nd ∧ (k, tr) ∈ nd.to_) ∨ tr = Transition.default) := by
  unfold heapIndex at hi
  cases hn : h[a]? with
  | none => rw [hn] at hi; cases hi
  | some n =>
    rw [hn] at hi
    simp only [Option.some.injEq, Prod.mk.injEq] at hi
    obtain ⟨hh, htr⟩ := hi
    unfold mapIndex at hh htr
    cases hf : mapFind n.to_ k with
    | some t0 =>
      rw [hf] at hh htr
      simp only at hh htr
      have e : setNode h a { n with to_ := n.to_ } = h := setNode_self hn
      rw [e] at hh
      subst hh
      subst htr
      exact ⟨Grow.refl_grow h, Or.inl ⟨n, rfl, mapFind_mem hf⟩⟩
    | none =>
      rw [hf] at hh htr
      simp only at hh htr
      subst hh
      refine ⟨⟨length_setNode _ _ _, ?_⟩, Or.inr htr.symm⟩
      intro u nd hu
      rw [getElem?_setNode]
      by_cases hau : a = u
      · subst hau
        rw [hn] at hu
        injection hu with hu
        subst hu
        have hlt : a < h.length := (List.getElem?_eq_some.1 hn).1
        rw [if_pos ⟨rfl, hlt⟩]
        refine ⟨[(k, Transition.default)], rfl, ?_⟩
        intro e he
        rw [List.mem_singleton] at he
        rw [he]
      · have : ¬ (a = u ∧ a < h.length) := fun hc => hau hc.1
        rw [if_neg this]
        exact ⟨[], by rw [List.append_nil]; exact hu, fun e he => by cases he⟩

theorem FLO_loop_grow (s : List Nat) (index : Nat) :
    ∀ (fuel : Nat) (h : List Node) (ap : ActivePoint) (h1 : List Node) (ap1 : ActivePoint),
      FixLengthOverflowLoop s index fuel h ap = some (h1, ap1) → Grow h h1 := by
  intro fuel
  induction fuel with
  | zero =>
    intro h ap h1 ap1 hf
    unfold FixLengthOverflowLoop at hf
    cases hf
  | succ fuel ih =>
    intro h ap h1 ap1 hf
    unfold FixLengthOverflowLoop at hf
    by_cases hc : ap.c ≠ 0
    · rw [if_pos hc] at hf
      cases hi : heapIndex h ap.node ap.c with
      | none => rw [hi] at hf; cases hf
      | some r =>
        obtain ⟨h2, tr⟩ := r
        rw [hi] at hf
        simp only at hf
        have g := (heapIndex_grow hi).1
        cases hend : tr.end_ with
        | none =>
          rw [hend] at hf
          simp only [Option.some.injEq, Prod.mk.injEq] at hf
          rw [← hf.1]
          exact g
        | some e =>
          rw [hend] at hf
          simp only at hf
          by_cases hcond : tr.start ≤ e ∧ ap.length > e - tr.start
          · rw [if_pos hcond] at hf
            by_cases hidx : ap.length ≤ index + (e - tr.start)
            · rw [if_pos hidx] at hf
              cases hch : charAt s (index + (e - tr.start) - ap.length) with
              | none => rw [hch] at hf; cases hf
              | some nc =>
                cases hnode : tr.node with
                | none => rw [hch, hnode] at hf; cases hf
                | some child =>
                  rw [hch, hnode] at hf
                  simp only at hf
                  exact g.trans_grow (ih _ _ _ _ hf)
            · rw [if_neg hidx] at hf; cases hf
          · rw [if_neg hcond] at hf
            simp only [Option.some.injEq, Prod.mk.injEq] at hf
            rw [← hf.1]
            exact g
    · rw [if_neg hc] at hf
      simp only [Option.some.injEq, Prod.mk.injEq] at hf
      rw [← hf.1]
      exact Grow.refl_grow h

theorem FLO_grow {t t3 : SuffixTree} {index : Nat} (hf : FixLengthOverflow t index = some t3) :
    Grow t.heap t3.heap := by
  unfold FixLengthOverflow at hf
  cases hl : FixLengthOverflowLoop t.s index (t.ap.length + 1) t.heap t.ap with
  | none => rw [hl] at hf; cases hf
  | some r =>
    obtain ⟨h, ap⟩ := r
    rw [hl] at hf
    simp only at hf
    have g := FLO_loop_grow t.s index _ _ _ _ _ hl
    by_cases hc : ap.c ≠ 0
    · rw [if_pos hc] at hf
      cases hi : heapIndex h ap.node ap.c with
      | none => rw [hi] at hf; cases hf
      | some r2 =>
        obtain ⟨h2, to_c⟩ := r2
        rw [hi] at hf
        simp only at hf
        have g2 := g.trans_grow (heapIndex_grow hi).1
        cases hend : to_c.end_ with
        | none =>
          rw [hend] at hf
          simp only [Option.some.injEq] at hf
          rw [← hf]
          exact g2
        | some e =>
          rw [hend] at hf
          simp only at hf
          by_cases hcond : to_c.start ≤ e ∧ ap.length = e - to_c.start
          · rw [if_pos hcond] at hf
            cases hnode : to_c.node with
            | none => rw [hnode] at hf; cases hf
            | some child =>
              rw [hnode] at hf
              simp only [Option.some.injEq] at hf
              rw [← hf]
              exact g2
          · rw [if_neg hcond] at hf
            simp only [Option.some.injEq] at hf
            rw [← hf]
            exact g2
    · rw [if_neg hc] at hf
      simp only [Option.some.injEq] at hf
      rw [← hf]
      exact g

/-- A heap grown by default-constructed transitions that has no transition
without a child has not grown at all. -/
theorem Grow.eq_of_noNull {h h1 : List Node} (g : Grow h h1) (hn : NoNullChild h1) :
    h1 = h := by
  apply List.ext_getElem?
  intro u
  cases hu : h[u]? with
  | none =>
    rw [List.getElem?_eq_none_iff] at hu ⊢
    rw [g.1]
    exact hu
  | some nd =>
    obtain ⟨extra, hx, hd⟩ := g.2 u nd hu
    rw [hx]
    cases extra with
    | nil => simp
    | cons e rest =>
      exfalso
      have hmem : ({ nd with to_ := nd.to_ ++ e :: rest } : Node) ∈ h1 :=
        List.mem_iff_getElem?.2 ⟨u, hx⟩
      have := hn _ hmem e (by simp)
      rw [hd e (List.mem_cons_self _ _)] at this
      exact this rfl

theorem TreeInv.noNull {s : List Nat} {i L : Nat} {lab : Nat → List Nat} {h : List Node}
    {prev : Option Nat} (hI : TreeInv s i L lab h prev) : NoNullChild h := by
  intro nd hnd e he
  obtain ⟨u, _, hedge⟩ := hI.entries hnd he
  obtain ⟨q, hq, _⟩ := hI.edge u e.1 e.2 hedge
  rw [hq]
  exact Option.some_ne_none q

theorem TreeInv.fixedNonEmpty {s : List Nat} {i L : Nat} {lab : Nat → List Nat}
    {h : List Node} {prev : Option Nat} (hI : TreeInv s i L lab h prev) : FixedNonEmpty h := by
  intro nd hnd e he x hx
  obtain ⟨u, _, hedge⟩ := hI.entries hnd he
  obtain ⟨q, _, _, _, hlt, _⟩ := hI.edge u e.1 e.2 hedge
  rw [hx] at hlt
  simp only [Option.getD_some] at hlt
  omega

theorem loopBody_beforeFix {c index : Nat} {t : SuffixTree} {prev : Option Nat}
    {t3 : SuffixTree} {p1 : Option Nat} {b : Bool}
    (hb : loopBody c index t prev = some (t3, p1, b)) :
    ∃ t2, beforeFix c index t prev = some t2 ∧ FixLengthOverflow t2 index = some t3 := by
  unfold loopBody at hb
  unfold beforeFix
  cases hN : NeedToSplit t c with
  | none => rw [hN] at hb; cases hb
  | some bb =>
    rw [hN] at hb
    cases bb with
    | true =>
      simp only at hb ⊢
      by_cases hc : t.ap.c ≠ 0
      · simp only [if_pos hc] at hb ⊢
        cases hs : splitBranch t c index prev with
        | none => rw [hs] at hb; cases hb
        | some r =>
          obtain ⟨t1, m⟩ := r
          rw [hs] at hb
          simp only at hb ⊢
          cases ha : advance t1 index with
          | none => rw [ha] at hb; cases hb
          | some t2 =>
            rw [ha] at hb
            simp only at hb
            cases hf : FixLengthOverflow t2 index with
            | none => rw [hf] at hb; cases hb
            | some t4 =>
              rw [hf] at hb
              simp only [Option.some.injEq, Prod.mk.injEq] at hb
              exact ⟨t2, rfl, by rw [← hb.1]; exact hf⟩
      · simp only [if_neg hc] at hb ⊢
        cases hs : leafBranch t c index prev with
        | none => rw [hs] at hb; cases hb
        | some t1 =>
          rw [hs] at hb
          simp only at hb ⊢
          cases ha : advance t1 index with
          | none => rw [ha] at hb; cases hb
          | some t2 =>
            rw [ha] at hb
            simp only at hb
            cases hf : FixLengthOverflow t2 index with
            | none => rw [hf] at hb; cases hb
            | some t4 =>
              rw [hf] at hb
              simp only [Option.some.injEq, Prod.mk.injEq] at hb
              exact ⟨t2, rfl, by rw [← hb.1]; exact hf⟩
    | false =>
      simp only at hb ⊢
      refine ⟨_, rfl, ?_⟩
      cases hf : FixLengthOverflow _ index with
      | none => rw [hf] at hb; cases hb
      | some t4 =>
        rw [hf] at hb
        simp only [Option.some.injEq, Prod.mk.injEq] at hb
        rw [← hb.1]

/-- In a pass that starts from a tree satisfying the invariant,
`FixLengthOverflow` is called, returns the tree at the end of the pass, and
leaves the heap as it is. -/
theorem PassInv.fix {s : List Nat} {p : Pass} (hP : PassInv s p) :
    ∃ t2, beforeFix p.c p.index p.pre p.prev_created = some t2 ∧
      FixLengthOverflow t2 p.index = some p.post ∧ p.post.heap = t2.heap := by
  obtain ⟨L, lab, lab1, prev1, -, -, -, -, -, hbody, hcase⟩ := hP
  obtain ⟨t2, h1, h2⟩ := loopBody_beforeFix hbody
  refine ⟨t2, h1, h2, (FLO_grow h2).eq_of_noNull ?_⟩
  rcases hcase with ⟨_, hI1, _⟩ | ⟨_, hI1, _⟩
  · exact hI1.tree.noNull
  · exact hI1.tree.noNull

/-! ## Termination of `FixLengthOverflow` -/

theorem Grow.fixed_grow {h h1 : List Node} (g : Grow h h1) (hf : FixedNonEmpty h) :
    FixedNonEmpty h1 := by
  intro nd1 hnd1 e he x hx
  obtain ⟨u, hu⟩ := List.mem_iff_getElem?.1 hnd1
  have hlt : u < h.length := by
    rw [← g.1]
    exact (List.getElem?_eq_some.1 hu).1
  obtain ⟨extra, hx1, hd⟩ := g.2 u _ (List.getElem?_eq_getElem hlt)
  rw [hu] at hx1
  injection hx1 with hx1
  subst hx1
  simp only at he
  rcases List.mem_append.1 he with h3 | h3
  · exact hf _ (List.getElem_mem hlt) e h3 x hx
  · rw [hd e h3] at hx
    cases hx

/-- Every hop of the loop of `FixLengthOverflow` leaves a length that is at
least `1` and smaller than before, when the transitions with a fixed end are
not empty. -/
theorem FLO_hops_chain (s : List Nat) (index : Nat) :
    ∀ (fuel : Nat) (h : List Node) (ap : ActivePoint), FixedNonEmpty h →
      List.Chain (fun a b : ActivePoint => 1 ≤ b.length ∧ b.length < a.length) ap
        (FixLengthOverflowHops s index fuel h ap) := by
  intro fuel
  induction fuel with
  | zero =>
    intro h ap _
    unfold FixLengthOverflowHops
    exact List.Chain.nil
  | succ fuel ih =>
    intro h ap hfix
    unfold FixLengthOverflowHops
    by_cases hc : ap.c ≠ 0
    · rw [if_pos hc]
      cases hi : heapIndex h ap.node ap.c with
      | none => exact List.Chain.nil
      | some r =>
        obtain ⟨h1, tr⟩ := r
        simp only
        obtain ⟨g, hmem⟩ := heapIndex_grow hi
        cases hend : tr.end_ with
        | none => exact List.Chain.nil
        | some e =>
          simp only
          by_cases hcond : tr.start ≤ e ∧ ap.length > e - tr.start
          · rw [if_pos hcond]
            by_cases hidx : ap.length ≤ index + (e - tr.start)
            · rw [if_pos hidx]
              cases hch : charAt s (index + (e - tr.start) - ap.length) with
              | none => exact List.Chain.nil
              | some nc =>
                cases hnode : tr.node with
                | none => exact List.Chain.nil
                | some child =>
                  simp only
                  have hpos : 1 ≤ e - tr.start := by
                    rcases hmem with ⟨nd, hnd, hin⟩ | hdef
                    · exact hfix nd (List.mem_iff_getElem?.2 ⟨_, hnd⟩) (ap.c, tr) hin e hend
                    · rw [hdef] at hend
                      cases hend
                  refine List.Chain.cons ?_ (ih h1 _ (g.fixed_grow hfix))
                  simp only
                  omega
            · rw [if_neg hidx]; exact List.Chain.nil
          · rw [if_neg hcond]; exact List.Chain.nil
    · rw [if_neg hc]; exact List.Chain.nil

theorem chain_length_le :
    ∀ (l : List ActivePoint) (a : ActivePoint),
      List.Chain (fun a b : ActivePoint => 1 ≤ b.length ∧ b.length < a.length) a l →
      l.length ≤ a.length := by
  intro l
  induction l with
  | nil => intro a _; exact Nat.zero_le _
  | cons b l ih =>
    intro a hc
    rw [List.chain_cons] at hc
    have := ih b hc.2
    rw [List.length_cons]
    omega

/-- C16: for every text without NUL, in every pass of the extension loop
`FixLengthOverflow` is called on a tree in which every transition with a
fixed end has `end - start ≥ 1`, and it terminates, returning the tree at
the end of the pass; every hop of its loop leaves an `ap.length` that is at
least `1` and strictly smaller than before, so whatever the number of hops
allowed for, there are at most `ap.length` of them. -/
theorem FixLengthOverflow_terminates (s : List Nat) (hn : 0 ∉ s) (p : Pass)
    (hp : p ∈ passes s) :
    ∃ t2, beforeFix p.c p.index p.pre p.prev_created = some t2 ∧
      FixLengthOverflow t2 p.index = some p.post ∧ FixedNonEmpty t2.heap ∧
      ∀ fuel,
        List.Chain (fun a b : ActivePoint => 1 ≤ b.length ∧ b.length < a.length) t2.ap
          (FixLengthOverflowHops t2.s p.index fuel t2.heap t2.ap) ∧
        (FixLengthOverflowHops t2.s p.index fuel t2.heap t2.ap).length ≤ t2.ap.length := by
  have hP := (passes_inv hn (fun _ => True) (fun _ _ _ => trivial) trivial p hp).1
  obtain ⟨t2, h1, h2, h3⟩ := hP.fix
  obtain ⟨i, L, lab, prev, hI, -⟩ := hP.post_inv
  have hfix : FixedNonEmpty t2.heap := by
    rw [← h3]
    exact hI.tree.fixedNonEmpty
  refine ⟨t2, h1, h2, hfix, ?_⟩
  intro fuel
  have hch := FLO_hops_chain t2.s p.index fuel t2.heap t2.ap hfix
  exact ⟨hch, chain_length_le _ _ hch⟩

theorem FixLengthOverflow_terminates_witness :
    0 ∉ [97, 97, 98, 97, 97, 98, 36] ∧ ∃ p ∈ passes [97, 97, 98, 97, 97, 98, 36],
      ∃ t2, beforeFix p.c p.index p.pre p.prev_created = some t2 ∧
        (FixLengthOverflowHops t2.s p.index (t2.ap.length + 1) t2.heap t2.ap).length = 1 ∧
        FixLengthOverflow t2 p.index = some p.post ∧ FixedNonEmpty t2.heap ∧
        ∀ fuel,
          List.Chain (fun a b : ActivePoint => 1 ≤ b.length ∧ b.length < a.length) t2.ap
            (FixLengthOverflowHops t2.s p.index fuel t2.heap t2.ap) ∧
          (FixLengthOverflowHops t2.s p.index fuel t2.heap t2.ap).length ≤ t2.ap.length := by
  have h : ∃ p ∈ passes [97, 97, 98, 97, 97, 98, 36],
      ∃ t2 ∈ beforeFix p.c p.index p.pre p.prev_created,
        (FixLengthOverflowHops t2.s p.index (t2.ap.length + 1) t2.heap t2.ap).length = 1 := by
    decide
  obtain ⟨p, hp, t2, ht2, hh⟩ := h
  obtain ⟨t3, h1, h2, h3, h4⟩ :=
    FixLengthOverflow_terminates [97, 97, 98, 97, 97, 98, 36] (by decide) p hp
  have e : t3 = t2 := by
    rw [Option.mem_def, h1] at ht2
    injection ht2
  subst e
  exact ⟨by decide, p, hp, t3, h1, hh, h2, h3, h4⟩

/-! ## No default-constructed transition -/

theorem noNull_closeHeap {h : List Node} (size : Nat) (hn : NoNullChild h) :
    NoNullChild (closeHeap size h) := by
  intro nd1 hnd1 e1 he1
  unfold closeHeap at hnd1
  obtain ⟨nd, hnd, rfl⟩ := List.mem_map.1 hnd1
  obtain ⟨k, tr1⟩ := e1
  obtain ⟨tr, hmem, rfl⟩ := mem_closeEnds.1 he1
  rw [closeEdge_node]
  exact hn nd hnd (k, tr) hmem

theorem SnapHeap.noNull_snap {s : List Nat} {h : List Node} (hg : SnapHeap s h) : NoNullChild h := by
  rcases hg with ⟨i, L, lab, prev, hI⟩ | ⟨h0, ⟨i, L, lab, prev, hI⟩, rfl⟩
  · exact hI.noNull
  · exact noNull_closeHeap _ hI.noNull

/-- C18: for every text without NUL, no tree observable during or after
the construction has a transition without a child, so none has a
default-constructed transition; and in every pass of the extension loop,
when `ap.c` is not NUL the lookup of `ap.c` at `ap.node` (`to.at(ap.c)` in
`NeedToSplit`, `to[ap.c]` in the split branch) finds a transition, inserts
nothing, and `start + ap.length` is smaller than the index of the symbol
being processed; `FixLengthOverflow` returns the tree at the end of the pass
with the heap it was given, so its `to[ap.c]` inserted nothing either. -/
theorem no_default_edge (s : List Nat) (hn : 0 ∉ s) :
    (∀ t ∈ snapshots s, ∀ nd ∈ t.heap, ∀ e ∈ nd.to_,
      e.2.node ≠ none ∧ e.2 ≠ Transition.default) ∧
    (∀ p ∈ passes s,
      (p.pre.ap.c ≠ 0 → ∃ tr, edgeAt p.pre.heap p.pre.ap.node p.pre.ap.c = some tr ∧
        heapIndex p.pre.heap p.pre.ap.node p.pre.ap.c = some (p.pre.heap, tr) ∧
        tr.start + p.pre.ap.length < p.index) ∧
      ∃ t2, beforeFix p.c p.index p.pre p.prev_created = some t2 ∧
        FixLengthOverflow t2 p.index = some p.post ∧ p.post.heap = t2.heap) := by
  constructor
  · intro t ht nd hnd e he
    have h1 := (snapshots_good hn t ht).noNull_snap nd hnd e he
    refine ⟨h1, ?_⟩
    intro hd
    rw [hd] at h1
    exact h1 rfl
  · intro p hp
    have hP := (passes_inv hn (fun _ => True) (fun _ _ _ => trivial) trivial p hp).1
    refine ⟨?_, hP.fix⟩
    intro hc
    obtain ⟨L, lab, lab1, prev1, -, -, -, hI, -, -, -⟩ := hP
    obtain ⟨⟨hiff, -⟩, hedge⟩ := hI.activeOK (Nat.le_refl p.index)
    have hl : 0 < p.pre.ap.length := by
      cases Nat.eq_zero_or_pos p.pre.ap.length with
      | inl h0 => exact absurd (hiff.2 h0) hc
      | inr hl => exact hl
    obtain ⟨tr, he, h1, -⟩ := hedge hl
    exact ⟨tr, he, heapIndex_of_edge he, h1⟩

theorem no_default_edge_witness :
    0 ∉ [97, 98, 97, 98, 99, 36] ∧
    (∀ t ∈ snapshots [97, 98, 97, 98, 99, 36], ∀ nd ∈ t.heap, ∀ e ∈ nd.to_,
      e.2.node ≠ none ∧ e.2 ≠ Transition.default) ∧
    (∀ p ∈ passes [97, 98, 97, 98, 99, 36],
      (p.pre.ap.c ≠ 0 → ∃ tr, edgeAt p.pre.heap p.pre.ap.node p.pre.ap.c = some tr ∧
        heapIndex p.pre.heap p.pre.ap.node p.pre.ap.c = some (p.pre.heap, tr) ∧
        tr.start + p.pre.ap.length < p.index) ∧
      ∃ t2, beforeFix p.c p.index p.pre p.prev_created = some t2 ∧
        FixLengthOverflow t2 p.index = some p.post ∧ p.post.heap = t2.heap) :=
  ⟨by decide, no_default_edge [97, 98, 97, 98, 99, 36] (by decide)⟩

/-! ## Every internal node other than the root branches -/

theorem advance_heap {t t2 : SuffixTree} {index : Nat} (ha : advance t index = some t2) :
    t2.heap = t.heap := by
  unfold advance at ha
  simp only at ha
  repeat' split at ha
  all_goals first
    | (simp only [Option.some.injEq] at ha; subst ha; rfl)
    | cases ha

theorem Inv.beforeFix_branching {s : List Nat} {i L : Nat} {lab : Nat → List Nat}
    {t : SuffixTree} {prev : Option Nat} (hI : Inv s i L lab t prev) (hL : L ≤ i)
    (hi : i < s.length) {c : Nat} {t2 : SuffixTree}
    (hb : beforeFix c i t prev = some t2) (hB : Branching t.heap) : Branching t2.heap := by
  have hpos := hI.tree.pos hI.active
  unfold beforeFix at hb
  rw [NeedToSplit_eq hI.tree.edge hI.tree.nonul hI.text hpos] at hb
  cases hstep : step s t.heap t.ap c with
  | none =>
    rw [hstep] at hb
    simp only [Option.isNone_none] at hb
    by_cases hlen : t.ap.length = 0
    · have hc0 : t.ap.c = 0 := hpos.length_zero hlen
      have hnc : ¬ t.ap.c ≠ 0 := by simp [hc0]
      have hnone := step_none_node hI.tree.edge hlen hstep
      rw [if_neg hnc, leafBranch_eq i prev hpos.1 hnone] at hb
      simp only at hb
      have hh := advance_heap hb
      simp only at hh
      intro u hu0
      rw [hh, keysAt_linkHeap, keysAt_leafHeap hpos.1]
      by_cases hu : u = t.ap.node
      · rw [if_pos hu]
        right
        have hnl : leafAt t.heap t.ap.node = false := by
          rcases hI.tree.pos_not_leaf hpos (Nat.le_refl _) hI.tree.bound.2.1 with h1 | h1
          · exact h1
          · exfalso
            apply hu0
            rw [hu, h1]
        have hne : keysAt t.heap t.ap.node ≠ [] := by
          intro e
          rw [(leafAt_true_iff hpos.1).2 e] at hnl
          cases hnl
        rcases hB t.ap.node (by rw [← hu]; exact hu0) with h2 | h2
        · exact absurd h2 hne
        · rw [List.length_append]
          omega
      · rw [if_neg hu]
        by_cases hu2 : u = t.heap.length
        · rw [if_pos hu2]; exact Or.inl rfl
        · rw [if_neg hu2]; exact hB u hu0
    · have hlen' : 0 < t.ap.length := by omega
      have hloc : locus s t.heap (seg s L i) = some ⟨t.ap.node, t.ap.c, t.ap.length⟩ :=
        hI.active
      obtain ⟨tr, q, he, hq, hlt, hlti, hw, hx0, hkey, hlenu⟩ :=
        hI.tree.active_edge hL hloc hlen'
      obtain ⟨d, hd⟩ : ∃ d, s[tr.start + t.ap.length]? = some d :=
        ⟨_, List.getElem?_eq_getElem (by omega)⟩
      have hdc : d ≠ c := by
        intro e
        rw [e] at hd
        exact step_none_edge hI.tree.edge hlen' he hlt hstep hd
      have hd' : charAt t.s (tr.start + t.ap.length) = some d := by
        rw [hI.text, charAt_of_lt (by omega)]
        exact hd
      rw [if_pos hx0, splitBranch_eq i prev he hd' hdc] at hb
      simp only at hb
      have hh := advance_heap hb
      simp only at hh
      intro u hu0
      rw [hh, keysAt_linkHeap, keysAt_splitHeap he]
      by_cases hu2 : u = t.heap.length
      · rw [if_pos hu2]; right; simp
      · rw [if_neg hu2]; exact hB u hu0
  | some ap1 =>
    rw [hstep] at hb
    simp only [Option.isNone_some, Option.some.injEq] at hb
    rw [← hb]
    simp only
    intro u hu0
    cases prev with
    | none => exact hB u hu0
    | some pv =>
      simp only
      by_cases h0 : t.ap.node ≠ 0
      · rw [if_pos h0, keysAt_setLink]; exact hB u hu0
      · rw [if_neg h0]; exact hB u hu0

theorem PassInv.branching {s : List Nat} {p : Pass} (hP : PassInv s p)
    (hB : Branching p.pre.heap) : Branching p.post.heap := by
  obtain ⟨t2, h1, -, h3⟩ := hP.fix
  obtain ⟨L, lab, lab1, prev1, hi, -, hL, hI, -, -, -⟩ := hP
  rw [h3]
  exact hI.beforeFix_branching hL hi h1 hB

theorem loopTrace_eq_map (c index : Nat) :
    ∀ (fuel : Nat) (t : SuffixTree) (prev : Option Nat),
      loopTrace c index fuel t prev = (loopPasses c index fuel t prev).map Pass.post := by
  intro fuel
  induction fuel with
  | zero => intro t prev; rfl
  | succ fuel ih =>
    intro t prev
    unfold loopTrace loopPasses
    by_cases hr : t.remainder > 0
    · rw [if_pos hr, if_pos hr]
      cases hb : loopBody c index t prev with
      | none => rfl
      | some r =>
        obtain ⟨t1, p1, b⟩ := r
        cases b with
        | true => rfl
        | false =>
          simp only [List.map_cons]
          rw [ih t1 p1]
    · rw [if_neg hr, if_neg hr]
      rfl

theorem textTrace_eq_map :
    ∀ (cs : List Nat) (index : Nat) (t : SuffixTree),
      textTrace cs index t = (textPasses cs index t).map Pass.post := by
  intro cs
  induction cs with
  | nil => intro index t; rfl
  | cons c cs ih =>
    intro index t
    unfold textTrace textPasses
    rw [List.map_append, loopTrace_eq_map]
    congr 1
    cases AddSuffix t c index with
    | none => rfl
    | some t1 => exact ih (index + 1) t1

theorem branching_closeHeap {h : List Node} (size : Nat) (hB : Branching h) :
    Branching (closeHeap size h) := by
  intro u hu0
  rw [keysAt_closeHeap]
  exact hB u hu0

theorem branching_init : Branching [⟨[], none⟩] := by
  intro u hu0
  left
  unfold keysAt
  cases u with
  | zero => exact absurd rfl hu0
  | succ u => simp

/-- C19: for every text without NUL, in every tree observable during and
after the construction, every node other than the root that has an outgoing
edge has at least two. -/
theorem nodes_branch (s : List Nat) (hn : 0 ∉ s) (t : SuffixTree) (ht : t ∈ snapshots s)
    (u : Nat) (hu : u ≠ 0) (hk : keysAt t.heap u ≠ []) : 2 ≤ (keysAt t.heap u).length := by
  have hpass := passes_inv hn Branching (fun p hP hB => hP.branching hB) branching_init
  have hpre := prefixState_inv hn Branching (fun p hP hB => hP.branching hB) branching_init
  have key : Branching t.heap := by
    unfold snapshots at ht
    rcases List.mem_cons.1 ht with h1 | h1
    · rw [h1]; exact branching_init
    · rcases List.mem_append.1 h1 with h2 | h2
      · rw [textTrace_eq_map] at h2
        obtain ⟨p, hp, rfl⟩ := List.mem_map.1 h2
        exact (hpass p hp).2.2
      · obtain ⟨t1, L, lab, g1, -, -, -, -, g6, -⟩ := build_eq hn
        rw [g6] at h2
        simp only [List.mem_singleton] at h2
        obtain ⟨t0, L0, lab0, e1, -, -, -, hB⟩ := hpre s.length (Nat.le_refl _)
        unfold prefixState at e1
        rw [List.take_length, g1] at e1
        injection e1 with e1
        subst e1
        rw [h2]
        exact branching_closeHeap _ hB
  rcases key u hu with h3 | h3
  · exact absurd h3 hk
  · exact h3

theorem nodes_branch_witness :
    0 ∉ [97, 98, 97, 98, 99, 36] ∧ ∃ t ∈ snapshots [97, 98, 97, 98, 99, 36],
      (3 : Nat) ≠ 0 ∧ keysAt t.heap 3 ≠ [] ∧ 2 ≤ (keysAt t.heap 3).length := by
  have h : ∃ t ∈ snapshots [97, 98, 97, 98, 99, 36], keysAt t.heap 3 ≠ [] := by decide
  obtain ⟨t, ht, hk⟩ := h
  exact ⟨by decide, t, ht, by decide, hk,
    nodes_branch [97, 98, 97, 98, 99, 36] (by decide) t ht 3 (by decide) hk⟩

/-! ## Suffix links and the root -/

theorem SameLinks.refl_links (h : List Node) : SameLinks h h := ⟨Nat.le_refl _, fun _ => rfl⟩

theorem SameLinks.trans_links {h h1 h2 : List Node} (a : SameLinks h h1) (b : SameLinks h1 h2) :
    SameLinks h h2 :=
  ⟨Nat.le_trans a.1 b.1, fun v => (b.2 v).trans (a.2 v)⟩

theorem SameLinks.avoid {h h1 : List Node} (a : SameLinks h h1) (hl : LinksAvoidRoot h) :
    LinksAvoidRoot h1 :=
  ⟨Nat.lt_of_lt_of_le hl.1 a.1, by rw [a.2]; exact hl.2.1,
    fun v w hv => hl.2.2 v w (by rw [← a.2]; exact hv)⟩

theorem Grow.sameLinks {h h1 : List Node} (g : Grow h h1) : SameLinks h h1 := by
  refine ⟨Nat.le_of_eq g.1.symm, ?_⟩
  intro v
  unfold linkAt
  cases hv : h[v]? with
  | none =>
    have : h1[v]? = none := by
      rw [List.getElem?_eq_none_iff] at hv ⊢
      rw [g.1]; exact hv
    rw [this]
  | some nd =>
    obtain ⟨extra, hx, _⟩ := g.2 v nd hv
    rw [hx]

theorem sameLinks_setNode {h : List Node} {a : Nat} {n n1 : Node} (hn : h[a]? = some n)
    (hl : n1.suffix_link = n.suffix_link) : SameLinks h (setNode h a n1) := by
  refine ⟨Nat.le_of_eq (length_setNode _ _ _).symm, ?_⟩
  intro v
  unfold linkAt
  rw [getElem?_setNode]
  by_cases hav : a = v ∧ a < h.length
  · rw [if_pos hav, ← hav.1, hn]
    exact hl
  · rw [if_neg hav]

theorem sameLinks_append (h : List Node) (m : List (Nat × Transition)) :
    SameLinks h (h ++ [⟨m, none⟩]) := by
  refine ⟨by simp, ?_⟩
  intro v
  unfold linkAt
  by_cases hv : v < h.length
  · rw [List.getElem?_append_left hv]
  · have h1 : h[v]? = none := List.getElem?_eq_none (by omega)
    rw [h1]
    by_cases hv2 : v = h.length
    · subst hv2
      simp
    · have : (h ++ [(⟨m, none⟩ : Node)])[v]? = none :=
        List.getElem?_eq_none (by simp; omega)
      rw [this]

theorem avoid_setLink {h : List Node} {p w : Nat} (hl : LinksAvoidRoot h) (hp : p ≠ 0)
    (hw : w ≠ 0) : LinksAvoidRoot (setLink h p w) := by
  refine ⟨by rw [length_setLink]; exact hl.1, ?_, ?_⟩
  · rw [linkAt_setLink]
    have : ¬ (p = 0 ∧ 0 < h.length) := fun hc => hp hc.1
    rw [if_neg this]
    exact hl.2.1
  · intro v x hv
    rw [linkAt_setLink] at hv
    by_cases hc : p = v ∧ v < h.length
    · rw [if_pos hc] at hv
      injection hv with hv
      rw [← hv]
      exact hw
    · rw [if_neg hc] at hv
      exact hl.2.2 v x hv

theorem splitBranch_links {t t1 : SuffixTree} {c index m : Nat} {prev : Option Nat}
    (hs : splitBranch t c index prev = some (t1, m)) (hl : LinksAvoidRoot t.heap)
    (hp : prev ≠ some 0) : LinksAvoidRoot t1.heap ∧ m ≠ 0 := by
  unfold splitBranch at hs
  cases hi : heapIndex t.heap t.ap.node t.ap.c with
  | none => rw [hi] at hs; cases hs
  | some r =>
    obtain ⟨h1, to_c⟩ := r
    rw [hi] at hs
    simp only at hs
    have hl1 : LinksAvoidRoot h1 := (heapIndex_grow hi).1.sameLinks.avoid hl
    have hm : h1.length ≠ 0 := by have := hl1.1; omega
    cases hch : charAt t.s (to_c.start + t.ap.length) with
    | none => rw [hch] at hs; cases hs
    | some x =>
      cases hn : h1[t.ap.node]? with
      | none => rw [hch, hn] at hs; cases hs
      | some n =>
        rw [hch, hn] at hs
        simp only [Option.some.injEq, Prod.mk.injEq] at hs
        obtain ⟨hs1, hs2⟩ := hs
        rw [← hs1, ← hs2]
        refine ⟨?_, hm⟩
        have hA : ∀ (n1 : Node) (m1 : List (Nat × Transition)), n1.suffix_link = n.suffix_link →
            LinksAvoidRoot (setNode h1 t.ap.node n1 ++ [⟨m1, none⟩]) := fun n1 m1 e =>
          ((sameLinks_setNode hn e).trans_links (sameLinks_append _ _)).avoid hl1
        have hB : ∀ (n1 : Node) (m1 : List (Nat × Transition)), n1.suffix_link = n.suffix_link →
            LinksAvoidRoot (setNode h1 t.ap.node n1 ++ [⟨m1, none⟩] ++ [⟨[], none⟩]) :=
          fun n1 m1 e =>
          (((sameLinks_setNode hn e).trans_links (sameLinks_append _ _)).trans_links
            (sameLinks_append _ _)).avoid hl1
        cases prev with
        | none =>
          simp only
          split
          · exact hA _ _ rfl
          · exact hB _ _ rfl
        | some p =>
          simp only
          refine avoid_setLink ?_ (fun e => hp (by rw [e])) hm
          split
          · exact hA _ _ rfl
          · exact hB _ _ rfl

theorem leafBranch_links {t t1 : SuffixTree} {c index : Nat} {prev : Option Nat}
    (hs : leafBranch t c index prev = some t1) (hl : LinksAvoidRoot t.heap)
    (hp : prev ≠ some 0) : LinksAvoidRoot t1.heap := by
  unfold leafBranch at hs
  cases hn : t.heap[t.ap.node]? with
  | none => rw [hn] at hs; cases hs
  | some n =>
    rw [hn] at hs
    simp only [Option.some.injEq] at hs
    rw [← hs]
    have hA : LinksAvoidRoot (match mapFind n.to_ c with
        | some _ => t.heap
        | none => setNode t.heap t.ap.node
            { n with to_ := mapEmplace n.to_ c ⟨some t.heap.length, index, none⟩ } ++
              [⟨[], none⟩]) := by
      have hS : ∀ (n1 : Node) (m1 : List (Nat × Transition)),
          n1.suffix_link = n.suffix_link →
          LinksAvoidRoot (setNode t.heap t.ap.node n1 ++ [⟨m1, none⟩]) := fun n1 m1 e =>
        ((sameLinks_setNode hn e).trans_links (sameLinks_append _ _)).avoid hl
      cases mapFind n.to_ c with
      | some _ => exact hl
      | none => exact hS _ _ rfl
    cases prev with
    | none => exact hA
    | some p =>
      simp only
      by_cases hw : t.ap.node ≠ 0
      · rw [if_pos hw]
        exact avoid_setLink hA (fun e => hp (by rw [e])) hw
      · rw [if_neg hw]
        exact hA

theorem FLO_links {t t3 : SuffixTree} {index : Nat}
    (hf : FixLengthOverflow t index = some t3) (hl : LinksAvoidRoot t.heap) :
    LinksAvoidRoot t3.heap :=
  (FLO_grow hf).sameLinks.avoid hl

theorem loopBody_links {c index : Nat} {t t3 : SuffixTree} {prev p1 : Option Nat} {b : Bool}
    (hb : loopBody c index t prev = some (t3, p1, b)) (hl : LinksAvoidRoot t.heap)
    (hp : prev ≠ some 0) : LinksAvoidRoot t3.heap ∧ p1 ≠ some 0 := by
  unfold loopBody at hb
  cases hN : NeedToSplit t c with
  | none => rw [hN] at hb; cases hb
  | some bb =>
    rw [hN] at hb
    cases bb with
    | true =>
      simp only at hb
      by_cases hc : t.ap.c ≠ 0
      · simp only [if_pos hc] at hb
        cases hs : splitBranch t c index prev with
        | none => rw [hs] at hb; cases hb
        | some r =>
          obtain ⟨t1, m⟩ := r
          rw [hs] at hb
          simp only at hb
          obtain ⟨hl1, hm⟩ := splitBranch_links hs hl hp
          cases ha : advance t1 index with
          | none => rw [ha] at hb; cases hb
          | some t2 =>
            rw [ha] at hb
            simp only at hb
            cases hf : FixLengthOverflow t2 index with
            | none => rw [hf] at hb; cases hb
            | some t4 =>
              rw [hf] at hb
              simp only [Option.some.injEq, Prod.mk.injEq] at hb
              obtain ⟨e1, e2, _⟩ := hb
              rw [← e1, ← e2]
              refine ⟨FLO_links hf (by rw [advance_heap ha]; exact hl1), ?_⟩
              intro e
              injection e with e
              exact hm e
      · simp only [if_neg hc] at hb
        cases hs : leafBranch t c index prev with
        | none => rw [hs] at hb; cases hb
        | some t1 =>
          rw [hs] at hb
          simp only at hb
          have hl1 := leafBranch_links hs hl hp
          cases ha : advance t1 index with
          | none => rw [ha] at hb; cases hb
          | some t2 =>
            rw [ha] at hb
            simp only at hb
            cases hf : FixLengthOverflow t2 index with
            | none => rw [hf] at hb; cases hb
            | some t4 =>
              rw [hf] at hb
              simp only [Option.some.injEq, Prod.mk.injEq] at hb
              obtain ⟨e1, e2, _⟩ := hb
              rw [← e1, ← e2]
              exact ⟨FLO_links hf (by rw [advance_heap ha]; exact hl1), by simp⟩
    | false =>
      simp only at hb
      cases hf : FixLengthOverflow _ index with
      | none => rw [hf] at hb; cases hb
      | some t4 =>
        rw [hf] at hb
        simp only [Option.some.injEq, Prod.mk.injEq] at hb
        obtain ⟨e1, e2, _⟩ := hb
        rw [← e1, ← e2]
        refine ⟨FLO_links hf ?_, by simp⟩
        simp only
        cases prev with
        | none => exact hl
        | some p =>
          simp only
          by_cases hw : t.ap.node ≠ 0
          · rw [if_pos hw]
            exact avoid_setLink hl (fun e => hp (by rw [e])) hw
          · rw [if_neg hw]
            exact hl

theorem loopTrace_links (c index : Nat) :
    ∀ (fuel : Nat) (t : SuffixTree) (prev : Option Nat), LinksAvoidRoot t.heap →
      prev ≠ some 0 →
      (∀ t2 ∈ loopTrace c index fuel t prev, LinksAvoidRoot t2.heap) ∧
        ∀ t1, AddSuffixLoop c index fuel t prev = some t1 → LinksAvoidRoot t1.heap := by
  intro fuel
  induction fuel with
  | zero =>
    intro t prev hl _
    constructor
    · intro t2 h2
      unfold loopTrace at h2
      cases h2
    · intro t1 h1
      unfold AddSuffixLoop at h1
      split at h1
      · cases h1
      · injection h1 with h1; rw [← h1]; exact hl
  | succ fuel ih =>
    intro t prev hl hp
    unfold loopTrace AddSuffixLoop
    by_cases hr : t.remainder > 0
    · rw [if_pos hr, if_pos hr]
      cases hb : loopBody c index t prev with
      | none =>
        constructor
        · intro t2 h2; cases h2
        · intro t1 h1; cases h1
      | some r =>
        obtain ⟨t1, p1, b⟩ := r
        obtain ⟨hl1, hp1⟩ := loopBody_links hb hl hp
        cases b with
        | true =>
          simp only
          constructor
          · intro t2 h2
            rw [List.mem_singleton] at h2
            rw [h2]; exact hl1
          · intro t2 h2
            injection h2 with h2
            rw [← h2]; exact hl1
        | false =>
          simp only
          obtain ⟨g1, g2⟩ := ih t1 p1 hl1 hp1
          constructor
          · intro t2 h2
            rcases List.mem_cons.1 h2 with h3 | h3
            · rw [h3]; exact hl1
            · exact g1 t2 h3
          · exact g2
    · rw [if_neg hr, if_neg hr]
      constructor
      · intro t2 h2; cases h2
      · intro t1 h1
        injection h1 with h1; rw [← h1]; exact hl

theorem textTrace_links :
    ∀ (cs : List Nat) (index : Nat) (t : SuffixTree), LinksAvoidRoot t.heap →
      (∀ t2 ∈ textTrace cs index t, LinksAvoidRoot t2.heap) ∧
        ∀ t1, addAll cs index t = some t1 → LinksAvoidRoot t1.heap := by
  intro cs
  induction cs with
  | nil =>
    intro index t hl
    constructor
    · intro t2 h2
      unfold textTrace at h2
      cases h2
    · intro t1 h1
      unfold addAll at h1
      injection h1 with h1
      rw [← h1]; exact hl
  | cons c cs ih =>
    intro index t hl
    obtain ⟨g1, g2⟩ := loopTrace_links c index (t.remainder + 1)
      { t with remainder := t.remainder + 1 } none hl (by simp)
    unfold textTrace addAll
    cases ha : AddSuffix t c index with
    | none =>
      simp only [List.append_nil]
      exact ⟨g1, fun t1 h1 => by cases h1⟩
    | some t1 =>
      simp only
      obtain ⟨k1, k2⟩ := ih (index + 1) t1 (g2 t1 ha)
      constructor
      · intro t2 h2
        rcases List.mem_append.1 h2 with h3 | h3
        · exact g1 t2 h3
        · exact k1 t2 h3
      · exact k2

theorem heapLe_sameLinks {size : Nat} {h h1 : List Node} (hle : heapLe size h h1) :
    SameLinks h h1 := by
  refine ⟨Nat.le_of_eq hle.1.symm, ?_⟩
  intro v
  unfold linkAt
  cases hv : h[v]? with
  | none =>
    have : h1[v]? = none := by
      rw [List.getElem?_eq_none_iff] at hv ⊢
      rw [hle.1]; exact hv
    rw [this]
  | some nd =>
    obtain ⟨nd1, h2, h3⟩ := heapLe_get hle hv
    rw [h2]
    exact h3.1

/-- C14: for every text, in every tree observable during and after the
construction the `suffix_link` of the root is null and no `suffix_link`
points to the root; and the cursor advance after an extension, run with
`ap.node` at the root, gives the same result whatever the heap, so it reads
no `suffix_link` there. -/
theorem root_link_unused (s : List Nat) :
    (∀ t ∈ snapshots s, linkAt t.heap 0 = none ∧ ∀ v w, linkAt t.heap v = some w → w ≠ 0) ∧
    (∀ (t : SuffixTree) (h2 : List Node) (index : Nat), t.ap.node = 0 →
      advance { t with heap := h2 } index =
        (advance t index).map fun r => { r with heap := h2 }) := by
  constructor
  · have h0 : LinksAvoidRoot ({ SuffixTree.init s with node_count := 1 } : SuffixTree).heap :=
      ⟨Nat.zero_lt_one, rfl, fun v w hv => by
        unfold linkAt at hv
        cases v with
        | zero => cases hv
        | succ v => cases hv⟩
    obtain ⟨g1, g2⟩ := textTrace_links s 0 _ h0
    have key : ∀ t ∈ snapshots s, LinksAvoidRoot t.heap := by
      intro t ht
      unfold snapshots at ht
      rcases List.mem_cons.1 ht with h1 | h1
      · rw [h1]; exact h0
      · rcases List.mem_append.1 h1 with h2 | h2
        · exact g1 t h2
        · unfold build Initialize at h2
          have e : (SuffixTree.init s).s = s := rfl
          have e1 : (SuffixTree.init s).node_count + 1 = 1 := rfl
          cases ha : addAll (SuffixTree.init s).s 0
              { SuffixTree.init s with node_count := (SuffixTree.init s).node_count + 1 } with
          | none => rw [ha] at h2; cases h2
          | some t1 =>
            rw [ha] at h2
            simp only at h2
            have hl1 : LinksAvoidRoot t1.heap := g2 t1 ha
            cases hf : FinishString t1.s.length (t1.s.length + 1) t1.heap 0 with
            | none => rw [hf] at h2; cases h2
            | some hh =>
              rw [hf] at h2
              simp only [List.mem_singleton] at h2
              rw [h2]
              exact (heapLe_sameLinks (FinishString_spec _ _ _ _ _ hf).1).avoid hl1
    intro t ht
    exact (key t ht).2
  · intro t h2 index h0
    unfold advance
    simp only [h0, if_true]
    split_ifs
    all_goals first
      | rfl
      | (cases charAt t.s (index - (t.remainder - 1) + 1) <;> rfl)

/-! ## The text `"abcabxabcd$"` -/

/-- C11: the tree built for `"abcabxabcd$"` has exactly 11 leaves, and it
has a suffix link from an internal node to an internal node that were both
created by edge splits (passes in which `NeedToSplit` holds with `ap.c` not
NUL, which add two nodes, the first of them internal) while the same symbol
was processed, that is within one call of `AddSuffix`. -/
theorem abcabxabcd_tree :
    ∃ t, build [97, 98, 99, 97, 98, 120, 97, 98, 99, 100, 36] = some t ∧
      leafCount t.heap = 11 ∧
      ∃ p1 ∈ passes [97, 98, 99, 97, 98, 120, 97, 98, 99, 100, 36],
      ∃ p2 ∈ passes [97, 98, 99, 97, 98, 120, 97, 98, 99, 100, 36],
        p1.index = p2.index ∧
        NeedToSplit p1.pre p1.c = some true ∧ p1.pre.ap.c ≠ 0 ∧
        NeedToSplit p2.pre p2.c = some true ∧ p2.pre.ap.c ≠ 0 ∧
        p1.post.heap.length = p1.pre.heap.length + 2 ∧
        p2.post.heap.length = p2.pre.heap.length + 2 ∧
        leafAt t.heap p1.pre.heap.length = false ∧
        leafAt t.heap p2.pre.heap.length = false ∧
        linkAt t.heap p1.pre.heap.length = some p2.pre.heap.length := by
  have h : ∃ t ∈ build [97, 98, 99, 97, 98, 120, 97, 98, 99, 100, 36],
      leafCount t.heap = 11 ∧
      ∃ p1 ∈ passes [97, 98, 99, 97, 98, 120, 97, 98, 99, 100, 36],
      ∃ p2 ∈ passes [97, 98, 99, 97, 98, 120, 97, 98, 99, 100, 36],
        p1.index = p2.index ∧
        NeedToSplit p1.pre p1.c = some true ∧ p1.pre.ap.c ≠ 0 ∧
        NeedToSplit p2.pre p2.c = some true ∧ p2.pre.ap.c ≠ 0 ∧
        p1.post.heap.length = p1.pre.heap.length + 2 ∧
        p2.post.heap.length = p2.pre.heap.length + 2 ∧
        leafAt t.heap p1.pre.heap.length = false ∧
        leafAt t.heap p2.pre.heap.length = false ∧
        linkAt t.heap p1.pre.heap.length = some p2.pre.heap.length := by
    decide
  obtain ⟨t, ht, h1⟩ := h
  exact ⟨t, ht, h1⟩

end Ukkonen
